import Mathlib

/-!
Verification development for the y-prosemirror binding
(src/dist/y-prosemirror.cjs): a shallow embedding of the tree
reconciliation engine (`updateYFragment` and its helpers), the reverse
materializer (`createNodeFromYElement` / `createTextNodesFromYText`),
the snapshot visibility logic (`isVisible`, `_renderSnapshot`) and the
position translators (`absolutePositionToRelativePosition`,
`relativePositionToAbsolutePosition`), together with theorems settling
the specification claims about them.

Modelling conventions:
* JavaScript attribute values are modelled by `JVal` (null, an atomic
  primitive, or a nested object).  JavaScript `===` on values is
  modelled by structural equality; for the reconciler this is sound
  because every value the code compares by `===` after a completed run
  is the very object it previously stored.
* Mutable objects carry an explicit identity (`ref : Nat`); reference
  equality of ProseMirror nodes is equality of nodes including their
  `ref`, references being unique inside one document.
* The Yjs CRDT engine is an external dependency of the repository; its
  types are modelled through their visible interface: a `Y.XmlText` by
  its list of visible insert runs, a `Y.XmlElement` by name, attribute
  map and visible children.  Where a claim depends on a Yjs entry point
  (`createAbsolutePositionFromRelativePosition`,
  `typeListToArraySnapshot`) the entry point is modelled from its
  documented interface semantics.
-/

namespace YPM

/-- JavaScript attribute values: `null`, an atomic primitive (string,
number, boolean — all collapsed into one atom type), or a nested plain
object. -/
inductive JVal : Type where
  | jnull : JVal
  | jprim : String → JVal
  | jobj : List (String × JVal) → JVal
  deriving Repr

mutual

/-- Structural equality of JavaScript values (the model of `===` on
attribute values, see the conventions above). -/
def jbeq : JVal → JVal → Bool
  | .jnull, .jnull => true
  | .jprim s, .jprim t => s == t
  | .jobj a, .jobj b => jbeqF a b
  | _, _ => false

/-- Structural equality of field lists. -/
def jbeqF : List (String × JVal) → List (String × JVal) → Bool
  | [], [] => true
  | (k, v) :: xs, (l, w) :: ys => k == l && jbeq v w && jbeqF xs ys
  | _, _ => false

end

instance : BEq JVal := ⟨jbeq⟩

/-- `===` between a present value and a possibly-`undefined` value. -/
def obeq : Option JVal → Option JVal → Bool
  | some x, some y => jbeq x y
  | none, none => true
  | _, _ => false

/-- A JavaScript object used as an attribute map: an association list
with the source's key order.  JavaScript objects have unique keys; the
well-formedness predicates below record that. -/
abbrev Attrs := List (String × JVal)

/-- `obj[key]`: `some v` when the key is present (`v` may be `jnull`),
`none` when the key is absent (JavaScript `undefined`). -/
def alookup (a : Attrs) (k : String) : Option JVal :=
  match a with
  | [] => none
  | (k₀, v₀) :: rest => if k₀ = k then some v₀ else alookup rest k

/-- Size measure used for termination of `equalAttrs`. -/
def sizeJ : JVal → Nat
  | .jnull => 1
  | .jprim _ => 1
  | .jobj fields => 1 + sizeA fields
where
  /-- Size of an attribute list. -/
  sizeA : List (String × JVal) → Nat
  | [] => 0
  | (_, v) :: rest => 1 + sizeJ v + sizeA rest

/-- `typeof x === 'object'` for a looked-up value (note `typeof null`
is `'object'` in JavaScript, while an absent key is `undefined`). -/
def typeofObject : Option JVal → Bool
  | some .jnull => true
  | some (.jobj _) => true
  | _ => false

/-- Field list of a value treated as an object.  `Object.keys(null)`
throws a `TypeError` in JavaScript; this value-level view treats
`null` as the empty object, and the separate predicate `eaThrows`
(below) records exactly when that `TypeError` is raised, so the
reconciler consults `asObj`'s value only on non-throwing paths. -/
def asObj : Option JVal → Attrs
  | some (.jobj fields) => fields
  | _ => []

/-- The non-null entries of an attribute map, in order.  Iterating
their keys is `Object.keys(pattrs).filter(key => pattrs[key] !== null)`
(keys of a JavaScript object are unique, so looking each key up again
returns the entry's own value). -/
def nonNullEntries (a : Attrs) : Attrs :=
  a.filter (fun kv => !(jbeq kv.2 JVal.jnull))

/-- Number of non-null keys of an attribute map. -/
def nonNullCount (a : Attrs) : Nat :=
  (nonNullEntries a).length

theorem sizeA_nonNullEntries_le (a : Attrs) :
    sizeJ.sizeA (nonNullEntries a) ≤ sizeJ.sizeA a := by
  induction a with
  | nil => simp [nonNullEntries]
  | cons hd tl ih =>
    obtain ⟨k, v⟩ := hd
    by_cases h : jbeq v JVal.jnull
    · simp [nonNullEntries, List.filter_cons, h, sizeJ.sizeA] at *
      omega
    · simp [nonNullEntries, List.filter_cons, h, sizeJ.sizeA] at *
      omega

mutual

/-- `equalAttrs` (src/dist/y-prosemirror.cjs:557-567): compares the
non-null key counts, then walks the first map's non-null keys; the
`ychange` key short-circuits to true, otherwise the two values are
compared by `===` or, when both sides are objects, recursively.
The recursive call passes the raw values, and `typeof null` is
`'object'`, so `null` can reach a recursive `equalAttrs` call whose
`Object.keys(null)` throws a `TypeError`; this function is the value
the source returns when that does not happen, and `eaThrows` below
decides, with the same evaluation order and short-circuits, whether
the call throws. -/
def equalAttrs (pattrs yattrs : Attrs) : Bool :=
  eaLoop yattrs (nonNullEntries pattrs)
    (nonNullCount pattrs == nonNullCount yattrs)
termination_by 3 * sizeJ.sizeA pattrs + 2
decreasing_by
  have := sizeA_nonNullEntries_le pattrs
  omega

/-- The `for` loop of `equalAttrs`: runs while `eq` holds, updating
`eq` from the comparison of the values at each non-null key of the
first map. -/
def eaLoop (yattrs : Attrs) : Attrs → Bool → Bool
  | [], eq => eq
  | (k, v) :: ks, eq =>
    if eq then
      eaLoop yattrs ks (k == "ychange" || cmpVal v (alookup yattrs k))
    else eq
termination_by ks => 3 * sizeJ.sizeA ks + 1
decreasing_by
  all_goals (simp [sizeJ.sizeA]; try omega)

/-- `l === r || (typeof l === 'object' && typeof r === 'object' &&
equalAttrs(l, r))` — the comparison of a present left value with the
(possibly absent) right value. -/
def cmpVal (l : JVal) (r : Option JVal) : Bool :=
  obeq (some l) r ||
    (typeofObject (some l) && typeofObject r && equalAttrs (asObj (some l)) (asObj r))
termination_by 3 * sizeJ l
decreasing_by
  rcases l with _ | _s | fields
  · simp [asObj, sizeJ, sizeJ.sizeA]
  · simp [asObj, sizeJ, sizeJ.sizeA]
  · simp [asObj, sizeJ]; omega

end

mutual

/-- Whether `equalAttrs(pattrs, yattrs)` throws a `TypeError`.  The
top-level call never does (both arguments are attribute objects); the
loop body evaluates `key === 'ychange' || l === r || (typeof l ===
'object' && typeof r === 'object' && equalAttrs(l, r))` left to right,
and the recursive `equalAttrs` call throws at `Object.keys(null)`
whenever one of the two object-typed values is `null` (only the other
can be, since the iterated keys are the non-null ones), or throws
deeper inside when both are genuine objects.  When the non-null key
counts differ the equality flag starts out false, the loop body never
runs, and nothing throws. -/
def eaThrows (pattrs yattrs : Attrs) : Bool :=
  if nonNullCount pattrs == nonNullCount yattrs then
    eaThrowsLoop yattrs (nonNullEntries pattrs)
  else false
termination_by 3 * sizeJ.sizeA pattrs + 2
decreasing_by
  have := sizeA_nonNullEntries_le pattrs
  omega

/-- The loop of `eaThrows`, walking the non-null entries of the first
map.  The `ychange` key short-circuits before any comparison; a
comparison that throws ends the run; otherwise the loop continues
exactly when the comparison (`cmpVal`, the value model) came out
true, since once the equality flag is false the loop exits and
nothing further is evaluated. -/
def eaThrowsLoop (yattrs : Attrs) : Attrs → Bool
  | [] => false
  | (k, v) :: ks =>
    if k == "ychange" then eaThrowsLoop yattrs ks
    else if cmpThrows v (alookup yattrs k) then true
    else if cmpVal v (alookup yattrs k) then eaThrowsLoop yattrs ks
    else false
termination_by ks => 3 * sizeJ.sizeA ks + 1
decreasing_by
  all_goals (simp [sizeJ, sizeJ.sizeA]; try omega)

/-- Whether evaluating `l === r || (typeof l === 'object' && typeof r
=== 'object' && equalAttrs(l, r))` throws: `===` and the `typeof`
guards are pure, and the recursive `equalAttrs` call throws at
`Object.keys(null)` when one side is `null` (both are object-typed
here, so the other is a genuine object), or deeper inside when both
are genuine objects. -/
def cmpThrows (l : JVal) (r : Option JVal) : Bool :=
  if obeq (some l) r then false
  else if typeofObject (some l) && typeofObject r then
    match l, r with
    | .jobj a, some (.jobj b) => eaThrows a b
    | _, _ => true
  else false
termination_by 3 * sizeJ l
decreasing_by
  simp [sizeJ]
  omega

end

/-! ## ProseMirror nodes -/

/-- A ProseMirror mark: a mark type name and its attributes. -/
structure PMark where
  name : String
  attrs : Attrs
  deriving Repr

/-- Mark equality (`===` on marks is approximated structurally; marks
of equal type and attributes are interchangeable for every use the
binding makes of them). -/
def pmarkBeq (a b : PMark) : Bool :=
  a.name == b.name && jbeqF a.attrs b.attrs

instance : BEq PMark := ⟨pmarkBeq⟩

/-- A ProseMirror node: an element node (type name, attributes,
children) or a text node (string, marks).  `ref` is the node's object
identity: ProseMirror nodes are immutable and compared by reference
(`===`) in the binding, which equals structural-equality-with-`ref`
while references inside one document are unique. -/
inductive PNode : Type where
  | node : String → Attrs → List PNode → Nat → PNode
  | ptext : String → List PMark → Nat → PNode
  deriving Repr

/-- Mark-list equality. -/
def pmarkBeqL : List PMark → List PMark → Bool
  | [], [] => true
  | x :: xs, y :: ys => pmarkBeq x y && pmarkBeqL xs ys
  | _, _ => false

mutual

/-- `===` on ProseMirror nodes (structural equality including `ref`). -/
def pnodeBeq : PNode → PNode → Bool
  | .node n a c r, .node n' a' c' r' =>
    n == n' && jbeqF a a' && pnodeBeqL c c' && r == r'
  | .ptext s m r, .ptext s' m' r' =>
    s == s' && pmarkBeqL m m' && r == r'
  | _, _ => false

/-- `===`-lists. -/
def pnodeBeqL : List PNode → List PNode → Bool
  | [], [] => true
  | x :: xs, y :: ys => pnodeBeq x y && pnodeBeqL xs ys
  | _, _ => false

end

instance : BEq PNode := ⟨pnodeBeq⟩

/-- `node.type.name` (ProseMirror text nodes have type name `"text"`). -/
def pName : PNode → String
  | .node n _ _ _ => n
  | .ptext _ _ _ => "text"

/-- `node.attrs` (text nodes have an empty attribute object). -/
def attrsOf : PNode → Attrs
  | .node _ a _ _ => a
  | .ptext _ _ _ => []

/-- `node.content.content`. -/
def contentOf : PNode → List PNode
  | .node _ _ c _ => c
  | .ptext _ _ _ => []

/-- `node.isText`. -/
def isText : PNode → Bool
  | .ptext _ _ _ => true
  | _ => false

/-- `node.text` (`undefined` on non-text nodes; only read on text). -/
def textOf : PNode → String
  | .ptext s _ _ => s
  | _ => ""

/-- `node.marks` (empty on non-text nodes in this binding's use). -/
def marksOf : PNode → List PMark
  | .ptext _ m _ => m
  | _ => []

/-- One entry of the normalized child sequence of
`normalizePNodeContent`: either a single non-text node or a group of
consecutive text nodes. -/
inductive NUnit : Type where
  | single : PNode → NUnit
  | group : List PNode → NUnit
  deriving Repr

/-- `normalizePNodeContent` (src/dist/y-prosemirror.cjs:577-594):
consecutive text children are collected into one group, other children
stand alone. -/
def normalizePNodeContent : List PNode → List NUnit
  | [] => []
  | n :: rest =>
    if isText n then
      .group (n :: rest.takeWhile isText) ::
        normalizePNodeContent (rest.dropWhile isText)
    else
      .single n :: normalizePNodeContent rest
termination_by l => l.length
decreasing_by
  · have := List.Sublist.length_le (List.dropWhile_sublist (l := rest) (p := isText))
    simp; omega
  · simp

/-- `marksToAttributes` (src/dist/y-prosemirror.cjs:702-710): collects
each mark's attributes under the mark's type name, skipping `ychange`
marks.  ProseMirror guarantees distinct mark types on one text node,
so the object build is a filter-and-map. -/
def marksToAttributes (marks : List PMark) : List (String × Attrs) :=
  (marks.filter (fun m => m.name != "ychange")).map (fun m => (m.name, m.attrs))

/-! ## Yjs XML types (visible interface model) -/

/-- Attribute object of one insert run of a `Y.XmlText` delta: mark
type name to mark attributes. -/
abbrev TAttrs := List (String × Attrs)

/-- One insert run of a `Y.XmlText` delta. -/
abbrev Run := String × TAttrs

/-- Equality of run attribute objects. -/
def tattrsBeq (a b : TAttrs) : Bool :=
  match a, b with
  | [], [] => true
  | (k, v) :: xs, (l, w) :: ys => k == l && jbeqF v w && tattrsBeq xs ys
  | _, _ => false

/-- A Yjs XML node, modelled by its visible (non-tombstoned) state:
an element (`Y.XmlElement`), a root fragment (`Y.XmlFragment`), or a
text node (`Y.XmlText`, by its visible insert runs).  `ref` is the
type's identity (the key of the ProsemirrorMapping). -/
inductive YNode : Type where
  | yel : String → Attrs → List YNode → Nat → YNode
  | yfrag : List YNode → Nat → YNode
  | ytx : List Run → Nat → YNode
  deriving Repr

/-- The type's identity. -/
def yref : YNode → Nat
  | .yel _ _ _ r => r
  | .yfrag _ r => r
  | .ytx _ r => r

/-- `toArray()` of an element or fragment (empty for text). -/
def ychildren : YNode → List YNode
  | .yel _ _ c _ => c
  | .yfrag c _ => c
  | .ytx _ _ => []

/-- `getAttributes()` of an element (empty otherwise). -/
def yattrsOf : YNode → Attrs
  | .yel _ a _ _ => a
  | _ => []

/-- `nodeName` of an element. -/
def ynameOf : YNode → String
  | .yel n _ _ _ => n
  | _ => ""

/-- `instanceof Y.XmlElement`. -/
def isYEl : YNode → Bool
  | .yel _ _ _ _ => true
  | _ => false

/-- `instanceof Y.XmlText`. -/
def isYText : YNode → Bool
  | .ytx _ _ => true
  | _ => false

/-- Normalization of a run list: the visible delta `toDelta()` returns,
with empty runs dropped and adjacent runs of identical formatting
merged (the Yjs text CRDT reports contiguous equally-formatted text as
one delta op). -/
def normRuns : List Run → List Run
  | [] => []
  | (s, a) :: rest =>
    if s = "" then normRuns rest
    else
      match normRuns rest with
      | [] => [(s, a)]
      | (t, b) :: tail =>
        if tattrsBeq a b then (s ++ t, a) :: tail else (s, a) :: (t, b) :: tail

/-- The mapped local value of one Yjs type: a single ProseMirror node
for an element, an array of text nodes for a text type. -/
inductive LVal : Type where
  | lnode : PNode → LVal
  | lgroup : List PNode → LVal
  deriving Repr

/-- The ProsemirrorMapping: `Map<Y.AbstractType, PMNode|Array<PMNode>>`,
keyed by type identity. -/
abbrev Mapping := List (Nat × LVal)

/-- `mapping.get`. -/
def mget (m : Mapping) (r : Nat) : Option LVal :=
  match m with
  | [] => none
  | (r₀, v) :: rest => if r₀ = r then some v else mget rest r

/-- `mapping.set` (replaces an existing binding). -/
def mset (m : Mapping) (r : Nat) (v : LVal) : Mapping :=
  match m with
  | [] => [(r, v)]
  | (r₀, v₀) :: rest => if r₀ = r then (r, v) :: rest else (r₀, v₀) :: mset rest r v

/-- `mapping.delete`. -/
def mdel (m : Mapping) (r : Nat) : Mapping :=
  match m with
  | [] => []
  | (r₀, v₀) :: rest => if r₀ = r then mdel rest r else (r₀, v₀) :: mdel rest r

/-! ## Equality oracle -/

/-- Lookup in a run attribute object (`d.attributes[name]`). -/
def lookupT (a : TAttrs) (k : String) : Option Attrs :=
  match a with
  | [] => none
  | (k₀, v) :: rest => if k₀ = k then some v else lookupT rest k

/-- `equalYTextPText` (src/dist/y-prosemirror.cjs:600-603): the delta
of the text type matches the local text nodes run-for-run: same
string, same number of formatting keys, and each mark's attributes
equal the delta attributes under the mark's name. -/
def equalYTextPText (runs : List Run) (ptexts : List PNode) : Bool :=
  let delta := normRuns runs
  delta.length == ptexts.length &&
    (delta.zip ptexts).all fun (d, p) =>
      d.1 == textOf p && d.2.length == (marksOf p).length &&
        (marksOf p).all fun mark =>
          equalAttrs ((lookupT d.2 mark.name).getD []) mark.attrs

/-- Whether the inner `marks.every(mark => equalAttrs(...))` of
`equalYTextPText` throws: `every` stops at the first false, so a later
mark is only evaluated (and can only throw) when every earlier
comparison returned true. -/
def eytMarksThrows (d2 : TAttrs) : List PMark → Bool
  | [] => false
  | mark :: ms =>
    if eaThrows ((lookupT d2 mark.name).getD []) mark.attrs then true
    else if equalAttrs ((lookupT d2 mark.name).getD []) mark.attrs then
      eytMarksThrows d2 ms
    else false

/-- Whether the `delta.every(...)` of `equalYTextPText` throws: the
two pure conjuncts of an element are evaluated first, and a later
element is only evaluated when every earlier one returned true. -/
def eytThrowsLoop : List (Run × PNode) → Bool
  | [] => false
  | (d, p) :: rest =>
    if d.1 == textOf p && d.2.length == (marksOf p).length then
      if eytMarksThrows d.2 (marksOf p) then true
      else if (marksOf p).all (fun mark =>
          equalAttrs ((lookupT d.2 mark.name).getD []) mark.attrs) then
        eytThrowsLoop rest
      else false
    else false

/-- Whether `equalYTextPText` (src/dist/y-prosemirror.cjs:600-603)
throws; a length mismatch short-circuits the whole `every`. -/
def eytThrows (runs : List Run) (ptexts : List PNode) : Bool :=
  let delta := normRuns runs
  if delta.length == ptexts.length then eytThrowsLoop (delta.zip ptexts)
  else false

/-- `matchNodeName` (src/dist/y-prosemirror.cjs:839): the candidate is
not an array and the element's `nodeName` equals the node's type name. -/
def matchNodeName (yel : YNode) (p : NUnit) : Bool :=
  match p with
  | .single n => ynameOf yel == pName n
  | .group _ => false

mutual

/-- `equalYTypePNode` (src/dist/y-prosemirror.cjs:609-615): an element
matches a single node of the same name when child counts, attributes
(via `equalAttrs`) and children all match; a text type matches a text
group via `equalYTextPText`. -/
def equalYTypePNode : YNode → NUnit → Bool
  | .yel n a cs r, p =>
    match p with
    | .single pn =>
      if matchNodeName (.yel n a cs r) (.single pn) then
        let norm := normalizePNodeContent (contentOf pn)
        cs.length == norm.length && equalAttrs a (attrsOf pn) &&
          equalYChildren cs norm
      else false
    | .group _ => false
  | .ytx runs _, p =>
    match p with
    | .group ts => equalYTextPText runs ts
    | .single _ => false
  | .yfrag _ _, _ => false

/-- `every((ychild, i) => equalYTypePNode(ychild, normalizedContent[i]))`,
paired positionally (the caller checks the lengths first). -/
def equalYChildren : List YNode → List NUnit → Bool
  | [], _ => true
  | _ :: _, [] => true
  | y :: ys, p :: ps => equalYTypePNode y p && equalYChildren ys ps

end

mutual

/-- Whether `equalYTypePNode` (src/dist/y-prosemirror.cjs:609-615)
throws: name and child-count checks are pure; then the `equalAttrs`
call can throw, and when it returns true the child `every` is
evaluated and can throw in turn (stopping at the first false child). -/
def eqThrows : YNode → NUnit → Bool
  | .yel n a cs r, p =>
    match p with
    | .single pn =>
      if matchNodeName (.yel n a cs r) (.single pn) then
        let norm := normalizePNodeContent (contentOf pn)
        if cs.length == norm.length then
          if eaThrows a (attrsOf pn) then true
          else if equalAttrs a (attrsOf pn) then eqChildrenThrows cs norm
          else false
        else false
      else false
    | .group _ => false
  | .ytx runs _, p =>
    match p with
    | .group ts => eytThrows runs ts
    | .single _ => false
  | .yfrag _ _, _ => false

/-- Whether the child `every` of `equalYTypePNode` throws: a later
pair is only evaluated when every earlier pair compared equal. -/
def eqChildrenThrows : List YNode → List NUnit → Bool
  | y :: ys, p :: ps =>
    if eqThrows y p then true
    else if equalYTypePNode y p then eqChildrenThrows ys ps
    else false
  | _, _ => false

end

/-- `mappedIdentity` (src/dist/y-prosemirror.cjs:621): the mapped value
is the very node, or element-wise the very array of nodes. -/
def mappedIdentity (mapped : Option LVal) (pcontent : NUnit) : Bool :=
  match mapped, pcontent with
  | some (.lnode n), .single p => pnodeBeq n p
  | some (.lgroup g), .group ts =>
    g.length == ts.length && pnodeBeqL g ts
  | _, _ => false

/-- Result of `computeChildEqualityFactor`. -/
structure EqFactor : Type where
  foundMappedChild : Bool
  equalityFactor : Nat
  deriving Repr

/-- The left scan of `computeChildEqualityFactor`: consume pairs from
the front while they are identity-mapped (setting the found flag) or
structurally equal; returns the consumed count and the flag. -/
def cefLeft (m : Mapping) : List YNode → List NUnit → Bool → Nat × Bool
  | y :: ys, p :: ps, found =>
    if mappedIdentity (mget m (yref y)) p then
      let (c, f) := cefLeft m ys ps true
      (c + 1, f)
    else if equalYTypePNode y p then
      let (c, f) := cefLeft m ys ps found
      (c + 1, f)
    else (0, found)
  | _, _, found => (0, found)

/-- The right scan of `computeChildEqualityFactor`: the same walk from
the tails (given reversed lists), bounded so that the two scans never
overlap beyond `minCnt`. -/
def cefRight (m : Mapping) : List YNode → List NUnit → Nat → Bool → Nat × Bool
  | y :: ys, p :: ps, bound + 1, found =>
    if mappedIdentity (mget m (yref y)) p then
      let (c, f) := cefRight m ys ps bound true
      (c + 1, f)
    else if equalYTypePNode y p then
      let (c, f) := cefRight m ys ps bound found
      (c + 1, f)
    else (0, found)
  | _, _, _, found => (0, found)

/-- `computeChildEqualityFactor` (src/dist/y-prosemirror.cjs:629-660):
the non-mutating lookahead of the equality-factor heuristic; counts
matching children from both ends and reports whether any matched child
was identity-mapped. -/
def computeChildEqualityFactor (m : Mapping) (ytype : YNode) (pnode : PNode) : EqFactor :=
  let yChildren := ychildren ytype
  let pChildren := normalizePNodeContent (contentOf pnode)
  let minCnt := min yChildren.length pChildren.length
  let lf := cefLeft m yChildren pChildren false
  let rf := cefRight m yChildren.reverse pChildren.reverse (minCnt - lf.1) lf.2
  { foundMappedChild := rf.2, equalityFactor := lf.1 + rf.1 }

/-- Whether the left loop of `computeChildEqualityFactor` throws: an
identity-mapped pair is consumed without comparison, otherwise the
`equalYTypePNode` call can throw, and a false comparison breaks the
loop. -/
def cefLeftThrows (m : Mapping) : List YNode → List NUnit → Bool
  | y :: ys, p :: ps =>
    if mappedIdentity (mget m (yref y)) p then cefLeftThrows m ys ps
    else if eqThrows y p then true
    else if equalYTypePNode y p then cefLeftThrows m ys ps
    else false
  | _, _ => false

/-- Whether the right loop of `computeChildEqualityFactor` throws
(on the reversed lists, with the remaining iteration budget). -/
def cefRightThrows (m : Mapping) : List YNode → List NUnit → Nat → Bool
  | y :: ys, p :: ps, b + 1 =>
    if mappedIdentity (mget m (yref y)) p then cefRightThrows m ys ps b
    else if eqThrows y p then true
    else if equalYTypePNode y p then cefRightThrows m ys ps b
    else false
  | _, _, _ => false

/-- Whether `computeChildEqualityFactor` (src 629-660) throws: the
left loop runs first; if it completes, the right loop runs with the
remaining budget. -/
def cefThrows (m : Mapping) (ytype : YNode) (pnode : PNode) : Bool :=
  let yChildren := ychildren ytype
  let pChildren := normalizePNodeContent (contentOf pnode)
  let minCnt := min yChildren.length pChildren.length
  if cefLeftThrows m yChildren pChildren then true
  else
    let lf := cefLeft m yChildren pChildren false
    cefRightThrows m yChildren.reverse pChildren.reverse (minCnt - lf.1)

/-- The decision of src/dist/y-prosemirror.cjs:793-806: when both the
left pair and the right pair are name-matched elements, pick which one
to recurse into from the two equality factors; otherwise keep the
flags unchanged. -/
def chooseUpdate (updateLeft updateRight : Bool) (eqL eqR : EqFactor) :
    Bool × Bool :=
  if updateLeft && updateRight then
    if eqL.foundMappedChild && !eqR.foundMappedChild then (updateLeft, false)
    else if !eqL.foundMappedChild && eqR.foundMappedChild then (false, updateRight)
    else if eqL.equalityFactor < eqR.equalityFactor then (false, updateRight)
    else (updateLeft, false)
  else (updateLeft, updateRight)

/-! ## The forward reconciler `updateYFragment` -/

/-- Size of a ProseMirror node (termination measure). -/
def sizeP : PNode → Nat
  | .node _ _ c _ => 1 + sizePL c
  | .ptext _ _ _ => 1
where
  /-- Size of a node list. -/
  sizePL : List PNode → Nat
  | [] => 0
  | x :: xs => sizeP x + sizePL xs

/-- Size of a normalized unit: a group never gets recursed into, so it
counts 1. -/
def sizeNU : NUnit → Nat
  | .single n => sizeP n
  | .group _ => 1

/-- Size of a unit list. -/
def sizeNUL : List NUnit → Nat
  | [] => 0
  | u :: us => sizeNU u + sizeNUL us

theorem sizeP_pos (n : PNode) : 1 ≤ sizeP n := by
  cases n <;> simp [sizeP] <;> omega

theorem sizeNU_pos (u : NUnit) : 1 ≤ sizeNU u := by
  cases u with
  | single n => simpa [sizeNU] using sizeP_pos n
  | group _ => simp [sizeNU]

theorem sizePL_append (xs ys : List PNode) :
    sizeP.sizePL (xs ++ ys) = sizeP.sizePL xs + sizeP.sizePL ys := by
  induction xs with
  | nil => simp [sizeP.sizePL]
  | cons x xs ih => simp [sizeP.sizePL, ih]; omega

theorem sizeNUL_append (xs ys : List NUnit) :
    sizeNUL (xs ++ ys) = sizeNUL xs + sizeNUL ys := by
  induction xs with
  | nil => simp [sizeNUL]
  | cons x xs ih => simp [sizeNUL, ih]; omega

theorem sizePL_sublist {xs ys : List PNode} (h : xs.Sublist ys) :
    sizeP.sizePL xs ≤ sizeP.sizePL ys := by
  induction h with
  | slnil => simp
  | cons y _ ih => simp [sizeP.sizePL]; have := sizeP_pos y; omega
  | cons₂ y _ ih => simp [sizeP.sizePL]; omega

theorem sizeNUL_sublist {xs ys : List NUnit} (h : xs.Sublist ys) :
    sizeNUL xs ≤ sizeNUL ys := by
  induction h with
  | slnil => simp
  | cons u _ ih => simp [sizeNUL]; have := sizeNU_pos u; omega
  | cons₂ u _ ih => simp [sizeNUL]; omega

theorem sizeNUL_normalize_le (c : List PNode) :
    sizeNUL (normalizePNodeContent c) ≤ sizeP.sizePL c := by
  generalize hl : c.length = len
  induction len using Nat.strong_induction_on generalizing c with
  | _ len ih =>
  cases c with
  | nil => simp [normalizePNodeContent, sizeNUL]
  | cons n rest =>
    by_cases ht : isText n
    · rw [normalizePNodeContent]
      simp only [ht, if_true]
      have hdw : (rest.dropWhile isText).Sublist rest :=
        List.dropWhile_sublist (p := isText) (l := rest)
      have hlen : (rest.dropWhile isText).length < len := by
        have := List.Sublist.length_le hdw
        simp at hl; omega
      have hrec := ih _ hlen (rest.dropWhile isText) rfl
      have hrest := sizePL_sublist hdw
      have hn := sizeP_pos n
      simp only [sizeNUL, sizeNU, sizeP.sizePL]
      omega
    · rw [normalizePNodeContent]
      simp only [ht, if_false]
      have hlen : rest.length < len := by simp at hl; omega
      have hrec := ih _ hlen rest rfl
      simp only [sizeNUL, sizeNU, sizeP.sizePL]
      omega

/-- Effective mutations of the replicated tree (an op is recorded only
when the corresponding Yjs call changes the shared document: a
`removeAttribute` of an absent key is not recorded, matching the Yjs
map-delete that touches nothing). -/
inductive YOp : Type where
  | setAttrOp : Nat → String → JVal → YOp
  | remAttrOp : Nat → String → YOp
  | insOp : Nat → Nat → Nat → YOp
  | delOp : Nat → Nat → Nat → YOp
  | textOp : Nat → YOp
  deriving Repr

/-- State threaded through the reconciler: the ProsemirrorMapping, the
next fresh type identity, and the log of effective replicated-tree
mutations. -/
structure USt : Type where
  mapping : Mapping
  nextRef : Nat
  log : List YOp
  deriving Repr

/-- `setAttribute` on an attribute object (existing key keeps its
position, a new key is appended — JavaScript object semantics). -/
def setAttr (a : Attrs) (k : String) (v : JVal) : Attrs :=
  match a with
  | [] => [(k, v)]
  | (k₀, v₀) :: rest =>
    if k₀ = k then (k, v) :: rest else (k₀, v₀) :: setAttr rest k v

/-- `removeAttribute` on an attribute object. -/
def removeAttr (a : Attrs) (k : String) : Attrs :=
  match a with
  | [] => []
  | (k₀, v₀) :: rest =>
    if k₀ = k then removeAttr rest k else (k₀, v₀) :: removeAttr rest k

/-- The mapped value stored for a normalized unit. -/
def lvalOfUnit : NUnit → LVal
  | .single n => .lnode n
  | .group ts => .lgroup ts

/-- The single node of a unit (only read behind `matchNodeName`, which
rules out groups; the group branch is unreachable and returns a dummy). -/
def nodeOfUnit : NUnit → PNode
  | .single n => n
  | .group _ => .ptext "" [] 0

theorem sizeP_nodeOfUnit_le (u : NUnit) : sizeP (nodeOfUnit u) ≤ sizeNU u := by
  cases u with
  | single n => simp [nodeOfUnit, sizeNU]
  | group ts => simp [nodeOfUnit, sizeNU, sizeP]

/-- `createTypeFromTextNodes` (src/dist/y-prosemirror.cjs:518-528): a
fresh `Y.XmlText` receives one formatted insert per local text node
(`applyDelta`); its visible delta is the normalized run list.  The new
type is registered in the mapping. -/
def createTypeFromTextNodes (nodes : List PNode) (st : USt) : YNode × USt :=
  let ref := st.nextRef
  let delta : List Run :=
    nodes.map fun n => (textOf n, marksToAttributes (marksOf n))
  (.ytx (normRuns delta) ref,
    { st with
      nextRef := ref + 1
      mapping := mset st.mapping ref (.lgroup nodes) })

mutual

/-- `createTypeFromElementNode` (src/dist/y-prosemirror.cjs:536-547): a
fresh `Y.XmlElement` with the node's non-null, non-`ychange`
attributes and recursively constructed children; registered in the
mapping. -/
def createTypeFromElementNode (node : PNode) (st : USt) : YNode × USt :=
  let ref := st.nextRef
  let st₁ : USt := { st with nextRef := ref + 1 }
  let attrs := (attrsOf node).filter fun kv =>
    !(jbeq kv.2 JVal.jnull) && kv.1 != "ychange"
  let res := createTypeList (normalizePNodeContent (contentOf node)) st₁
  (.yel (pName node) attrs res.1 ref,
    { res.2 with mapping := mset res.2.mapping ref (.lnode node) })
termination_by 3 * sizeP node
decreasing_by
  have h1 := sizeNUL_normalize_le (contentOf node)
  cases node with
  | node n a cc r => simp [sizeP, contentOf] at *; omega
  | ptext s m r =>
    simp [sizeP, contentOf, normalizePNodeContent, sizeNUL, sizeP.sizePL] at *
    try omega

/-- `normalizePNodeContent(node).map(n => createTypeFromTextOrElementNode(n, mapping))`. -/
def createTypeList (us : List NUnit) (st : USt) : List YNode × USt :=
  match us with
  | [] => ([], st)
  | u :: rest =>
    let r₁ := createTypeFromTextOrElementNode u st
    let r₂ := createTypeList rest r₁.2
    (r₁.1 :: r₂.1, r₂.2)
termination_by 3 * sizeNUL us + 2
decreasing_by
  all_goals (have hu := sizeNU_pos u; simp [sizeNUL]; omega)

/-- `createTypeFromTextOrElementNode` (src/dist/y-prosemirror.cjs:555). -/
def createTypeFromTextOrElementNode (u : NUnit) (st : USt) : YNode × USt :=
  match u with
  | .group ts => createTypeFromTextNodes ts st
  | .single n => createTypeFromElementNode n st
termination_by 3 * sizeNU u + 1
decreasing_by
  simp [sizeNU]
  try omega

end

/-- `ytextTrans`/`updateYText` (src/dist/y-prosemirror.cjs:662-700),
modelled by the net effect on the visible delta: the `simpleDiff`
replace of the character content followed by the full
retain-with-attributes pass leaves the text type's visible delta equal
to the target runs (each run's attributes are the local marks; every
legacy formatting key not re-applied is nulled by the `nAttrs` merge).
The `lib0` differ and the Yjs `applyDelta` are external to this
repository.  The text type is re-registered in the mapping and the
mutation is logged. -/
def updateYText (ref : Nat) (ptexts : List PNode) (st : USt) : List Run × USt :=
  let content : List Run :=
    ptexts.map fun p => (textOf p, marksToAttributes (marksOf p))
  (normRuns content,
    { st with
      mapping := mset st.mapping ref (.lgroup ptexts)
      log := st.log ++ [.textOp ref] })

/-- First attribute loop of `updateYFragment`
(src/dist/y-prosemirror.cjs:728-736): iterate the local attributes;
set a non-null value that differs from the snapshot (never `ychange`),
remove the key for a null value.  A `removeAttribute` of an absent key
changes nothing and is not logged. -/
def updAttrsLoop1 (ref : Nat) (snapshot : Attrs) :
    List (String × JVal) → Attrs → USt → Attrs × USt
  | [], cur, st => (cur, st)
  | (k, v) :: rest, cur, st =>
    if !(jbeq v JVal.jnull) then
      if !(obeq (alookup snapshot k) (some v)) && k != "ychange" then
        updAttrsLoop1 ref snapshot rest (setAttr cur k v)
          { st with log := st.log ++ [.setAttrOp ref k v] }
      else
        updAttrsLoop1 ref snapshot rest cur st
    else
      if (alookup cur k).isSome then
        updAttrsLoop1 ref snapshot rest (removeAttr cur k)
          { st with log := st.log ++ [.remAttrOp ref k] }
      else
        updAttrsLoop1 ref snapshot rest cur st

/-- Second attribute loop of `updateYFragment`
(src/dist/y-prosemirror.cjs:738-742): iterate the snapshot of the
replicated attributes and remove every key that is absent from the
local attributes. -/
def updAttrsLoop2 (ref : Nat) (pAttrs : Attrs) :
    List (String × JVal) → Attrs → USt → Attrs × USt
  | [], cur, st => (cur, st)
  | (k, _) :: rest, cur, st =>
    if (alookup pAttrs k).isNone then
      if (alookup cur k).isSome then
        updAttrsLoop2 ref pAttrs rest (removeAttr cur k)
          { st with log := st.log ++ [.remAttrOp ref k] }
      else
        updAttrsLoop2 ref pAttrs rest cur st
    else
      updAttrsLoop2 ref pAttrs rest cur st

/-- The attribute reconciliation of `updateYFragment` (both loops,
over the pre-update snapshot `yDomAttrs` of the replicated
attributes). -/
def updateAttrs (ref : Nat) (yAttrs pAttrs : Attrs) (st : USt) : Attrs × USt :=
  let r₁ := updAttrsLoop1 ref yAttrs pAttrs yAttrs st
  updAttrsLoop2 ref pAttrs yAttrs r₁.1 r₁.2

/-- The left matching loop of `updateYFragment`
(src/dist/y-prosemirror.cjs:752-764): advance while the pair is
identity-mapped or structurally equal, updating the mapping
opportunistically in the latter case. -/
def leftScan (m : Mapping) : List YNode → List NUnit → Nat × Mapping
  | y :: ys, p :: ps =>
    if mappedIdentity (mget m (yref y)) p then
      let r := leftScan m ys ps
      (r.1 + 1, r.2)
    else if equalYTypePNode y p then
      let r := leftScan (mset m (yref y) (lvalOfUnit p)) ys ps
      (r.1 + 1, r.2)
    else (0, m)
  | _, _ => (0, m)

/-- The right matching loop of `updateYFragment`
(src/dist/y-prosemirror.cjs:766-777), on the reversed child lists,
with the iteration budget `minCnt - left - 1` imposed by the loop
condition `right + left + 1 < minCnt`. -/
def rightScan (m : Mapping) : List YNode → List NUnit → Nat → Nat × Mapping
  | y :: ys, p :: ps, b + 1 =>
    if mappedIdentity (mget m (yref y)) p then
      let r := rightScan m ys ps b
      (r.1 + 1, r.2)
    else if equalYTypePNode y p then
      let r := rightScan (mset m (yref y) (lvalOfUnit p)) ys ps b
      (r.1 + 1, r.2)
    else (0, m)
  | _, _, _ => (0, m)

/-- Whether the left matching loop of `updateYFragment` throws: it
replays `leftScan`'s traversal (including its opportunistic mapping
updates, which steer the identity checks) and reports a throw of any
`equalYTypePNode` call it evaluates. -/
def lsThrows (m : Mapping) : List YNode → List NUnit → Bool
  | y :: ys, p :: ps =>
    if mappedIdentity (mget m (yref y)) p then lsThrows m ys ps
    else if eqThrows y p then true
    else if equalYTypePNode y p then
      lsThrows (mset m (yref y) (lvalOfUnit p)) ys ps
    else false
  | _, _ => false

/-- Whether the right matching loop of `updateYFragment` throws (on
the reversed lists, with the loop's iteration budget). -/
def rsThrows (m : Mapping) : List YNode → List NUnit → Nat → Bool
  | y :: ys, p :: ps, b + 1 =>
    if mappedIdentity (mget m (yref y)) p then rsThrows m ys ps b
    else if eqThrows y p then true
    else if equalYTypePNode y p then
      rsThrows (mset m (yref y) (lvalOfUnit p)) ys ps b
    else false
  | _, _, _ => false

/-- Rebuild an element/fragment with reconciled attributes and
children. -/
def setYChildren : YNode → Attrs → List YNode → YNode
  | .yel n _ _ r, a, cs => .yel n a cs r
  | .yfrag _ r, _, cs => .yfrag cs r
  | .ytx runs r, _, _ => .ytx runs r

/-- The middle slice of a child list: everything after the
left-matched prefix and before the right-matched suffix. -/
def midSlice {α : Type} (l : List α) (left right : Nat) : List α :=
  (l.drop left).take (l.length - left - right)

theorem sizeNUL_midSlice_le (l : List NUnit) (a b : Nat) :
    sizeNUL (midSlice l a b) ≤ sizeNUL l :=
  sizeNUL_sublist ((List.take_sublist _ _).trans (List.drop_sublist _ _))

theorem sizePL_lt_sizeP (p : PNode) : sizeP.sizePL (contentOf p) < sizeP p := by
  cases p with
  | node n a c r => simp [sizeP, contentOf]
  | ptext s m r => simp [sizeP, contentOf, sizeP.sizePL]

theorem sizeNU_mem_le {u : NUnit} {us : List NUnit} (h : u ∈ us) :
    sizeNU u ≤ sizeNUL us := by
  induction us with
  | nil => simp at h
  | cons x xs ih =>
    rcases List.mem_cons.mp h with rfl | hm
    · simp [sizeNUL]
    · have := ih hm; simp [sizeNUL]; omega

theorem sizeNUL_dropLast (l : List NUnit) (h : l ≠ []) :
    sizeNUL l.dropLast + sizeNU (l.getLast h) = sizeNUL l := by
  conv_rhs => rw [← List.dropLast_append_getLast h]
  rw [sizeNUL_append]
  simp [sizeNUL]

theorem choiceFst_imp (uL uR : Bool) (a b : EqFactor) :
    (chooseUpdate uL uR a b).1 = true → uL = true := by
  rw [chooseUpdate]
  by_cases h : (uL && uR) = true
  · rw [if_pos h]
    obtain ⟨h1, h2⟩ := Bool.and_eq_true_iff.mp h
    split <;> (try split) <;> (try split) <;> intro hx <;> simp_all
  · rw [if_neg h]
    exact fun hx => hx

theorem choiceSnd_imp (uL uR : Bool) (a b : EqFactor) :
    (chooseUpdate uL uR a b).2 = true → uR = true := by
  rw [chooseUpdate]
  by_cases h : (uL && uR) = true
  · rw [if_pos h]
    obtain ⟨h1, h2⟩ := Bool.and_eq_true_iff.mp h
    split <;> (try split) <;> (try split) <;> intro hx <;> simp_all
  · rw [if_neg h]
    exact fun hx => hx

theorem matchNodeName_sizeP {y : YNode} {p : NUnit}
    (h : matchNodeName y p = true) : sizeP (nodeOfUnit p) = sizeNU p := by
  cases p with
  | single n => simp [nodeOfUnit, sizeNU]
  | group ts => simp [matchNodeName] at h

/-- The two exceptions `updateYFragment` can raise: the explicit
`Error('node name mismatch!')`, and the `TypeError` escaping
`equalAttrs` when `Object.keys` is applied to `null`. -/
inductive UErr : Type where
  | mismatch : UErr
  | typeErr : UErr
  deriving Repr, DecidableEq

/-- The decision step of src/dist/y-prosemirror.cjs:792-806: compute
the update flags; when both are set, evaluate the two equality-factor
lookaheads — which is the only point where they are evaluated, and
where a `TypeError` escaping their `equalAttrs` calls (`cefThrows`)
aborts the reconciliation (`none`) — and let `chooseUpdate` pick a
side. -/
def choiceOrThrow (m : Mapping) (leftY rightY : YNode)
    (leftP rightP : NUnit) : Option (Bool × Bool) :=
  let updateLeft := isYEl leftY && matchNodeName leftY leftP
  let updateRight := isYEl rightY && matchNodeName rightY rightP
  if updateLeft && updateRight &&
      (cefThrows m leftY (nodeOfUnit leftP) ||
        cefThrows m rightY (nodeOfUnit rightP)) then
    none
  else
    some (chooseUpdate updateLeft updateRight
      (computeChildEqualityFactor m leftY (nodeOfUnit leftP))
      (computeChildEqualityFactor m rightY (nodeOfUnit rightP)))

mutual

/-- `updateYFragment` (src/dist/y-prosemirror.cjs:719-832): throws on
a name mismatch at an element root; otherwise registers the pair in
the mapping, reconciles attributes, matches children from both ends,
reconciles the middle region, and finally deletes surplus replicated
children and inserts fresh types for surplus local units.  Returns the
updated node and state; `.error .mismatch` models the thrown
`node name mismatch!` and `.error .typeErr` a `TypeError` escaping an
`equalAttrs` call of either matching loop (the loops' values are paired
with the `lsThrows`/`rsThrows` predicates, which replay the same
traversal). -/
def updateYFragment (yDom : YNode) (pNode : PNode) (st : USt) :
    Except UErr (YNode × USt) :=
  if isYEl yDom && (ynameOf yDom != pName pNode) then .error .mismatch
  else
    let st₁ : USt :=
      { st with mapping := mset st.mapping (yref yDom) (.lnode pNode) }
    let ar :=
      if isYEl yDom then
        updateAttrs (yref yDom) (yattrsOf yDom) (attrsOf pNode) st₁
      else (yattrsOf yDom, st₁)
    let pChildren := normalizePNodeContent (contentOf pNode)
    let yChildren := ychildren yDom
    let minCnt := min pChildren.length yChildren.length
    if lsThrows ar.2.mapping yChildren pChildren then .error .typeErr
    else
      let ls := leftScan ar.2.mapping yChildren pChildren
      if rsThrows ls.2 yChildren.reverse pChildren.reverse
          (minCnt - ls.1 - 1) then .error .typeErr
      else
        let rs := rightScan ls.2 yChildren.reverse pChildren.reverse
          (minCnt - ls.1 - 1)
        let st₂ : USt := { ar.2 with mapping := rs.2 }
        match middleLoop (yref yDom) ls.1 (midSlice yChildren ls.1 rs.1)
            (midSlice pChildren ls.1 rs.1) st₂ with
        | .error e => .error e
        | .ok res =>
          .ok (setYChildren yDom ar.1
                (yChildren.take ls.1 ++ res.1 ++
                  yChildren.drop (yChildren.length - rs.1)),
              res.2)
termination_by 3 * sizeP pNode + 1
decreasing_by
  have key : ∀ (a b : Nat),
      3 * sizeNUL (midSlice (normalizePNodeContent (contentOf pNode)) a b) + 2 <
        3 * sizeP pNode + 1 := by
    intro a b
    have h1 := sizeNUL_midSlice_le (normalizePNodeContent (contentOf pNode)) a b
    have h2 := sizeNUL_normalize_le (contentOf pNode)
    have h3 := sizePL_lt_sizeP pNode
    omega
  exact key _ _

/-- The middle loop of `updateYFragment`
(src/dist/y-prosemirror.cjs:778-830) over the unmatched middle region,
plus the final surplus delete / fresh insert.  `idx` is the current
live index of the region's start (the source's `left`), used for the
op log. -/
def middleLoop (fragRef : Nat) (idx : Nat) (ys : List YNode)
    (ps : List NUnit) (st : USt) : Except UErr (List YNode × USt) :=
  match ys, ps with
  | [], [] => .ok ([], st)
  | [], p :: prest =>
    -- only local units remain: construct and insert them all at `idx`
    let r := createTypeList (p :: prest) st
    .ok (r.1,
      { r.2 with log := r.2.log ++ [.insOp fragRef idx (p :: prest).length] })
  | y :: yrest, [] =>
    -- only replicated children remain: delete them all at `idx`
    .ok ([],
      { st with log := st.log ++ [.delOp fragRef idx (y :: yrest).length] })
  | leftY :: yrest, leftP :: prest =>
    match leftY, leftP with
    | .ytx runs tref, .group ts =>
      -- text comparison (which can throw), then update in place when
      -- not already equal
      if eytThrows runs ts then .error .typeErr
      else
        let tr :=
          if !(equalYTextPText runs ts) then updateYText tref ts st
          else (runs, st)
        match middleLoop fragRef (idx + 1) yrest prest tr.2 with
        | .error e => .error e
        | .ok res => .ok (.ytx tr.1 tref :: res.1, res.2)
    | leftY, leftP =>
      let rightY := (leftY :: yrest).getLast (List.cons_ne_nil _ _)
      let rightP := (leftP :: prest).getLast (List.cons_ne_nil _ _)
      match choiceOrThrow st.mapping leftY rightY leftP rightP with
      | none => .error .typeErr
      | some choice =>
      if h1 : choice.1 then
        match updateYFragment leftY (nodeOfUnit leftP) st with
        | .error e => .error e
        | .ok r₁ =>
          match middleLoop fragRef (idx + 1) yrest prest r₁.2 with
          | .error e => .error e
          | .ok res => .ok (r₁.1 :: res.1, res.2)
      else if h2 : choice.2 then
        match updateYFragment rightY (nodeOfUnit rightP) st with
        | .error e => .error e
        | .ok r₁ =>
          match middleLoop fragRef idx ((leftY :: yrest).dropLast)
              ((leftP :: prest).dropLast) r₁.2 with
          | .error e => .error e
          | .ok res => .ok (res.1 ++ [r₁.1], res.2)
      else
        -- unmatched: delete the left replicated child, insert a fresh
        -- type built from the left local unit
        let st₁ : USt := { st with log := st.log ++ [.delOp fragRef idx 1] }
        let cr := createTypeFromTextOrElementNode leftP st₁
        let st₂ : USt := { cr.2 with log := cr.2.log ++ [.insOp fragRef idx 1] }
        match middleLoop fragRef (idx + 1) yrest prest st₂ with
        | .error e => .error e
        | .ok res => .ok (cr.1 :: res.1, res.2)
termination_by 3 * sizeNUL ps + 2
decreasing_by
  · -- text case: tail recursion
    have := sizeNU_pos (NUnit.group ts)
    simp [sizeNUL]
    omega
  · -- recursion into the left pair
    have hsz := sizeP_nodeOfUnit_le leftP
    simp [sizeNUL]
    omega
  · -- tail recursion after the left update
    have := sizeNU_pos leftP
    simp [sizeNUL]
    omega
  · -- recursion into the right pair
    have hsz := sizeP_nodeOfUnit_le ((leftP :: prest).getLast (List.cons_ne_nil _ _))
    have hmem := sizeNU_mem_le
      (List.getLast_mem (l := leftP :: prest) (List.cons_ne_nil _ _))
    omega
  · -- tail recursion on the dropLast lists
    have hdl := sizeNUL_dropLast (leftP :: prest) (List.cons_ne_nil _ _)
    have hpos := sizeNU_pos ((leftP :: prest).getLast (List.cons_ne_nil _ _))
    omega
  · -- tail recursion after delete+insert
    have := sizeNU_pos leftP
    simp [sizeNUL]
    omega

end

/-! ## Flat documents and the `TypeError` analysis (claim C4) -/

/-- Whether every attribute value of the map is flat (no nested
object values). -/
def flatAttrs (a : Attrs) : Bool :=
  a.all fun kv =>
    match kv.2 with
    | .jobj _ => false
    | _ => true

/-- Every mark-attribute object of a run attribute object is flat. -/
def tFlat (ta : TAttrs) : Bool :=
  ta.all fun kv => flatAttrs kv.2

/-- Every run of a text type carries flat mark attributes. -/
def runsFlat (runs : List Run) : Bool :=
  runs.all fun rn => tFlat rn.2

mutual

/-- A replicated tree all of whose attribute maps (element attributes
and text-run mark attributes) are flat: no object-valued attribute
appears anywhere, so no `equalAttrs` comparison can recurse into a
value and hit `Object.keys(null)`. -/
def yFlat : YNode → Bool
  | .yel _ a cs _ => flatAttrs a && yFlatL cs
  | .yfrag cs _ => yFlatL cs
  | .ytx runs _ => runsFlat runs

/-- `yFlat` over a child list. -/
def yFlatL : List YNode → Bool
  | [] => true
  | c :: rest => yFlat c && yFlatL rest

end

theorem yFlatL_iff (l : List YNode) :
    yFlatL l = true ↔ ∀ y ∈ l, yFlat y = true := by
  induction l with
  | nil => simp [yFlatL]
  | cons c rest ih => simp [yFlatL, ih]

/-- The loop of `eaThrows` cannot throw when every iterated value is
non-object-typed: the recursion guard `typeof l === 'object'` fails at
every entry. -/
theorem eaThrowsLoop_flat (b : Attrs) : ∀ (l : Attrs),
    (∀ kv ∈ l, typeofObject (some kv.2) = false) →
    eaThrowsLoop b l = false := by
  intro l
  induction l with
  | nil => intro _; rw [eaThrowsLoop]
  | cons hd tl ih =>
    intro h
    obtain ⟨k, v⟩ := hd
    have hv := h (k, v) (List.mem_cons_self _ _)
    have htl := ih fun kv hkv => h kv (List.mem_cons_of_mem _ hkv)
    have hct : cmpThrows v (alookup b k) = false := by
      rw [cmpThrows.eq_def]
      split
      · rfl
      · rw [if_neg (by simp [hv])]
    rw [eaThrowsLoop]
    split
    · exact htl
    · rw [hct]
      simp only [Bool.false_eq_true, if_false]
      split
      · exact htl
      · rfl

/-- `equalAttrs` never throws when its first argument is flat: the
iterated values are the first map's non-null ones, and flatness makes
each of them a primitive, so no comparison recurses. -/
theorem eaThrows_flat (a b : Attrs) (hflat : flatAttrs a = true) :
    eaThrows a b = false := by
  rw [eaThrows]
  by_cases hc : (nonNullCount a == nonNullCount b) = true
  · rw [if_pos hc]
    apply eaThrowsLoop_flat
    intro kv hkv
    rw [nonNullEntries, List.mem_filter] at hkv
    obtain ⟨hmem, hnn⟩ := hkv
    have hfv := List.all_eq_true.mp hflat _ hmem
    cases hv : kv.2 with
    | jnull => rw [hv] at hnn; simp [jbeq] at hnn
    | jprim s => simp [typeofObject]
    | jobj f => rw [hv] at hfv; simp at hfv
  · rw [if_neg hc]

/-- Every attribute object of a delta run comes from some source run:
`toDelta` only drops empty runs and merges adjacent equally-formatted
runs, keeping the first run's attribute object. -/
theorem normRuns_attrs_mem : ∀ (runs : List Run) (d : Run),
    d ∈ normRuns runs → ∃ s, (s, d.2) ∈ runs := by
  intro runs
  induction runs with
  | nil => intro d hd; simp [normRuns] at hd
  | cons hd tl ih =>
    obtain ⟨s, a⟩ := hd
    intro d hdm
    by_cases hs : s = ""
    · have hexp : normRuns ((s, a) :: tl) = normRuns tl := by
        rw [normRuns, if_pos hs]
      rw [hexp] at hdm
      obtain ⟨t, ht⟩ := ih d hdm
      exact ⟨t, List.mem_cons_of_mem _ ht⟩
    · cases hnr : normRuns tl with
      | nil =>
        have hexp : normRuns ((s, a) :: tl) = [(s, a)] := by
          rw [normRuns, if_neg hs, hnr]
        rw [hexp] at hdm
        rcases List.mem_singleton.mp hdm with rfl
        exact ⟨s, List.mem_cons_self _ _⟩
      | cons tb tail =>
        obtain ⟨t, b⟩ := tb
        by_cases hbeq : tattrsBeq a b = true
        · have hexp : normRuns ((s, a) :: tl) = (s ++ t, a) :: tail := by
            rw [normRuns, if_neg hs, hnr]
            simp [hbeq]
          rw [hexp] at hdm
          rcases List.mem_cons.mp hdm with rfl | hmem
          · exact ⟨s, List.mem_cons_self _ _⟩
          · have hin : d ∈ normRuns tl := by
              rw [hnr]; exact List.mem_cons_of_mem _ hmem
            obtain ⟨u, hu⟩ := ih d hin
            exact ⟨u, List.mem_cons_of_mem _ hu⟩
        · have hexp : normRuns ((s, a) :: tl) = (s, a) :: (t, b) :: tail := by
            rw [normRuns, if_neg hs, hnr]
            simp [hbeq]
          rw [hexp] at hdm
          rcases List.mem_cons.mp hdm with rfl | hmem
          · exact ⟨s, List.mem_cons_self _ _⟩
          · have hin : d ∈ normRuns tl := by
              rw [hnr]; exact hmem
            obtain ⟨u, hu⟩ := ih d hin
            exact ⟨u, List.mem_cons_of_mem _ hu⟩

/-- `lookupT` only returns objects stored in the run attribute map. -/
theorem lookupT_mem : ∀ (ta : TAttrs) (k : String) (v : Attrs),
    lookupT ta k = some v → (k, v) ∈ ta := by
  intro ta
  induction ta with
  | nil => intro k v h; simp [lookupT] at h
  | cons hd tl ih =>
    obtain ⟨k₀, v₀⟩ := hd
    intro k v h
    rw [lookupT] at h
    by_cases hk : k₀ = k
    · rw [if_pos hk] at h
      cases h
      subst hk
      exact List.mem_cons_self _ _
    · rw [if_neg hk] at h
      exact List.mem_cons_of_mem _ (ih _ _ h)

/-- The mark loop of the text comparison cannot throw when the delta
run's attribute objects are all flat. -/
theorem eytMarksThrows_flat (d2 : TAttrs)
    (h : ∀ kv ∈ d2, flatAttrs kv.2 = true) :
    ∀ (ms : List PMark), eytMarksThrows d2 ms = false := by
  intro ms
  induction ms with
  | nil => rw [eytMarksThrows]
  | cons mark rest ih =>
    rw [eytMarksThrows]
    have hfa : flatAttrs ((lookupT d2 mark.name).getD []) = true := by
      cases hl : lookupT d2 mark.name with
      | none => simp [flatAttrs]
      | some v => simpa using h (mark.name, v) (lookupT_mem _ _ _ hl)
    rw [if_neg (by simp [eaThrows_flat _ _ hfa])]
    by_cases he : equalAttrs ((lookupT d2 mark.name).getD []) mark.attrs = true
    · rw [if_pos he]; exact ih
    · rw [if_neg he]

/-- The delta loop of the text comparison cannot throw when every
paired run carries flat mark attributes. -/
theorem eytThrowsLoop_flat : ∀ (l : List (Run × PNode)),
    (∀ dp ∈ l, ∀ kv ∈ dp.1.2, flatAttrs kv.2 = true) →
    eytThrowsLoop l = false := by
  intro l
  induction l with
  | nil => intro _; rw [eytThrowsLoop]
  | cons hd rest ih =>
    intro h
    obtain ⟨d, p⟩ := hd
    rw [eytThrowsLoop]
    have hhd := h (d, p) (List.mem_cons_self _ _)
    have hrest := ih fun dp hdp => h dp (List.mem_cons_of_mem _ hdp)
    by_cases h1 : (d.1 == textOf p && d.2.length == (marksOf p).length) = true
    · rw [if_pos h1, if_neg (by simp [eytMarksThrows_flat d.2 hhd])]
      split
      · exact hrest
      · rfl
    · rw [if_neg h1]

/-- `equalYTextPText` never throws on a text type whose runs carry
flat mark attributes. -/
theorem eytThrows_flat (runs : List Run) (ts : List PNode)
    (h : runsFlat runs = true) : eytThrows runs ts = false := by
  rw [eytThrows]
  split
  · apply eytThrowsLoop_flat
    intro dp hdp kv hkv
    have hd1 : dp.1 ∈ normRuns runs := (List.mem_zip hdp).1
    obtain ⟨s, hs⟩ := normRuns_attrs_mem runs dp.1 hd1
    have hta : tFlat dp.1.2 = true :=
      List.all_eq_true.mp h (s, dp.1.2) hs
    exact List.all_eq_true.mp hta _ hkv
  · rfl


/-! ## The reverse materializer (snapshot-free path) -/

/-- Size of a Yjs node (termination measure). -/
def sizeY : YNode → Nat
  | .yel _ _ cs _ => 1 + sizeYL cs
  | .yfrag cs _ => 1 + sizeYL cs
  | .ytx _ _ => 1
where
  /-- Size of a node list. -/
  sizeYL : List YNode → Nat
  | [] => 0
  | c :: rest => sizeY c + sizeYL rest

theorem sizeY_pos (c : YNode) : 1 ≤ sizeY c := by
  cases c <;> simp [sizeY] <;> omega

/-- The ProseMirror schema, an external collaborator: node, mark and
text constructors that may reject (`schema.node` / `schema.mark` /
`schema.text` throwing is modelled as `none`). -/
structure Schema : Type where
  node : String → Attrs → List PNode → Option PNode
  mark : String → Attrs → Option PMark
  text : String → List PMark → Option PNode

/-- State threaded through the materializer: the ProsemirrorMapping
and the list of replicated nodes deleted (inside a transaction) after
a construction failure. -/
structure MSt : Type where
  mapping : Mapping
  deleted : List Nat
  deriving Repr

/-- The mark construction loop of `createTextNodesFromYText`:
`schema.mark(markName, delta.attributes[markName])` per formatting
key; a throw anywhere aborts. -/
def marksOfTAttrs (schema : Schema) : TAttrs → Option (List PMark)
  | [] => some []
  | (k, a) :: rest => do
    let m ← schema.mark k a
    let ms ← marksOfTAttrs schema rest
    pure (m :: ms)

/-- The node construction loop of `createTextNodesFromYText`: one
`schema.text(delta.insert, marks)` per delta run. -/
def textNodesOfDelta (schema : Schema) : List Run → Option (List PNode)
  | [] => some []
  | (s, ta) :: rest => do
    let marks ← marksOfTAttrs schema ta
    let n ← schema.text s marks
    let ns ← textNodesOfDelta schema rest
    pure (n :: ns)

/-- `createTextNodesFromYText` (src/dist/y-prosemirror.cjs:489-510):
build one local text node per visible delta run; on any construction
failure the replicated text node is deleted inside a transaction and
`null` is returned — the mapping is not touched on either path of this
function. -/
def createTextNodesFromYText (runs : List Run) (ref : Nat) (schema : Schema)
    (st : MSt) : Option (List PNode) × MSt :=
  match textNodesOfDelta schema (normRuns runs) with
  | some ns => (some ns, st)
  | none => (none, { st with deleted := st.deleted ++ [ref] })

mutual

/-- `createNodeFromYElement` (src/dist/y-prosemirror.cjs:433-477),
snapshot-free path: materialize the children, then construct the local
node from `nodeName`, attributes and children and register it in the
mapping; if the schema rejects, delete the replicated element inside a
transaction, purge its mapping entry and return `null`.  (Only called
on elements; other inputs return `null` without effect.) -/
def createNodeFromYElement (el : YNode) (schema : Schema) (st : MSt) :
    Option PNode × MSt :=
  match el with
  | .yel name attrs cs ref =>
    let r := createChildrenList cs schema st
    match schema.node name attrs r.1 with
    | some nd =>
      (some nd, { r.2 with mapping := mset r.2.mapping ref (.lnode nd) })
    | none =>
      (none,
        { r.2 with
          mapping := mdel r.2.mapping ref
          deleted := r.2.deleted ++ [ref] })
  | _ => (none, st)
termination_by 3 * sizeY el
decreasing_by
  simp [sizeY]
  omega

/-- The `createChildren` fold of `createNodeFromYElement`: element
children go through `createNodeIfNotExists`, text children through
`createTextNodesFromYText`; `null` results are skipped.  (A nested
fragment cannot occur as a child.) -/
def createChildrenList (cs : List YNode) (schema : Schema) (st : MSt) :
    List PNode × MSt :=
  match cs with
  | [] => ([], st)
  | c :: rest =>
    match c with
    | .ytx runs tref =>
      let r := createTextNodesFromYText runs tref schema st
      let r₂ := createChildrenList rest schema r.2
      ((r.1.getD []) ++ r₂.1, r₂.2)
    | .yel n a ccs cref =>
      let r := createNodeIfNotExists (.yel n a ccs cref) schema st
      let r₂ := createChildrenList rest schema r.2
      ((r.1.elim [] (fun nd => [nd])) ++ r₂.1, r₂.2)
    | .yfrag _ _ =>
      createChildrenList rest schema st
termination_by 3 * sizeY.sizeYL cs + 2
decreasing_by
  all_goals (simp [sizeY, sizeY.sizeYL]; try omega)

/-- `createNodeIfNotExists` (src/dist/y-prosemirror.cjs:411-421):
return the mapped node when present (no staleness check), otherwise
materialize the element.  (The `XmlHook` branch that throws
`methodUnimplemented` has no counterpart: hooks are not modelled.) -/
def createNodeIfNotExists (el : YNode) (schema : Schema) (st : MSt) :
    Option PNode × MSt :=
  match mget st.mapping (yref el) with
  | some (.lnode n) => (some n, st)
  | some (.lgroup _) => (none, st)
  | none => createNodeFromYElement el schema st
termination_by 3 * sizeY el + 1
decreasing_by
  omega

end

theorem mget_mdel_self (m : Mapping) (r : Nat) : mget (mdel m r) r = none := by
  induction m with
  | nil => simp [mdel, mget]
  | cons hd tl ih =>
    obtain ⟨r₀, v₀⟩ := hd
    by_cases h : r₀ = r
    · simpa [mdel, h] using ih
    · simp [mdel, mget, h, ih]

/-- C7, counterexample: a replicated text node whose construction the
schema rejects, while the shared mapping holds a (stale) entry for it.
The materializer deletes the node and returns `null`, but the mapping
entry survives: the text path of the materializer never purges the
mapping, contradicting the claim that every construction failure
purges the offending node's entry. -/
theorem c7_counterexample :
    (createTextNodesFromYText [("a", [])] 5
        ⟨fun _ _ _ => none, fun _ _ => none, fun _ _ => none⟩
        ⟨[(5, .lgroup [])], []⟩).1 = none ∧
      5 ∈ (createTextNodesFromYText [("a", [])] 5
        ⟨fun _ _ _ => none, fun _ _ => none, fun _ _ => none⟩
        ⟨[(5, .lgroup [])], []⟩).2.deleted ∧
      mget (createTextNodesFromYText [("a", [])] 5
        ⟨fun _ _ _ => none, fun _ _ => none, fun _ _ => none⟩
        ⟨[(5, .lgroup [])], []⟩).2.mapping 5 = some (.lgroup []) := by
  refine ⟨?_, ?_, ?_⟩ <;>
    simp [createTextNodesFromYText, textNodesOfDelta, normRuns, mget]

/-- C7, amended: when local-node construction fails during
materialization, the offending replicated node is deleted inside a
transaction and `null` is returned (the failure is caught, never
propagated); for a replicated element the mapping entry is also
purged, while the text-node path leaves the mapping untouched. -/
theorem c7_amended :
    (∀ (el : YNode) (schema : Schema) (st : MSt),
        isYEl el = true →
        (createNodeFromYElement el schema st).1 = none →
        yref el ∈ (createNodeFromYElement el schema st).2.deleted ∧
          mget (createNodeFromYElement el schema st).2.mapping (yref el) = none) ∧
      (∀ (runs : List Run) (ref : Nat) (schema : Schema) (st : MSt),
          (createTextNodesFromYText runs ref schema st).1 = none →
          ref ∈ (createTextNodesFromYText runs ref schema st).2.deleted ∧
            (createTextNodesFromYText runs ref schema st).2.mapping = st.mapping) := by
  constructor
  · intro el schema st hel hfail
    cases el with
    | yel name attrs cs ref =>
      rw [createNodeFromYElement] at hfail ⊢
      cases hs : schema.node name attrs (createChildrenList cs schema st).1 with
      | some nd => simp [hs] at hfail
      | none =>
        simp only [hs, yref]
        constructor
        · simp
        · exact mget_mdel_self _ _
    | yfrag cs r => simp [isYEl] at hel
    | ytx runs r => simp [isYEl] at hel
  · intro runs ref schema st hfail
    rw [createTextNodesFromYText] at hfail ⊢
    cases ht : textNodesOfDelta schema (normRuns runs) with
    | some ns => simp [ht] at hfail
    | none => simp [ht]

/-- Witness for the amended C7: a rejecting schema at a concrete
element and a concrete text node. -/
theorem c7_amended_witness :
    (isYEl (YNode.yel "p" [] [] 3) = true ∧
      (createNodeFromYElement (YNode.yel "p" [] [] 3)
          ⟨fun _ _ _ => none, fun _ _ => none, fun _ _ => none⟩
          ⟨[], []⟩).1 = none ∧
      3 ∈ (createNodeFromYElement (YNode.yel "p" [] [] 3)
          ⟨fun _ _ _ => none, fun _ _ => none, fun _ _ => none⟩
          ⟨[], []⟩).2.deleted ∧
      mget (createNodeFromYElement (YNode.yel "p" [] [] 3)
          ⟨fun _ _ _ => none, fun _ _ => none, fun _ _ => none⟩
          ⟨[], []⟩).2.mapping 3 = none) ∧
    ((createTextNodesFromYText [("a", [])] 5
        ⟨fun _ _ _ => none, fun _ _ => none, fun _ _ => none⟩
        ⟨[], []⟩).1 = none ∧
      5 ∈ (createTextNodesFromYText [("a", [])] 5
        ⟨fun _ _ _ => none, fun _ _ => none, fun _ _ => none⟩
        ⟨[], []⟩).2.deleted ∧
      (createTextNodesFromYText [("a", [])] 5
        ⟨fun _ _ _ => none, fun _ _ => none, fun _ _ => none⟩
        ⟨[], []⟩).2.mapping = ([] : Mapping)) := by
  have hel : isYEl (YNode.yel "p" [] [] 3) = true := by simp [isYEl]
  have hfail : (createNodeFromYElement (YNode.yel "p" [] [] 3)
      ⟨fun _ _ _ => none, fun _ _ => none, fun _ _ => none⟩
      ⟨[], []⟩).1 = none := by
    rw [createNodeFromYElement]
  have htfail : (createTextNodesFromYText [("a", [])] 5
      ⟨fun _ _ _ => none, fun _ _ => none, fun _ _ => none⟩
      ⟨[], []⟩).1 = none := by
    simp [createTextNodesFromYText, textNodesOfDelta, normRuns]
  have h1 := c7_amended.1 (YNode.yel "p" [] [] 3)
    ⟨fun _ _ _ => none, fun _ _ => none, fun _ _ => none⟩ ⟨[], []⟩ hel hfail
  have h2 := c7_amended.2 [("a", [])] 5
    ⟨fun _ _ _ => none, fun _ _ => none, fun _ _ => none⟩ ⟨[], []⟩ htfail
  exact ⟨⟨hel, hfail, h1.1, h1.2⟩, ⟨htfail, h2.1, h2.2⟩⟩

/-- `equalYTypePNode` never throws on a flat replicated node, and the
child `every` never throws on a flat child list (paired strong
induction on the tree size). -/
theorem eqThrows_flat_measure : ∀ (n : Nat),
    (∀ (y : YNode) (p : NUnit), 2 * sizeY y ≤ n → yFlat y = true →
      eqThrows y p = false) ∧
    (∀ (cs : List YNode) (ps : List NUnit), 2 * sizeY.sizeYL cs + 1 ≤ n →
      yFlatL cs = true → eqChildrenThrows cs ps = false) := by
  intro n
  induction n using Nat.strong_induction_on with
  | _ n ih =>
  constructor
  · intro y p hm hf
    cases y with
    | yel nm a cs r =>
      cases p with
      | single pn =>
        rw [yFlat] at hf
        obtain ⟨hfa, hfl⟩ := Bool.and_eq_true_iff.mp hf
        have hsz : sizeY (YNode.yel nm a cs r) = 1 + sizeY.sizeYL cs := rfl
        have hlt : 2 * sizeY.sizeYL cs + 1 < n := by omega
        simp only [eqThrows]
        split
        · split
          · rw [eaThrows_flat a _ hfa]
            simp only [Bool.false_eq_true, if_false]
            split
            · exact (ih _ hlt).2 cs _ (le_refl _) hfl
            · rfl
          · rfl
        · rfl
      | group ts => simp [eqThrows]
    | yfrag cs r => simp [eqThrows]
    | ytx runs r =>
      cases p with
      | single pn => simp [eqThrows]
      | group ts =>
        rw [yFlat] at hf
        simp only [eqThrows]
        exact eytThrows_flat runs ts hf
  · intro cs ps hm hf
    cases cs with
    | nil =>
      cases ps <;> simp [eqChildrenThrows]
    | cons y ys =>
      cases ps with
      | nil => simp [eqChildrenThrows]
      | cons p ps' =>
        rw [yFlatL] at hf
        obtain ⟨hfy, hfl⟩ := Bool.and_eq_true_iff.mp hf
        have hszl : sizeY.sizeYL (y :: ys) = sizeY y + sizeY.sizeYL ys := rfl
        have hy := sizeY_pos y
        have h1 : eqThrows y p = false :=
          (ih (2 * sizeY y) (by omega)).1 y p (le_refl _) hfy
        rw [eqChildrenThrows, h1]
        simp only [Bool.false_eq_true, if_false]
        split
        · exact (ih (2 * sizeY.sizeYL ys + 1) (by omega)).2 ys ps' (le_refl _) hfl
        · rfl

/-- Structural equality of a flat replicated node against any local
content never throws. -/
theorem eqThrows_flat (y : YNode) (p : NUnit) (hf : yFlat y = true) :
    eqThrows y p = false :=
  (eqThrows_flat_measure (2 * sizeY y)).1 y p (le_refl _) hf

/-- The children of a flat node are flat. -/
theorem ychildren_flat {y : YNode} (hf : yFlat y = true) :
    ∀ c ∈ ychildren y, yFlat c = true := by
  cases y with
  | yel nm a cs r =>
    rw [yFlat] at hf
    simpa [ychildren] using (yFlatL_iff cs).mp (Bool.and_eq_true_iff.mp hf).2
  | yfrag cs r =>
    rw [yFlat] at hf
    simpa [ychildren] using (yFlatL_iff cs).mp hf
  | ytx runs r => intro c hc; simp [ychildren] at hc

/-- The left lookahead loop never throws when the replicated children
are flat. -/
theorem cefLeftThrows_flat (m : Mapping) : ∀ (ys : List YNode)
    (ps : List NUnit), (∀ y ∈ ys, yFlat y = true) →
    cefLeftThrows m ys ps = false := by
  intro ys
  induction ys with
  | nil => intro ps _; cases ps <;> simp [cefLeftThrows]
  | cons y ys ih =>
    intro ps h
    cases ps with
    | nil => simp [cefLeftThrows]
    | cons p ps' =>
      have hy := h y (List.mem_cons_self _ _)
      have hys := fun c hc => h c (List.mem_cons_of_mem _ hc)
      rw [cefLeftThrows]
      split
      · exact ih _ hys
      · rw [eqThrows_flat y p hy]
        simp only [Bool.false_eq_true, if_false]
        split
        · exact ih _ hys
        · rfl

/-- The right lookahead loop never throws when the replicated children
are flat. -/
theorem cefRightThrows_flat (m : Mapping) : ∀ (ys : List YNode)
    (ps : List NUnit) (b : Nat), (∀ y ∈ ys, yFlat y = true) →
    cefRightThrows m ys ps b = false := by
  intro ys
  induction ys with
  | nil => intro ps b _; cases ps <;> cases b <;> simp [cefRightThrows]
  | cons y ys ih =>
    intro ps b h
    cases ps with
    | nil => cases b <;> simp [cefRightThrows]
    | cons p ps' =>
      cases b with
      | zero => simp [cefRightThrows]
      | succ b' =>
        have hy := h y (List.mem_cons_self _ _)
        have hys := fun c hc => h c (List.mem_cons_of_mem _ hc)
        rw [cefRightThrows]
        split
        · exact ih _ _ hys
        · rw [eqThrows_flat y p hy]
          simp only [Bool.false_eq_true, if_false]
          split
          · exact ih _ _ hys
          · rfl

/-- `computeChildEqualityFactor` never throws on a flat replicated
node. -/
theorem cefThrows_flat (m : Mapping) (y : YNode) (pn : PNode)
    (hf : yFlat y = true) : cefThrows m y pn = false := by
  have hmem := ychildren_flat hf
  have hrev : ∀ c ∈ (ychildren y).reverse, yFlat c = true := by
    intro c hc; exact hmem c (List.mem_reverse.mp hc)
  simp only [cefThrows]
  rw [cefLeftThrows_flat m _ _ hmem]
  simp only [Bool.false_eq_true, if_false]
  exact cefRightThrows_flat m _ _ _ hrev

/-- On flat candidates the decision step never throws and returns
`chooseUpdate` of the flags and lookahead factors. -/
theorem choiceOrThrow_flat (m : Mapping) (lY rY : YNode) (lP rP : NUnit)
    (hL : yFlat lY = true) (hR : yFlat rY = true) :
    choiceOrThrow m lY rY lP rP =
      some (chooseUpdate (isYEl lY && matchNodeName lY lP)
        (isYEl rY && matchNodeName rY rP)
        (computeChildEqualityFactor m lY (nodeOfUnit lP))
        (computeChildEqualityFactor m rY (nodeOfUnit rP))) := by
  rw [choiceOrThrow]
  rw [cefThrows_flat _ _ _ hL, cefThrows_flat _ _ _ hR]
  simp

/-- A produced decision with the left flag set means the left pair is
a name-matched element pair. -/
theorem choiceOrThrow_fst (m : Mapping) (lY rY : YNode) (lP rP : NUnit)
    (c : Bool × Bool) (hco : choiceOrThrow m lY rY lP rP = some c)
    (h1 : c.1 = true) : (isYEl lY && matchNodeName lY lP) = true := by
  rw [choiceOrThrow] at hco
  split at hco
  · exact Option.noConfusion hco
  · cases Option.some.inj hco
    exact choiceFst_imp _ _ _ _ h1

/-- A produced decision with the right flag set means the right pair
is a name-matched element pair. -/
theorem choiceOrThrow_snd (m : Mapping) (lY rY : YNode) (lP rP : NUnit)
    (c : Bool × Bool) (hco : choiceOrThrow m lY rY lP rP = some c)
    (h2 : c.2 = true) : (isYEl rY && matchNodeName rY rP) = true := by
  rw [choiceOrThrow] at hco
  split at hco
  · exact Option.noConfusion hco
  · cases Option.some.inj hco
    exact choiceSnd_imp _ _ _ _ h2

/-- The left matching loop never throws when the replicated children
are flat. -/
theorem lsThrows_flat : ∀ (ys : List YNode) (ps : List NUnit)
    (m : Mapping), (∀ y ∈ ys, yFlat y = true) →
    lsThrows m ys ps = false := by
  intro ys
  induction ys with
  | nil => intro ps m _; cases ps <;> simp [lsThrows]
  | cons y ys ih =>
    intro ps m h
    cases ps with
    | nil => simp [lsThrows]
    | cons p ps' =>
      have hy := h y (List.mem_cons_self _ _)
      have hys := fun c hc => h c (List.mem_cons_of_mem _ hc)
      rw [lsThrows]
      split
      · exact ih _ _ hys
      · rw [eqThrows_flat y p hy]
        simp only [Bool.false_eq_true, if_false]
        split
        · exact ih _ _ hys
        · rfl

/-- The right matching loop never throws when the replicated children
are flat. -/
theorem rsThrows_flat : ∀ (ys : List YNode) (ps : List NUnit) (b : Nat)
    (m : Mapping), (∀ y ∈ ys, yFlat y = true) →
    rsThrows m ys ps b = false := by
  intro ys
  induction ys with
  | nil => intro ps b m _; cases ps <;> cases b <;> simp [rsThrows]
  | cons y ys ih =>
    intro ps b m h
    cases ps with
    | nil => simp [rsThrows]
    | cons p ps' =>
      cases b with
      | zero => simp [rsThrows]
      | succ b' =>
        have hy := h y (List.mem_cons_self _ _)
        have hys := fun c hc => h c (List.mem_cons_of_mem _ hc)
        rw [rsThrows]
        split
        · exact ih _ _ _ hys
        · rw [eqThrows_flat y p hy]
          simp only [Bool.false_eq_true, if_false]
          split
          · exact ih _ _ _ hys
          · rfl

/-- On a flat replicated tree, a name-matched `updateYFragment` call
succeeds, and the middle loop never errors on flat replicated
children (paired strong induction on the local size). -/
theorem updateYFragment_ok_measure :
    ∀ (n : Nat),
      (∀ (y : YNode) (p : PNode) (st : USt),
          3 * sizeP p + 1 ≤ n →
          yFlat y = true →
          (isYEl y = true → ynameOf y = pName p) →
          ∃ r, updateYFragment y p st = Except.ok r) ∧
      (∀ (fragRef idx : Nat) (ys : List YNode) (ps : List NUnit)
          (st : USt) (e : UErr),
          (∀ c ∈ ys, yFlat c = true) →
          middleLoop fragRef idx ys ps st = Except.error e →
          3 * sizeNUL ps + 2 ≤ n → False) := by
  intro n
  induction n using Nat.strong_induction_on with
  | _ n ih =>
  constructor
  · intro y p st hm hflat hname
    have hc : (isYEl y && (ynameOf y != pName p)) = false := by
      cases hy : isYEl y
      · simp
      · simp [hname hy]
    have hchild := ychildren_flat hflat
    have hrev : ∀ c ∈ (ychildren y).reverse, yFlat c = true := by
      intro c hc'; exact hchild c (List.mem_reverse.mp hc')
    rw [updateYFragment]
    simp only [hc, Bool.false_eq_true, if_false]
    rw [lsThrows_flat _ _ _ hchild]
    simp only [Bool.false_eq_true, if_false]
    rw [rsThrows_flat _ _ _ _ hrev]
    simp only [Bool.false_eq_true, if_false]
    have key : ∀ (a b : Nat),
        3 * sizeNUL (midSlice (normalizePNodeContent (contentOf p)) a b) + 2 < n := by
      intro a b
      have h1 := sizeNUL_midSlice_le (normalizePNodeContent (contentOf p)) a b
      have h2 := sizeNUL_normalize_le (contentOf p)
      have h3 := sizePL_lt_sizeP p
      omega
    have hmidf : ∀ (a b : Nat), ∀ c ∈ midSlice (ychildren y) a b,
        yFlat c = true := by
      intro a b c hc'
      exact hchild c
        (((List.take_sublist _ _).trans (List.drop_sublist _ _)).subset hc')
    split
    · rename_i e heq
      exact False.elim
        ((ih _ (key _ _)).2 _ _ _ _ _ _ (hmidf _ _) heq (le_refl _))
    · rename_i res heq
      exact ⟨_, rfl⟩
  · intro fragRef idx ys ps st e hflat heq hm
    rcases ys with _ | ⟨leftY, yrest⟩ <;> rcases ps with _ | ⟨leftP, prest⟩
    · rw [middleLoop] at heq; exact Except.noConfusion heq
    · rw [middleLoop] at heq; exact Except.noConfusion heq
    · rw [middleLoop] at heq; exact Except.noConfusion heq
    · rw [middleLoop] at heq
      have htail : 3 * sizeNUL prest + 2 < n := by
        have := sizeNU_pos leftP
        simp [sizeNUL] at hm
        omega
      have hLf : yFlat leftY = true := hflat _ (List.mem_cons_self _ _)
      have hrestf : ∀ c ∈ yrest, yFlat c = true := by
        intro c hc'; exact hflat _ (List.mem_cons_of_mem _ hc')
      have hRf : yFlat ((leftY :: yrest).getLast (List.cons_ne_nil _ _)) = true :=
        hflat _ (List.getLast_mem _)
      split at heq
      · -- the lookahead evaluation threw: impossible on flat children
        rename_i hco
        rw [choiceOrThrow_flat _ _ _ _ _ hLf hRf] at hco
        exact Option.noConfusion hco
      · -- a decision pair was produced
        rename_i choice hco
        split at heq
        · rename_i h1
          split at heq
          · rename_i e' hupd
            have huL := choiceOrThrow_fst _ _ _ _ _ _ hco h1
            obtain ⟨hel, hmn⟩ := Bool.and_eq_true_iff.mp huL
            have hname : isYEl leftY = true →
                ynameOf leftY = pName (nodeOfUnit leftP) := by
              intro _
              cases leftP with
              | single pn => simpa [matchNodeName, nodeOfUnit] using hmn
              | group ts => simp [matchNodeName] at hmn
            have hlt : 3 * sizeP (nodeOfUnit leftP) + 1 < n := by
              have hsz := sizeP_nodeOfUnit_le leftP
              simp [sizeNUL] at hm
              omega
            obtain ⟨r, hr⟩ :=
              (ih _ hlt).1 leftY (nodeOfUnit leftP) st (le_refl _) hLf hname
            rw [hr] at hupd
            exact Except.noConfusion hupd
          · rename_i r₁ hupd
            split at heq
            · rename_i e' hmid
              exact (ih _ htail).2 _ _ _ _ _ _ hrestf hmid (le_refl _)
            · exact Except.noConfusion heq
        · -- the right pair or the delete+insert branch
          rename_i h1f
          split at heq
          · rename_i h2
            split at heq
            · rename_i e' hupd
              have huR := choiceOrThrow_snd _ _ _ _ _ _ hco h2
              obtain ⟨hel, hmn⟩ := Bool.and_eq_true_iff.mp huR
              have hname : isYEl ((leftY :: yrest).getLast (List.cons_ne_nil _ _)) = true →
                  ynameOf ((leftY :: yrest).getLast (List.cons_ne_nil _ _)) =
                    pName (nodeOfUnit ((leftP :: prest).getLast (List.cons_ne_nil _ _))) := by
                intro _
                generalize (leftP :: prest).getLast (List.cons_ne_nil _ _) = gp at hmn ⊢
                cases gp with
                | single pn => simpa [matchNodeName, nodeOfUnit] using hmn
                | group ts => simp [matchNodeName] at hmn
              have hlt : 3 * sizeP (nodeOfUnit ((leftP :: prest).getLast
                  (List.cons_ne_nil _ _))) + 1 < n := by
                have hsz := sizeP_nodeOfUnit_le
                  ((leftP :: prest).getLast (List.cons_ne_nil _ _))
                have hmem := sizeNU_mem_le
                  (List.getLast_mem (l := leftP :: prest) (List.cons_ne_nil _ _))
                omega
              obtain ⟨r, hr⟩ := (ih _ hlt).1 _ _ st (le_refl _) hRf hname
              rw [hr] at hupd
              exact Except.noConfusion hupd
            · rename_i r₁ hupd
              split at heq
              · rename_i e' hmid
                have hdrop : 3 * sizeNUL (leftP :: prest).dropLast + 2 < n := by
                  have hdl := sizeNUL_dropLast (leftP :: prest) (List.cons_ne_nil _ _)
                  have hpos := sizeNU_pos ((leftP :: prest).getLast (List.cons_ne_nil _ _))
                  omega
                have hdropf : ∀ c ∈ (leftY :: yrest).dropLast, yFlat c = true := by
                  intro c hc'
                  exact hflat _ ((List.dropLast_sublist _).subset hc')
                exact (ih _ hdrop).2 _ _ _ _ _ _ hdropf hmid (le_refl _)
              · exact Except.noConfusion heq
          · -- delete + insert
            dsimp only at heq
            split at heq
            · rename_i e' hmid
              exact (ih _ htail).2 _ _ _ _ _ _ hrestf hmid (le_refl _)
            · exact Except.noConfusion heq
      · -- text/group pair
        intro runs tref ts hY hP
        subst hY; subst hP
        rw [middleLoop] at heq
        have htail2 : 3 * sizeNUL prest + 2 < n := by
          simp [sizeNUL, sizeNU] at hm
          omega
        have hflatruns : runsFlat runs = true := by
          have := hflat _ (List.mem_cons_self _ _)
          rwa [yFlat] at this
        rw [eytThrows_flat runs ts hflatruns] at heq
        simp only [Bool.false_eq_true, if_false] at heq
        have hrestf2 : ∀ c ∈ yrest, yFlat c = true := by
          intro c hc'; exact hflat _ (List.mem_cons_of_mem _ hc')
        split at heq
        · rename_i e' hmid
          exact (ih _ htail2).2 _ _ _ _ _ _ hrestf2 hmid (le_refl _)
        · exact Except.noConfusion heq

/-- C4, counterexample: with matching names everywhere (the root is
not even an element, so the claimed error condition is false), the
left matching loop's `equalYTypePNode` call compares the object-valued
replicated attribute `x` against the local value `null`; `typeof null`
is `'object'`, so `equalAttrs` recurses into the pair and
`Object.keys(null)` throws a `TypeError`, which escapes
`updateYFragment`.  The original iff (error exactly on a root name
mismatch) is therefore false. -/
theorem c4_counterexample :
    updateYFragment
        (YNode.yfrag [YNode.yel "p" [("x", JVal.jobj [("a", JVal.jprim "1")])] [] 2] 1)
        (PNode.node "doc" []
          [PNode.node "p" [("x", JVal.jnull), ("y", JVal.jprim "1")] [] 3] 4)
        ⟨[], 100, []⟩ = .error .typeErr ∧
      isYEl (YNode.yfrag
        [YNode.yel "p" [("x", JVal.jobj [("a", JVal.jprim "1")])] [] 2] 1) = false := by
  have hct : cmpThrows (JVal.jobj [("a", JVal.jprim "1")])
      (alookup [("x", JVal.jnull), ("y", JVal.jprim "1")] "x") = true := by
    rw [cmpThrows.eq_def]
    rw [if_neg (by decide), if_pos (by decide)]
    decide
  have hea : eaThrows [("x", JVal.jobj [("a", JVal.jprim "1")])]
      [("x", JVal.jnull), ("y", JVal.jprim "1")] = true := by
    rw [eaThrows]
    rw [if_pos (by decide)]
    show eaThrowsLoop _ [("x", JVal.jobj [("a", JVal.jprim "1")])] = true
    rw [eaThrowsLoop]
    rw [if_neg (by decide), if_pos hct]
  have hnorm : normalizePNodeContent (contentOf
      (PNode.node "p" [("x", JVal.jnull), ("y", JVal.jprim "1")] [] 3)) = [] := by
    simp only [contentOf]
    rw [normalizePNodeContent]
  have heq1 : eqThrows
      (YNode.yel "p" [("x", JVal.jobj [("a", JVal.jprim "1")])] [] 2)
      (NUnit.single (PNode.node "p" [("x", JVal.jnull), ("y", JVal.jprim "1")] [] 3)) =
        true := by
    simp only [eqThrows, attrsOf, hnorm]
    rw [if_pos (by decide), if_pos (by decide), hea]
    simp
  have hls : lsThrows (mset [] 1
      (LVal.lnode (PNode.node "doc" []
        [PNode.node "p" [("x", JVal.jnull), ("y", JVal.jprim "1")] [] 3] 4)))
      [YNode.yel "p" [("x", JVal.jobj [("a", JVal.jprim "1")])] [] 2]
      [NUnit.single (PNode.node "p" [("x", JVal.jnull), ("y", JVal.jprim "1")] [] 3)] =
        true := by
    rw [lsThrows]
    rw [if_neg (by decide), if_pos heq1]
  refine ⟨?_, rfl⟩
  rw [updateYFragment]
  simp only [isYEl, Bool.false_and, Bool.false_eq_true, if_false, ynameOf, yref,
    yattrsOf, ychildren, contentOf, normalizePNodeContent, isText]
  rw [hls]
  simp

/-- C4, amended: a name mismatch at an element root always raises the
`node name mismatch!` error; and on flat replicated trees — no
object-valued attribute anywhere, so no attribute comparison can
reach the `Object.keys(null)` `TypeError` — that name mismatch is the
only error: for a non-text replicated argument, `updateYFragment`
errors iff the root is an element whose name differs from the local
node's type name.  (Without flatness the equivalence fails: see the
counterexample, where a nested attribute compared against `null`
makes a name-matched call throw a `TypeError`.) -/
theorem c4_amended (y : YNode) (p : PNode) (st : USt) :
    (isYEl y = true → ynameOf y ≠ pName p →
        updateYFragment y p st = .error .mismatch) ∧
    (isYText y = false → yFlat y = true →
      ((∃ e, updateYFragment y p st = Except.error e) ↔
        (isYEl y = true ∧ ynameOf y ≠ pName p))) := by
  constructor
  · intro hel hne
    rw [updateYFragment]
    have hcond : (isYEl y && (ynameOf y != pName p)) = true := by
      simp [hel, hne]
    rw [if_pos hcond]
  · intro hty hflat
    constructor
    · rintro ⟨e, he⟩
      by_contra hcon
      have hname : isYEl y = true → ynameOf y = pName p := by
        intro hel
        by_contra hne
        exact hcon ⟨hel, hne⟩
      obtain ⟨r, hr⟩ :=
        (updateYFragment_ok_measure (3 * sizeP p + 1)).1 y p st (le_refl _)
          hflat hname
      rw [hr] at he
      exact Except.noConfusion he
    · rintro ⟨hel, hne⟩
      refine ⟨UErr.mismatch, ?_⟩
      rw [updateYFragment]
      have hcond : (isYEl y && (ynameOf y != pName p)) = true := by
        simp [hel, hne]
      rw [if_pos hcond]

/-- Witness for the amended C4 at a concrete mismatching element pair
(which is flat and not a text type). -/
theorem c4_amended_witness :
    updateYFragment (YNode.yel "p" [] [] 0)
        (PNode.node "h" [] [] 1) ⟨[], 10, []⟩ = .error .mismatch ∧
      (isYText (YNode.yel "p" [] [] 0) = false ∧
        yFlat (YNode.yel "p" [] [] 0) = true ∧
        ∃ e, updateYFragment (YNode.yel "p" [] [] 0)
          (PNode.node "h" [] [] 1) ⟨[], 10, []⟩ = Except.error e) := by
  have h := c4_amended (YNode.yel "p" [] [] 0) (PNode.node "h" [] [] 1) ⟨[], 10, []⟩
  have hflat : yFlat (YNode.yel "p" [] [] 0) = true := by
    rw [yFlat]
    simp [flatAttrs, yFlatL]
  refine ⟨h.1 rfl (by decide), rfl, hflat, ?_⟩
  exact (h.2 rfl hflat).mpr ⟨rfl, by decide⟩

/-! ## Claims C5 and C6 -/

/-- Unique keys, as JavaScript objects have. -/
def keysNodup (a : Attrs) : Prop :=
  (a.map Prod.fst).Nodup

/-- The non-null value of a map at a key (a `null` value counts as an
absent non-null key). -/
def nnAt (a : Attrs) (k : String) : Option JVal :=
  (alookup a k).bind fun v => if jbeq v JVal.jnull then none else some v

/-- The relation claim C6 asserts `equalAttrs` to decide: the two maps
agree key-for-key on every non-null key, with the `ychange` key
ignored entirely. -/
def agreesIgnoringYchange (a b : Attrs) : Prop :=
  ∀ k, k ≠ "ychange" → nnAt a k = nnAt b k

theorem eaLoop_eq_all (b : Attrs) (ks : Attrs) (acc : Bool) :
    eaLoop b ks acc =
      (acc && ks.all fun kv => kv.1 == "ychange" || cmpVal kv.2 (alookup b kv.1)) := by
  induction ks generalizing acc with
  | nil => cases acc <;> simp [eaLoop]
  | cons hd tl ih =>
    obtain ⟨k, v⟩ := hd
    cases acc with
    | false => simp [eaLoop]
    | true =>
      rw [eaLoop, if_pos rfl, ih]
      cases h : (k == "ychange" || cmpVal v (alookup b k)) <;> simp [h]

theorem jbeq_prim_iff (s : String) (w : JVal) :
    jbeq (JVal.jprim s) w = true ↔ w = JVal.jprim s := by
  cases w with
  | jnull => simp [jbeq]
  | jprim t =>
    simp only [jbeq, beq_iff_eq, JVal.jprim.injEq]
    exact ⟨fun h => h.symm, fun h => h.symm⟩
  | jobj f => simp [jbeq]

theorem cmpVal_prim (s : String) (r : Option JVal) :
    cmpVal (JVal.jprim s) r = true ↔ r = some (JVal.jprim s) := by
  rw [cmpVal]
  cases r with
  | none => simp [typeofObject, obeq]
  | some w =>
    simp only [typeofObject, Bool.false_and, Bool.and_false, Bool.or_false,
      Option.some.injEq, obeq]
    exact jbeq_prim_iff s w

theorem alookup_iff_mem {a : Attrs} (h : keysNodup a) (k : String) (v : JVal) :
    alookup a k = some v ↔ (k, v) ∈ a := by
  induction a with
  | nil => simp [alookup]
  | cons hd tl ih =>
    obtain ⟨k₀, v₀⟩ := hd
    have hnd : keysNodup tl := (List.nodup_cons.mp h).2
    have hnm : k₀ ∉ tl.map Prod.fst := (List.nodup_cons.mp h).1
    by_cases hk : k₀ = k
    · subst hk
      simp only [alookup, eq_self_iff_true, if_true, Option.some.injEq,
        List.mem_cons, Prod.mk.injEq, true_and]
      constructor
      · rintro rfl; exact Or.inl rfl
      · rintro (rfl | hmem)
        · rfl
        · exact absurd (List.mem_map_of_mem Prod.fst hmem) hnm
    · simp only [alookup, if_neg hk, ih hnd, List.mem_cons, Prod.mk.injEq]
      constructor
      · exact Or.inr
      · rintro (⟨rfl, -⟩ | hmem)
        · exact absurd rfl hk
        · exact hmem

/-- C6, counterexample: a map whose only entry is a non-null `ychange`
against the empty map.  The claimed relation (agree on all non-null
keys, `ychange` ignored entirely) holds, yet `equalAttrs` returns
`false`, because a non-null `ychange` key still counts in the
non-null-key-count comparison. -/
theorem c6_counterexample :
    agreesIgnoringYchange [("ychange", JVal.jprim "z")] [] ∧
      equalAttrs [("ychange", JVal.jprim "z")] [] = false := by
  constructor
  · intro k hk
    simp [nnAt, alookup, Ne.symm hk]
  · rw [equalAttrs]
    simp [nonNullEntries, nonNullCount, jbeq, eaLoop]

/-- C6, amended and scoped: for a FLAT first map (no object-valued
attribute values) with unique keys, `equalAttrs` does not throw, and
returns true iff the non-null key counts agree and every non-null key
of the first map other than `ychange` has the same value in the
second map.  The value of `ychange` is never compared, but a non-null
`ychange` still counts toward the key-count comparison (so its
presence on exactly one side, or an unchecked surplus key of the
second map balanced by a `ychange` on the first, can change the
result).  The flatness hypothesis is essential: on nested maps the
comparison recurses, short-circuiting `ychange` keys at every depth,
and throws a `TypeError` (`eaThrows`) when an object-typed value
meets `null`. -/
theorem c6_amended (a b : Attrs) (hflat : flatAttrs a = true)
    (hnd : keysNodup a) :
    eaThrows a b = false ∧
      (equalAttrs a b = true ↔
        (nonNullCount a = nonNullCount b ∧
          ∀ k v, alookup a k = some v → v ≠ JVal.jnull →
            k = "ychange" ∨ alookup b k = some v)) := by
  refine ⟨eaThrows_flat a b hflat, ?_⟩
  rw [equalAttrs, eaLoop_eq_all]
  simp only [Bool.and_eq_true, beq_iff_eq, List.all_eq_true]
  constructor
  · rintro ⟨hcnt, hall⟩
    refine ⟨hcnt, fun k v hlk hv => ?_⟩
    have hmem : (k, v) ∈ a := (alookup_iff_mem hnd k v).mp hlk
    have hvnn : (k, v) ∈ nonNullEntries a := by
      rw [nonNullEntries, List.mem_filter]
      refine ⟨hmem, ?_⟩
      cases v with
      | jnull => exact absurd rfl hv
      | jprim s => simp [jbeq]
      | jobj f => simp [jbeq]
    have := hall _ hvnn
    simp only [Bool.or_eq_true, beq_iff_eq] at this
    rcases this with hky | hcmp
    · exact Or.inl hky
    · -- v is flat and non-null, so it is a primitive
      have : ∃ s, v = JVal.jprim s := by
        have hfv := List.all_eq_true.mp hflat _ hmem
        cases v with
        | jnull => exact absurd rfl hv
        | jprim s => exact ⟨s, rfl⟩
        | jobj f => simp at hfv
      obtain ⟨s, rfl⟩ := this
      exact Or.inr ((cmpVal_prim s _).mp hcmp)
  · rintro ⟨hcnt, hall⟩
    refine ⟨hcnt, fun kv hkv => ?_⟩
    obtain ⟨k, v⟩ := kv
    rw [nonNullEntries, List.mem_filter] at hkv
    obtain ⟨hmem, hvb⟩ := hkv
    have hv : v ≠ JVal.jnull := by
      intro h; subst h; simp [jbeq] at hvb
    have hlk : alookup a k = some v := (alookup_iff_mem hnd k v).mpr hmem
    rcases hall k v hlk hv with hky | hbl
    · simp [hky]
    · have : ∃ s, v = JVal.jprim s := by
        have hfv := List.all_eq_true.mp hflat _ hmem
        cases v with
        | jnull => exact absurd rfl hv
        | jprim s => exact ⟨s, rfl⟩
        | jobj f => simp at hfv
      obtain ⟨s, rfl⟩ := this
      simp only [Bool.or_eq_true, beq_iff_eq]
      exact Or.inr ((cmpVal_prim s _).mpr hbl)

/-- Witness for the amended C6 at concrete flat maps. -/
theorem c6_amended_witness :
    (flatAttrs [("a", JVal.jprim "1"), ("ychange", JVal.jprim "z")] = true ∧
      keysNodup [("a", JVal.jprim "1"), ("ychange", JVal.jprim "z")]) ∧
      eaThrows [("a", JVal.jprim "1"), ("ychange", JVal.jprim "z")]
        [("a", JVal.jprim "1"), ("b", JVal.jprim "2")] = false ∧
      (nonNullCount [("a", JVal.jprim "1"), ("ychange", JVal.jprim "z")] =
          nonNullCount [("a", JVal.jprim "1"), ("b", JVal.jprim "2")] ∧
        ∀ k v,
          alookup [("a", JVal.jprim "1"), ("ychange", JVal.jprim "z")] k = some v →
          v ≠ JVal.jnull →
          k = "ychange" ∨ alookup [("a", JVal.jprim "1"), ("b", JVal.jprim "2")] k = some v) := by
  refine ⟨⟨by simp [flatAttrs], by simp [keysNodup]⟩, ?_, ?_⟩
  · exact (c6_amended _ _ (by simp [flatAttrs]) (by simp [keysNodup])).1
  · refine ((c6_amended _ _ (by simp [flatAttrs]) (by simp [keysNodup])).2).mp ?_
    rw [equalAttrs, eaLoop_eq_all]
    simp [nonNullEntries, nonNullCount, jbeq, alookup, cmpVal, typeofObject, obeq]

/-- C5: in the middle loop of `updateYFragment`, when both candidate
pairs are name-matched elements, the left pair is the one recursed
into exactly when only the left lookahead found an identity-mapped
child, or both/neither did and the left equality factor is at least
the right one (ties prefer the left); otherwise the right pair is
recursed into. -/
theorem c5_equality_factor_decision (m : Mapping) (yl yr : YNode) (pl pr : PNode) :
    ((chooseUpdate true true (computeChildEqualityFactor m yl pl)
          (computeChildEqualityFactor m yr pr)).1 = true ↔
        ((computeChildEqualityFactor m yl pl).foundMappedChild = true ∧
            (computeChildEqualityFactor m yr pr).foundMappedChild = false) ∨
          ((computeChildEqualityFactor m yl pl).foundMappedChild =
              (computeChildEqualityFactor m yr pr).foundMappedChild ∧
            (computeChildEqualityFactor m yr pr).equalityFactor ≤
              (computeChildEqualityFactor m yl pl).equalityFactor)) ∧
      (chooseUpdate true true (computeChildEqualityFactor m yl pl)
          (computeChildEqualityFactor m yr pr)).2 =
        !(chooseUpdate true true (computeChildEqualityFactor m yl pl)
            (computeChildEqualityFactor m yr pr)).1 := by
  generalize (computeChildEqualityFactor m yl pl) = eqL
  generalize (computeChildEqualityFactor m yr pr) = eqR
  obtain ⟨fL, nL⟩ := eqL
  obtain ⟨fR, nR⟩ := eqR
  cases fL <;> cases fR <;> by_cases h : nL < nR <;>
    simp [chooseUpdate, h] <;> omega

/-! ## Snapshot rendering (claim C9) -/

/-- A Yjs item id: client and clock. -/
structure YId : Type where
  client : Nat
  clock : Nat
  deriving Repr, DecidableEq

/-- A state vector (client to next-expected clock). -/
abbrev SV := List (Nat × Nat)

/-- `sv.get(client)` / `sv.has(client)`. -/
def svGet (sv : SV) (c : Nat) : Option Nat :=
  match sv with
  | [] => none
  | (c₀, n) :: rest => if c₀ = c then some n else svGet rest c

/-- A delete set, modelled extensionally as the set of deleted item
ids (`Y.isDeleted ds id` is membership). -/
abbrev DS := List YId

/-- `Y.isDeleted(ds, id)` (external, interface semantics). -/
def isDeletedDS (ds : DS) (id : YId) : Bool :=
  ds.contains id

/-- A snapshot: state vector plus delete set. -/
structure Snapshot : Type where
  sv : SV
  ds : DS
  deriving Repr

/-- The item metadata of a y type (`type._item`). -/
structure Item : Type where
  id : YId
  deleted : Bool
  deriving Repr

/-- `isVisible` (src/dist/y-prosemirror.cjs:49): without a snapshot,
visibility is non-deletion; under a snapshot, the item's creation must
be covered by the state vector and the item must not be in the
snapshot's delete set. -/
def isVisible (item : Item) (snapshot : Option Snapshot) : Bool :=
  match snapshot with
  | none => !item.deleted
  | some s =>
    match svGet s.sv item.id.client with
    | none => false
    | some c => decide (item.id.clock < c) && !(isDeletedDS s.ds item.id)

/-- A Yjs XML node together with its item metadata, for the
snapshot-rendering path. -/
inductive YSNode : Type where
  | el : String → Attrs → List YSNode → Item → YSNode
  | tx : List Run → Item → YSNode
  deriving Repr

/-- `_item` of a node. -/
def itemOf : YSNode → Item
  | .el _ _ _ i => i
  | .tx _ i => i

/-- Size measure. -/
def sizeS : YSNode → Nat
  | .el _ _ cs _ => 1 + sizeSL cs
  | .tx _ _ => 1
where
  /-- List size. -/
  sizeSL : List YSNode → Nat
  | [] => 0
  | c :: rest => sizeS c + sizeSL rest

/-- `Y.typeListToArraySnapshot` (external, interface semantics): the
children visible under the given snapshot — here always called with
the hybrid `new Y.Snapshot(prevSnapshot.ds, snapshot.sv)`. -/
def typeListToArraySnapshot (cs : List YSNode) (s : Snapshot) : List YSNode :=
  cs.filter fun c => isVisible (itemOf c) (some s)

theorem sizeSL_sublist {xs ys : List YSNode} (h : xs.Sublist ys) :
    sizeS.sizeSL xs ≤ sizeS.sizeSL ys := by
  induction h with
  | slnil => simp
  | cons c _ ih =>
    have hc : 1 ≤ sizeS c := by cases c <;> simp [sizeS] <;> omega
    simp [sizeS.sizeSL]; omega
  | cons₂ c _ ih => simp [sizeS.sizeSL]; omega

theorem sizeSL_typeList_le (cs : List YSNode) (s : Snapshot) :
    sizeS.sizeSL (typeListToArraySnapshot cs s) ≤ sizeS.sizeSL cs :=
  sizeSL_sublist (List.filter_sublist _)

theorem snapTermKey (cs : List YSNode) (s : Snapshot) (nm : String)
    (a : Attrs) (it : Item) :
    3 * sizeS.sizeSL (typeListToArraySnapshot cs s) + 2 <
      3 * sizeS (YSNode.el nm a cs it) := by
  have h1 := sizeSL_typeList_le cs s
  simp [sizeS]
  omega

/-- The `ychange` attribute value: `computeYChange` when supplied,
else the plain `{ type: ... }` object
(src/dist/y-prosemirror.cjs:461-463). -/
def ychangeVal (cyc : Option (String → YId → JVal)) (t : String) (id : YId) : JVal :=
  match cyc with
  | some f => f t id
  | none => .jobj [("type", .jprim t)]

mutual

/-- `createNodeFromYElement` (src/dist/y-prosemirror.cjs:433-477),
snapshot path: the children come from the hybrid
`typeListToArraySnapshot` window; the attributes are read under the
snapshot (modelled as the stored attributes — attribute history is the
replication engine's concern) and receive a `ychange` marker when the
element is invisible in the newer snapshot (`removed`) or only in the
older one (`added`).  Construction failure yields `null` (the deletion
side effect is modelled in the snapshot-free embedding above). -/
def createNodeFromYElementSnap (el : YSNode) (schema : Schema)
    (snapshot prevSnapshot : Snapshot)
    (cyc : Option (String → YId → JVal)) : Option PNode :=
  match el with
  | .el name attrs cs item =>
    let children := snapChildrenList
      (typeListToArraySnapshot cs ⟨snapshot.sv, prevSnapshot.ds⟩)
      schema snapshot prevSnapshot cyc
    let attrs₂ :=
      if !(isVisible item (some snapshot)) then
        setAttr attrs "ychange" (ychangeVal cyc "removed" item.id)
      else if !(isVisible item (some prevSnapshot)) then
        setAttr attrs "ychange" (ychangeVal cyc "added" item.id)
      else attrs
    schema.node name attrs₂ children
  | .tx _ _ => none
termination_by 3 * sizeS el
decreasing_by
  exact snapTermKey _ _ _ _ _

/-- The `createChildren` fold under snapshots: text children decode
their runs (the snapshot-windowed `toDelta` is the replication
engine's), element children recurse; `null` results are skipped. -/
def snapChildrenList (cs : List YSNode) (schema : Schema)
    (snapshot prevSnapshot : Snapshot)
    (cyc : Option (String → YId → JVal)) : List PNode :=
  match cs with
  | [] => []
  | c :: rest =>
    match c with
    | .tx runs _ =>
      ((textNodesOfDelta schema (normRuns runs)).getD []) ++
        snapChildrenList rest schema snapshot prevSnapshot cyc
    | .el n a ccs i =>
      ((createNodeFromYElementSnap (.el n a ccs i) schema snapshot
          prevSnapshot cyc).elim [] fun nd => [nd]) ++
        snapChildrenList rest schema snapshot prevSnapshot cyc
termination_by 3 * sizeS.sizeSL cs + 2
decreasing_by
  all_goals (simp [sizeS, sizeS.sizeSL]; try omega)

end

/-- The per-child decision of `ProsemirrorBinding._renderSnapshot`
(src/dist/y-prosemirror.cjs:337-345): a child of the hybrid window is
rendered unless it is deleted and visible in neither snapshot. -/
def renderSnapshotChild (t : YSNode) (schema : Schema)
    (snapshot prevSnapshot : Snapshot)
    (cyc : Option (String → YId → JVal)) : Option PNode :=
  if !(itemOf t).deleted || isVisible (itemOf t) (some snapshot) ||
      isVisible (itemOf t) (some prevSnapshot) then
    createNodeFromYElementSnap t schema snapshot prevSnapshot cyc
  else none

/-- The fragment content built by `_renderSnapshot`: map
`renderSnapshotChild` over the hybrid window, dropping `null`s. -/
def renderSnapshotContent (cs : List YSNode) (schema : Schema)
    (snapshot prevSnapshot : Snapshot)
    (cyc : Option (String → YId → JVal)) : List PNode :=
  (typeListToArraySnapshot cs ⟨snapshot.sv, prevSnapshot.ds⟩).filterMap
    fun t => renderSnapshotChild t schema snapshot prevSnapshot cyc

theorem alookup_setAttr_self (a : Attrs) (k : String) (v : JVal) :
    alookup (setAttr a k v) k = some v := by
  induction a with
  | nil => simp [setAttr, alookup]
  | cons hd tl ih =>
    obtain ⟨k₀, v₀⟩ := hd
    by_cases h : k₀ = k
    · simp [setAttr, h, alookup]
    · simp [setAttr, h, alookup, ih]

/-- A fully permissive schema: every construction succeeds and
reproduces its inputs (used as a concrete schema instance in
witnesses and round-trip statements). -/
def anySchema : Schema where
  node := fun nm a c => some (.node nm a c 0)
  mark := fun k a => some ⟨k, a⟩
  text := fun s m => some (.ptext s m 0)

/-! ## Position translation (claims C1, C8, C10)

The position translators walk the replicated tree through the
`_first` / `_item.next` / `_item.parent` navigation, which skips
tombstoned items; the model tree is therefore the visible tree.  The
ProsemirrorMapping is read only through `.nodeSize` of the mapped
local node, so it is modelled as a partial map from type identity to
the reported node size. -/

/-- A node of the position model: a text type with its visible
character length, or an element with its visible children.  `ref` is
the type identity. -/
inductive YPos : Type where
  | ytext : Nat → Nat → YPos
  | yelem : List YPos → Nat → YPos
  deriving Repr

/-- Identity of a node. -/
def refOfP : YPos → Nat
  | .ytext _ r => r
  | .yelem _ r => r

/-- `n.constructor === Y.XmlText`. -/
def isTextP : YPos → Bool
  | .ytext _ _ => true
  | .yelem _ _ => false

/-- `type._length`: character count of a text, child count of an
element. -/
def ylenOf : YPos → Nat
  | .ytext len _ => len
  | .yelem cs _ => cs.length

/-- The mapping as the position translators see it: type identity to
the `.nodeSize` of the mapped local node. -/
abbrev PosMapping := List (Nat × Nat)

/-- `mapping.get`. -/
def pmget (m : PosMapping) (r : Nat) : Option Nat :=
  match m with
  | [] => none
  | (r₀, v) :: rest => if r₀ = r then some v else pmget rest r

/-- Node size of the local node corresponding to a replicated node
when the mapping holds the current local tree: a text node's size is
its length, an element's is 2 plus the sizes of its children. -/
def sizeYP : YPos → Nat
  | .ytext len _ => len
  | .yelem cs _ => 2 + sizesYP cs
where
  /-- Sum of sizes. -/
  sizesYP : List YPos → Nat
  | [] => 0
  | c :: rest => sizeYP c + sizesYP rest

/-- Node count (fuel / progress measure). -/
def countYP : YPos → Nat
  | .ytext _ _ => 1
  | .yelem cs _ => 1 + countsYP cs
where
  /-- List count. -/
  countsYP : List YPos → Nat
  | [] => 0
  | c :: rest => countYP c + countsYP rest

mutual

/-- The mapping holds the current local node (hence the consistent
`nodeSize`) for this element and every element below it. -/
def sigmaOk (σ : PosMapping) : YPos → Prop
  | .ytext _ _ => True
  | .yelem cs r => pmget σ r = some (sizeYP (.yelem cs r)) ∧ sigmaOkL σ cs

/-- `sigmaOk` for a child list. -/
def sigmaOkL (σ : PosMapping) : List YPos → Prop
  | [] => True
  | c :: rest => sigmaOk σ c ∧ sigmaOkL σ rest

end

/-- A relative position (`Y.RelativePosition`), by the three shapes
this module builds: a type-plus-index anchor
(`createRelativePositionFromTypeIndex`), an end-of-type anchor (type
id or root name, item `null`), and a before-item anchor
(`createRelativePosition`, carrying the item's id). -/
inductive RelPos : Type where
  | typeIndex : Nat → Int → RelPos
  | relEnd : Nat → RelPos
  | beforeItem : Nat → RelPos
  deriving Repr, DecidableEq

/-- One level of the walk context: the reversed earlier siblings, the
later siblings, and the parent — `some r` an element with identity
`r`, `none` the root type. -/
structure Crumb : Type where
  bef : List YPos
  aft : List YPos
  par : Option Nat
  deriving Repr

/-- The walker state of `absolutePositionToRelativePosition`: the
focused node `n`, its context, and the remaining `pos` (a JavaScript
number: the source lets it go negative). -/
structure APos : Type where
  focus : YPos
  crumbs : List Crumb
  pos : Int
  deriving Repr

/-- One loop iteration's outcome. -/
inductive StepRes : Type where
  | done : RelPos → StepRes
  | cont : APos → StepRes
  | err : StepRes
  deriving Repr

/-- The shared ascent `do { n = n._item.parent; pos-- } while (n !==
type && ... && n._item.next === null)` followed by `if (n !== type) n
= n._item.next...`: climb while the ancestor has no next sibling,
decrementing `pos` once per level; `none` means the root type was
reached (`n === type`). -/
def ascend : List Crumb → YPos → Int → Option (YPos × List Crumb × Int)
  | [], _, _ => none
  | c :: rest, foc, pos =>
    let pos₁ := pos - 1
    match c.par with
    | none => none
    | some r =>
      let parent : YPos := .yelem (c.bef.reverse ++ foc :: c.aft) r
      match rest with
      | [] => none
      | c₂ :: rest₂ =>
        match c₂.aft with
        | m :: aft₂ =>
          some (m, { bef := parent :: c₂.bef, aft := aft₂, par := c₂.par } :: rest₂, pos₁)
        | [] => ascend (c₂ :: rest₂) parent pos₁

/-- The bottom-of-loop checks (src/dist/y-prosemirror.cjs:937-942):
anchor right before the new focus when `pos` reached 0 on a non-text
node. -/
def finishStep (s : APos) : StepRes :=
  if s.pos = 0 && !(isTextP s.focus) then .done (.beforeItem (refOfP s.focus))
  else .cont s

/-- The non-descending element case: consume the node's size and move
to the next sibling, the end of the parent, or ascend
(src/dist/y-prosemirror.cjs:916-934). -/
def stepAbsPast (rootRef rootLen : Nat) (s : APos)
    (pNodeSize : Int) : StepRes :=
  let pos₁ := s.pos - pNodeSize
  match s.crumbs with
  | [] => .err
  | c :: rest =>
    match c.aft with
    | m :: aft₂ =>
      finishStep ⟨m, { bef := s.focus :: c.bef, aft := aft₂, par := c.par } :: rest, pos₁⟩
    | [] =>
      if pos₁ = 0 then
        .done (.relEnd (match c.par with | some r => r | none => rootRef))
      else
        match ascend (c :: rest) s.focus pos₁ with
        | none => .done (.typeIndex rootRef rootLen)
        | some (m, cs₂, pos₂) => finishStep ⟨m, cs₂, pos₂⟩

/-- One iteration of the while loop of
`absolutePositionToRelativePosition` (src/dist/y-prosemirror.cjs:
887-943).  `rootRef`/`rootLen` identify the bound root type and its
child count (`type`, `type._length`); reaching the root type ends the
loop with the end-of-root type index. -/
def stepAbs (σ : PosMapping) (rootRef rootLen : Nat) (s : APos) : StepRes :=
  match s.focus with
  | .ytext len tref =>
    if s.pos ≤ (len : Int) then .done (.typeIndex tref s.pos)
    else
      let pos₁ := s.pos - len
      match s.crumbs with
      | [] => .err
      | c :: rest =>
        match c.aft with
        | m :: aft₂ =>
          finishStep ⟨m, { bef := s.focus :: c.bef, aft := aft₂, par := c.par } :: rest, pos₁⟩
        | [] =>
          match ascend (c :: rest) s.focus pos₁ with
          | none => .done (.typeIndex rootRef rootLen)
          | some (m, cs₂, pos₂) => finishStep ⟨m, cs₂, pos₂⟩
  | .yelem cs eref =>
    let pNodeSize : Int := ((pmget σ eref).getD 0 : Nat)
    match cs with
    | chd :: ctl =>
      if s.pos < pNodeSize then
        -- descend into the first child
        finishStep ⟨chd, { bef := [], aft := ctl, par := some eref } :: s.crumbs, s.pos - 1⟩
      else
        stepAbsPast rootRef rootLen s pNodeSize
    | [] =>
      if s.pos = 1 && decide (1 < pNodeSize) then
        -- empty element whose interior holds the position
        .done (.relEnd eref)
      else
        stepAbsPast rootRef rootLen s pNodeSize

/-- Result of the walk. -/
inductive AbsRes : Type where
  | ok : RelPos → AbsRes
  | errorCase : AbsRes
  | fuelOut : AbsRes
  deriving Repr, DecidableEq

/-- Iterate the loop. -/
def runAbs (σ : PosMapping) (rootRef rootLen : Nat) :
    Nat → APos → AbsRes
  | 0, _ => .fuelOut
  | fuel + 1, s =>
    match stepAbs σ rootRef rootLen s with
    | .done r => .ok r
    | .err => .errorCase
    | .cont s₂ => runAbs σ rootRef rootLen fuel s₂

/-- `absolutePositionToRelativePosition`
(src/dist/y-prosemirror.cjs:882-945): position 0 anchors at the start
of the root; otherwise walk from the root's first child.  The fuel —
one unit per node of the tree plus one — covers every terminating walk
(each iteration advances the focus in document order). -/
def absolutePositionToRelativePosition (pos : Int) (root : List YPos)
    (rootRef : Nat) (σ : PosMapping) : AbsRes :=
  if pos = 0 then .ok (.typeIndex rootRef 0)
  else
    match root with
    | [] => .ok (.typeIndex rootRef 0)
    | m :: rest =>
      runAbs σ rootRef root.length (countYP.countsYP root + 1)
        ⟨m, [{ bef := [], aft := rest, par := none }], pos⟩

mutual

/-- Depth-first search for the type with the given identity; the path
is the child-index chain from the root children. -/
def findPathN (r : Nat) (c : YPos) : Option (List Nat) :=
  if refOfP c = r then some []
  else
    match c with
    | .ytext _ _ => none
    | .yelem cs _ => findPathL r cs 0

/-- Search a child list starting at index `i`. -/
def findPathL (r : Nat) (cs : List YPos) (i : Nat) : Option (List Nat) :=
  match cs with
  | [] => none
  | c :: rest =>
    match findPathN r c with
    | some p => some (i :: p)
    | none => findPathL r rest (i + 1)

end

/-- The node at a (nonempty) path. -/
def nodeAt (cs : List YPos) : List Nat → Option YPos
  | [] => none
  | [i] => cs.get? i
  | i :: rest =>
    match cs.get? i with
    | some (.yelem ccs _) => nodeAt ccs rest
    | _ => none

/-- `Y.createAbsolutePositionFromRelativePosition` (external,
interface semantics, in the absence of concurrent edits): resolve the
anchor to a (type path, index) pair — the empty path is the root type.
`none` when the anchor is gone from the tree (the concurrent-delete
case of the claims: an anchor whose item no longer resolves). -/
def resolveRel (root : List YPos) (rootRef : Nat) :
    RelPos → Option (List Nat × Int)
  | .typeIndex tref i =>
    if tref = rootRef then some ([], min i (root.length : Int))
    else
      match findPathL tref root 0 with
      | none => none
      | some p =>
        match nodeAt root p with
        | none => none
        | some t => some (p, min i (ylenOf t : Int))
  | .relEnd tref =>
    if tref = rootRef then some ([], (root.length : Int))
    else
      match findPathL tref root 0 with
      | none => none
      | some p =>
        match nodeAt root p with
        | none => none
        | some t => some (p, (ylenOf t : Int))
  | .beforeItem iref =>
    match findPathL iref root 0 with
    | none => none
    | some [] => none
    | some (i :: rest) =>
      some ((i :: rest).dropLast, ((i :: rest).getLast (by simp) : Nat))

/-- Size of a node as `relativePositionToAbsolutePosition` reads it:
text length, or the mapped local `nodeSize` — here with no default:
a missing entry is a crash (`undefined.nodeSize`). -/
def sizeOfYPOpt (σ : PosMapping) : YPos → Option Int
  | .ytext len _ => some (len : Int)
  | .yelem _ r => (pmget σ r).map fun v => (v : Int)

/-- Sum of read sizes, propagating a missing-mapping crash. -/
def sumSizesOpt (σ : PosMapping) : List YPos → Option Int
  | [] => some 0
  | c :: rest => do
    let a ← sizeOfYPOpt σ c
    let b ← sumSizesOpt σ rest
    pure (a + b)

/-- The ancestor walk of `relativePositionToAbsolutePosition`
(src/dist/y-prosemirror.cjs:991-1015): one start-tag unit plus the
sizes of the preceding siblings, at every level from the root down to
the resolved type. -/
def climbPath (σ : PosMapping) : List YPos → List Nat → Option Int
  | _, [] => some 0
  | cs, i :: rest => do
    let s ← sumSizesOpt σ (cs.take i)
    let inner ←
      match cs.get? i with
      | some (.yelem ccs _) => climbPath σ ccs rest
      | some (.ytext _ _) => if rest = [] then some 0 else none
      | none => none
    pure (1 + s + inner)

/-- Result of `relativePositionToAbsolutePosition`: `unres` is the
`null` return (unresolvable anchor), `crash` a missing mapping entry
(`undefined.nodeSize`). -/
inductive RRes : Type where
  | unres : RRes
  | okPos : Int → RRes
  | crash : RRes
  deriving Repr, DecidableEq

/-- The children of the resolved type (the root children for the empty
path). -/
def childrenAtPath (root : List YPos) : List Nat → Option (List YPos)
  | [] => some root
  | p =>
    match nodeAt root p with
    | some (.yelem ccs _) => some ccs
    | some (.ytext _ _) => none
    | none => none

/-- `relativePositionToAbsolutePosition`
(src/dist/y-prosemirror.cjs:965-1017): resolve the anchor (null if it
does not resolve under the bound root), take the character index
inside a text type or one start tag plus the sizes of the first
`index` children inside an element/the root, then add one start tag
plus preceding-sibling sizes per ancestor level, and subtract the one
for the outermost fragment. -/
def relativePositionToAbsolutePosition (root : List YPos) (rootRef : Nat)
    (rp : RelPos) (σ : PosMapping) : RRes :=
  match resolveRel root rootRef rp with
  | none => .unres
  | some (path, idx) =>
    let baseOpt : Option Int :=
      match path with
      | [] => (sumSizesOpt σ (root.take idx.toNat)).map (· + 1)
      | _ :: _ =>
        match nodeAt root path with
        | none => none
        | some (.ytext _ _) => some idx
        | some (.yelem cs _) => (sumSizesOpt σ (cs.take idx.toNat)).map (· + 1)
    match baseOpt with
    | none => .crash
    | some base =>
      match climbPath σ root path with
      | none => .crash
      | some up => .okPos (base + up - 1)

/-- C9: under a snapshot pair, (i) a replicated child that is deleted
and visible in neither snapshot is omitted from the rendered output
entirely; (ii) an element rendered while invisible in the newer
snapshot carries a `ychange` attribute of type `removed`; (iii) an
element rendered while visible in the newer but not the older
snapshot carries a `ychange` attribute of type `added` (for any
schema whose node constructor preserves the attribute map it is
given). -/
theorem c9_snapshot_rendering :
    (∀ (t : YSNode) (schema : Schema) (snapshot prevSnapshot : Snapshot)
        (cyc : Option (String → YId → JVal)),
        (itemOf t).deleted = true →
        isVisible (itemOf t) (some snapshot) = false →
        isVisible (itemOf t) (some prevSnapshot) = false →
        renderSnapshotChild t schema snapshot prevSnapshot cyc = none) ∧
      (∀ (name : String) (attrs : Attrs) (cs : List YSNode) (item : Item)
          (schema : Schema) (snapshot prevSnapshot : Snapshot)
          (cyc : Option (String → YId → JVal)) (n : PNode),
          (∀ nm a c nd, schema.node nm a c = some nd → attrsOf nd = a) →
          createNodeFromYElementSnap (.el name attrs cs item) schema
            snapshot prevSnapshot cyc = some n →
          isVisible item (some snapshot) = false →
          alookup (attrsOf n) "ychange" =
            some (ychangeVal cyc "removed" item.id)) ∧
      (∀ (name : String) (attrs : Attrs) (cs : List YSNode) (item : Item)
          (schema : Schema) (snapshot prevSnapshot : Snapshot)
          (cyc : Option (String → YId → JVal)) (n : PNode),
          (∀ nm a c nd, schema.node nm a c = some nd → attrsOf nd = a) →
          createNodeFromYElementSnap (.el name attrs cs item) schema
            snapshot prevSnapshot cyc = some n →
          isVisible item (some snapshot) = true →
          isVisible item (some prevSnapshot) = false →
          alookup (attrsOf n) "ychange" =
            some (ychangeVal cyc "added" item.id)) := by
  refine ⟨?_, ?_, ?_⟩
  · intro t schema snapshot prevSnapshot cyc hdel hv1 hv2
    rw [renderSnapshotChild]
    simp [hdel, hv1, hv2]
  · intro name attrs cs item schema snapshot prevSnapshot cyc n hf hn hv1
    rw [createNodeFromYElementSnap] at hn
    simp only [hv1, Bool.not_false, if_true] at hn
    rw [hf _ _ _ _ hn]
    exact alookup_setAttr_self _ _ _
  · intro name attrs cs item schema snapshot prevSnapshot cyc n hf hn hv1 hv2
    rw [createNodeFromYElementSnap] at hn
    simp only [hv1, hv2, Bool.not_true, Bool.not_false, if_false, if_true] at hn
    rw [hf _ _ _ _ hn]
    exact alookup_setAttr_self _ _ _

/-- Witness for C9 at concrete snapshots: `snapshot` covers client 1
up to clock 10 with nothing deleted, `prevSnapshot` covers nothing. -/
theorem c9_witness :
    (renderSnapshotChild (.el "p" [] [] ⟨⟨2, 0⟩, true⟩) anySchema
        ⟨[(1, 10)], []⟩ ⟨[], []⟩ none = none) ∧
      (∃ n, createNodeFromYElementSnap (.el "p" [] [] ⟨⟨2, 0⟩, false⟩)
          anySchema ⟨[(1, 10)], []⟩ ⟨[], []⟩ none = some n ∧
        alookup (attrsOf n) "ychange" =
          some (ychangeVal none "removed" ⟨2, 0⟩)) ∧
      (∃ n, createNodeFromYElementSnap (.el "p" [] [] ⟨⟨1, 5⟩, false⟩)
          anySchema ⟨[(1, 10)], []⟩ ⟨[], []⟩ none = some n ∧
        alookup (attrsOf n) "ychange" =
          some (ychangeVal none "added" ⟨1, 5⟩)) := by
  have hf : ∀ nm a c nd, anySchema.node nm a c = some nd → attrsOf nd = a := by
    intro nm a c nd h
    simp [anySchema] at h
    rw [← h]
    simp [attrsOf]
  have hv1 : isVisible (⟨⟨2, 0⟩, true⟩ : Item) (some ⟨[(1, 10)], []⟩) = false := by
    simp [isVisible, svGet]
  have hv1' : isVisible (⟨⟨2, 0⟩, false⟩ : Item) (some ⟨[(1, 10)], []⟩) = false := by
    simp [isVisible, svGet]
  have hv2 : isVisible (⟨⟨2, 0⟩, true⟩ : Item) (some ⟨[], []⟩) = false := by
    simp [isVisible, svGet]
  have hv3 : isVisible (⟨⟨1, 5⟩, false⟩ : Item) (some ⟨[(1, 10)], []⟩) = true := by
    simp [isVisible, svGet, isDeletedDS]
  have hv4 : isVisible (⟨⟨1, 5⟩, false⟩ : Item) (some ⟨[], []⟩) = false := by
    simp [isVisible, svGet]
  have hrem : createNodeFromYElementSnap (.el "p" [] [] ⟨⟨2, 0⟩, false⟩)
      anySchema ⟨[(1, 10)], []⟩ ⟨[], []⟩ none =
        some (.node "p" (setAttr [] "ychange" (ychangeVal none "removed" ⟨2, 0⟩)) [] 0) := by
    rw [createNodeFromYElementSnap]
    simp [hv1', typeListToArraySnapshot, snapChildrenList, anySchema]
  have hadd : createNodeFromYElementSnap (.el "p" [] [] ⟨⟨1, 5⟩, false⟩)
      anySchema ⟨[(1, 10)], []⟩ ⟨[], []⟩ none =
        some (.node "p" (setAttr [] "ychange" (ychangeVal none "added" ⟨1, 5⟩)) [] 0) := by
    rw [createNodeFromYElementSnap]
    simp [hv3, hv4, typeListToArraySnapshot, snapChildrenList, anySchema]
  refine ⟨?_, ⟨_, hrem, ?_⟩, ⟨_, hadd, ?_⟩⟩
  · exact c9_snapshot_rendering.1 _ _ _ _ _ (by simp [itemOf])
      (by simpa [itemOf] using hv1) (by simpa [itemOf] using hv2)
  · exact c9_snapshot_rendering.2.1 _ _ _ _ _ _ _ _ _ hf hrem hv1'
  · exact c9_snapshot_rendering.2.2 _ _ _ _ _ _ _ _ _ hf hadd hv3 hv4

/-! ## Claim C8: an unmapped element contributes size zero -/

theorem pmget_append_none {σ : PosMapping} {e : Nat} (he : pmget σ e = none)
    (v : Nat) : pmget (σ ++ [(e, v)]) e = some v := by
  induction σ with
  | nil => simp [pmget]
  | cons hd tl ih =>
    obtain ⟨r₀, v₀⟩ := hd
    simp only [pmget] at he
    by_cases h : r₀ = e
    · simp [h] at he
    · simp only [List.cons_append, pmget, if_neg h] at he ⊢
      exact ih he

theorem pmget_append_other (σ : PosMapping) (e r : Nat) (v : Nat)
    (hne : r ≠ e) : pmget (σ ++ [(e, v)]) r = pmget σ r := by
  induction σ with
  | nil =>
    have h2 : e ≠ r := fun h => hne h.symm
    simp [pmget, h2]
  | cons hd tl ih =>
    obtain ⟨r₀, v₀⟩ := hd
    simp only [List.cons_append, pmget]
    by_cases h : r₀ = r
    · simp [h]
    · simp only [if_neg h]
      exact ih

theorem stepAbs_congr (σ σ₂ : PosMapping) (rr rl : Nat) (s : APos)
    (h : ∀ r, (pmget σ r).getD 0 = (pmget σ₂ r).getD 0) :
    stepAbs σ rr rl s = stepAbs σ₂ rr rl s := by
  obtain ⟨foc, crumbs, pos⟩ := s
  cases foc with
  | ytext len tref => rfl
  | yelem cs eref =>
    simp only [stepAbs, h eref]

theorem runAbs_congr (σ σ₂ : PosMapping) (rr rl : Nat) (fuel : Nat) (s : APos)
    (h : ∀ r, (pmget σ r).getD 0 = (pmget σ₂ r).getD 0) :
    runAbs σ rr rl fuel s = runAbs σ₂ rr rl fuel s := by
  induction fuel generalizing s with
  | zero => rfl
  | succ n ih =>
    simp only [runAbs, stepAbs_congr σ σ₂ rr rl s h]
    cases stepAbs σ₂ rr rl s with
    | done r => rfl
    | err => rfl
    | cont s₂ => exact ih s₂

/-- C8: a replicated element absent from the mapping is treated by
`absolutePositionToRelativePosition` exactly as an element whose
mapped local node reports size 0: extending the mapping with a
size-0 entry for it changes nothing, for every offset and tree. -/
theorem c8_unmapped_size_zero (pos : Int) (root : List YPos)
    (rootRef : Nat) (σ : PosMapping) (e : Nat) (he : pmget σ e = none) :
    absolutePositionToRelativePosition pos root rootRef σ =
      absolutePositionToRelativePosition pos root rootRef (σ ++ [(e, 0)]) := by
  have h : ∀ r, (pmget σ r).getD 0 = (pmget (σ ++ [(e, 0)]) r).getD 0 := by
    intro r
    by_cases hr : r = e
    · subst hr
      rw [he, pmget_append_none he 0]
      rfl
    · rw [pmget_append_other σ e r 0 hr]
  simp only [absolutePositionToRelativePosition]
  by_cases hp : pos = 0
  · simp [hp]
  · rw [if_neg hp, if_neg hp]
    cases root with
    | nil => rfl
    | cons m rest => exact runAbs_congr _ _ _ _ _ _ h

/-- Witness for C8 at a concrete tree and offset: the middle empty
element is unmapped on the left, mapped with size 0 on the right. -/
theorem c8_witness :
    pmget [(1, 8), (3, 2)] 2 = none ∧
      absolutePositionToRelativePosition 3
          [.yelem [.yelem [] 2, .ytext 2 10, .yelem [] 3] 1] 0
          [(1, 8), (3, 2)] =
        absolutePositionToRelativePosition 3
          [.yelem [.yelem [] 2, .ytext 2 10, .yelem [] 3] 1] 0
          ([(1, 8), (3, 2)] ++ [(2, 0)]) := by
  refine ⟨by simp [pmget], ?_⟩
  exact c8_unmapped_size_zero 3 _ 0 _ 2 (by simp [pmget])

/-! ## Claim C10: offsets past the end anchor at the end of the root -/

/-- Closing tokens and later-sibling sizes owed by the outer levels of
the walk context: each enclosing element still costs its closing token
(the `pos--` of the ascent) plus the sizes of its later children. -/
def remTail : List Crumb → Nat
  | [] => 0
  | c :: rest => 1 + sizeYP.sizesYP c.aft + remTail rest

/-- Units the walk can still consume before falling off the end of the
root: later siblings at the current level, then `remTail` for the
levels above. -/
def remC : List Crumb → Nat
  | [] => 0
  | c :: rest => sizeYP.sizesYP c.aft + remTail rest

/-- `remC` together with the focused node's own size. -/
def remA (s : APos) : Nat := sizeYP s.focus + remC s.crumbs

/-- Nodes not yet visited (the walk's progress measure): the focused
subtree plus every later sibling at every level. -/
def muC : List Crumb → Nat
  | [] => 0
  | c :: rest => countYP.countsYP c.aft + muC rest

/-- `muC` together with the focused subtree. -/
def muA (s : APos) : Nat := countYP s.focus + muC s.crumbs

/-- Shape of a reachable walk context: nonempty, the outermost level
is the root (`par = none`), every inner level an element. -/
def crumbsWF : List Crumb → Prop
  | [] => False
  | [c] => c.par = none
  | c :: c₂ :: rest => (∃ r, c.par = some r) ∧ crumbsWF (c₂ :: rest)

/-- Every later sibling at every level satisfies `sigmaOk`. -/
def aftSig (σ : PosMapping) : List Crumb → Prop
  | [] => True
  | c :: rest => sigmaOkL σ c.aft ∧ aftSig σ rest

/-- The walk invariant for an out-of-range offset: well-shaped
context, mapping-consistent focus and later siblings, and `pos`
strictly larger than everything still consumable. -/
def InvA (σ : PosMapping) (s : APos) : Prop :=
  crumbsWF s.crumbs ∧ sigmaOk σ s.focus ∧ aftSig σ s.crumbs ∧
    ((remA s : Nat) : Int) < s.pos

theorem countYP_pos (y : YPos) : 1 ≤ countYP y := by
  cases y <;> simp [countYP]

theorem crumbsWF_replace_head (c c₂ : Crumb) (rest : List Crumb)
    (h : crumbsWF (c :: rest)) (hp : c₂.par = c.par) :
    crumbsWF (c₂ :: rest) := by
  cases rest with
  | nil => simp only [crumbsWF] at h ⊢; rw [hp, h]
  | cons c₃ rest₂ =>
    obtain ⟨⟨r, hr⟩, h₂⟩ := h
    exact ⟨⟨r, hp ▸ hr⟩, h₂⟩

theorem finishStep_cont (s : APos) (h : s.pos ≠ 0) :
    finishStep s = .cont s := by
  simp [finishStep, h]

theorem ascend_invA (σ : PosMapping) :
    ∀ (cs : List Crumb) (foc : YPos) (pos : Int),
    crumbsWF cs → aftSig σ cs → ((remC cs : Nat) : Int) < pos →
    ascend cs foc pos = none ∨
      ∃ m cs₂ pos₂, ascend cs foc pos = some (m, cs₂, pos₂) ∧
        crumbsWF cs₂ ∧ sigmaOk σ m ∧ aftSig σ cs₂ ∧
        ((sizeYP m + remC cs₂ : Nat) : Int) < pos₂ ∧
        countYP m + muC cs₂ ≤ muC cs := by
  intro cs
  induction cs with
  | nil => intro foc pos hwf _ _; simp [crumbsWF] at hwf
  | cons c rest ih =>
    intro foc pos hwf haft hlt
    obtain ⟨cb, ca, cp⟩ := c
    cases rest with
    | nil =>
      left
      simp only [crumbsWF] at hwf
      subst hwf
      rfl
    | cons c₂ rest₂ =>
      obtain ⟨⟨r, hr⟩, hwf₂⟩ := hwf
      obtain ⟨haft₁, haft₂⟩ := haft
      dsimp only at hr
      subst hr
      obtain ⟨b₂, a₂, p₂⟩ := c₂
      cases a₂ with
      | cons m aft₂ =>
        right
        refine ⟨m, Crumb.mk (YPos.yelem (cb.reverse ++ foc :: ca) r :: b₂)
            aft₂ p₂ :: rest₂, pos - 1, rfl, ?_, ?_, ?_, ?_, ?_⟩
        · exact crumbsWF_replace_head _ _ rest₂ hwf₂ rfl
        · exact haft₂.1.1
        · exact ⟨haft₂.1.2, haft₂.2⟩
        · simp only [remC, remTail, sizeYP.sizesYP] at hlt ⊢
          push_cast at hlt ⊢
          omega
        · simp only [muC, countYP.countsYP]
          omega
      | nil =>
        have hlt₂ : ((remC (Crumb.mk b₂ [] p₂ :: rest₂) : Nat) : Int) < pos - 1 := by
          simp only [remC, remTail, sizeYP.sizesYP] at hlt ⊢
          push_cast at hlt ⊢
          omega
        rcases ih (YPos.yelem (cb.reverse ++ foc :: ca) r) (pos - 1)
            hwf₂ ⟨haft₂.1, haft₂.2⟩ hlt₂ with hnone |
            ⟨m, cs₂, pos₂, heq, hwf₃, hm, haft₃, hrem₃, hmu₃⟩
        · left; exact hnone
        · right
          refine ⟨m, cs₂, pos₂, heq, hwf₃, hm, haft₃, hrem₃, ?_⟩
          simp only [muC, countYP.countsYP] at hmu₃ ⊢
          omega

theorem stepAbsPast_inv (σ : PosMapping) (rootRef rootLen : Nat)
    (foc : YPos) (c : Crumb) (rest : List Crumb) (pos : Int)
    (hwf : crumbsWF (c :: rest)) (haft : aftSig σ (c :: rest))
    (hrem : ((sizeYP foc + remC (c :: rest) : Nat) : Int) < pos) :
    stepAbsPast rootRef rootLen ⟨foc, c :: rest, pos⟩
        ((sizeYP foc : Nat) : Int) =
        .done (.typeIndex rootRef rootLen) ∨
      ∃ s₂, stepAbsPast rootRef rootLen ⟨foc, c :: rest, pos⟩
          ((sizeYP foc : Nat) : Int) = .cont s₂ ∧ InvA σ s₂ ∧
        muA s₂ ≤ muC (c :: rest) := by
  obtain ⟨bef, aft, par⟩ := c
  obtain ⟨haft₁, haft₂⟩ := haft
  cases aft with
  | cons m aft₂ =>
    right
    have hrem' := hrem
    simp only [remC, remTail, sizeYP.sizesYP] at hrem'
    push_cast at hrem'
    refine ⟨⟨m, { bef := foc :: bef, aft := aft₂, par := par } :: rest,
        pos - sizeYP foc⟩, ?_, ⟨?_, ?_, ?_, ?_⟩, ?_⟩
    · simp only [stepAbsPast]
      refine finishStep_cont _ ?_
      have h0 : (0 : Int) ≤ ((remTail rest : Nat) : Int) := Int.natCast_nonneg _
      simp only []
      omega
    · exact crumbsWF_replace_head _ _ rest hwf rfl
    · exact haft₁.1
    · exact ⟨haft₁.2, haft₂⟩
    · simp only [remA, remC, remTail, sizeYP.sizesYP]
      push_cast
      omega
    · simp only [muA, muC, countYP.countsYP]
      omega
  | nil =>
    have hlt : ((remC ({ bef := bef, aft := ([] : List YPos), par := par } :: rest) : Nat) : Int)
        < pos - sizeYP foc := by
      simp only [remC, remTail, sizeYP.sizesYP] at hrem ⊢
      push_cast at hrem ⊢
      omega
    have hne : ¬ (pos - ((sizeYP foc : Nat) : Int) = 0) := by
      have h0 : (0 : Int) ≤ ((remC ({ bef := bef, aft := ([] : List YPos), par := par } :: rest) : Nat) : Int) :=
        Int.natCast_nonneg _
      omega
    rcases ascend_invA σ ({ bef := bef, aft := [], par := par } :: rest) foc
        (pos - sizeYP foc) hwf ⟨haft₁, haft₂⟩ hlt with hnone |
        ⟨m, cs₂, pos₂, heq, hwf₂, hm, haft₃, hrem₂, hmu₂⟩
    · left
      simp only [stepAbsPast, if_neg hne, hnone]
    · right
      refine ⟨⟨m, cs₂, pos₂⟩, ?_, ⟨hwf₂, hm, haft₃, ?_⟩, ?_⟩
      · simp only [stepAbsPast, if_neg hne, heq]
        refine finishStep_cont _ ?_
        have h0 : (0 : Int) ≤ ((sizeYP m + remC cs₂ : Nat) : Int) := Int.natCast_nonneg _
        simp only []
        omega
      · simpa [remA] using hrem₂
      · simpa [muA] using hmu₂

theorem stepAbs_inv (σ : PosMapping) (rootRef rootLen : Nat) (s : APos)
    (hInv : InvA σ s) :
    stepAbs σ rootRef rootLen s = .done (.typeIndex rootRef rootLen) ∨
      ∃ s₂, stepAbs σ rootRef rootLen s = .cont s₂ ∧ InvA σ s₂ ∧
        muA s₂ < muA s := by
  obtain ⟨foc, crumbs, pos⟩ := s
  obtain ⟨hwf, hfoc, haft, hrem⟩ := hInv
  cases crumbs with
  | nil => simp [crumbsWF] at hwf
  | cons c rest =>
    cases foc with
    | ytext len tref =>
      obtain ⟨haft₁, haft₂⟩ := haft
      have hrem' : ((len + remC (c :: rest) : Nat) : Int) < pos := by
        simpa [remA, sizeYP] using hrem
      have hnle : ¬ (pos ≤ (len : Int)) := by
        push_cast at hrem'
        omega
      obtain ⟨cb, ca, cp⟩ := c
      cases ca with
      | cons m aft₂ =>
        right
        refine ⟨⟨m, Crumb.mk (YPos.ytext len tref :: cb) aft₂ cp :: rest,
            pos - len⟩, ?_, ⟨?_, ?_, ?_, ?_⟩, ?_⟩
        · simp only [stepAbs, if_neg hnle]
          refine finishStep_cont _ ?_
          simp only [remC, remTail, sizeYP.sizesYP] at hrem'
          push_cast at hrem'
          simp only []
          omega
        · exact crumbsWF_replace_head _ _ rest hwf rfl
        · exact haft₁.1
        · exact ⟨haft₁.2, haft₂⟩
        · simp only [remA, remC, remTail, sizeYP, sizeYP.sizesYP] at hrem' ⊢
          push_cast at hrem' ⊢
          omega
        · simp only [muA, muC, countYP, countYP.countsYP]
          omega
      | nil =>
        have hlt : ((remC (Crumb.mk cb [] cp :: rest) : Nat) : Int) < pos - len := by
          push_cast at hrem' ⊢
          omega
        rcases ascend_invA σ (Crumb.mk cb [] cp :: rest) (YPos.ytext len tref)
            (pos - len) hwf ⟨haft₁, haft₂⟩ hlt with hnone |
            ⟨m, cs₂, pos₂, heq, hwf₂, hm, haft₃, hrem₂, hmu₂⟩
        · left
          simp only [stepAbs, if_neg hnle, hnone]
        · right
          refine ⟨⟨m, cs₂, pos₂⟩, ?_, ⟨hwf₂, hm, haft₃, ?_⟩, ?_⟩
          · simp only [stepAbs, if_neg hnle, heq]
            refine finishStep_cont _ ?_
            have h0 : (0 : Int) ≤ ((sizeYP m + remC cs₂ : Nat) : Int) :=
              Int.natCast_nonneg _
            simp only []
            omega
          · simpa [remA] using hrem₂
          · simp only [muA, muC, countYP, countYP.countsYP] at hmu₂ ⊢
            omega
    | yelem ecs eref =>
      have hfoc' := hfoc
      simp only [sigmaOk] at hfoc'
      obtain ⟨hget, hcsσ⟩ := hfoc'
      have hrem' : ((sizeYP (YPos.yelem ecs eref) + remC (c :: rest) : Nat) : Int)
          < pos := by
        simpa [remA] using hrem
      have hc1 := countYP_pos (YPos.yelem ecs eref)
      cases ecs with
      | cons chd ctl =>
        have hnlt : ¬ (pos < ((sizeYP (YPos.yelem (chd :: ctl) eref) : Nat) : Int)) := by
          push_cast at hrem' ⊢
          omega
        rcases stepAbsPast_inv σ rootRef rootLen (YPos.yelem (chd :: ctl) eref)
            c rest pos hwf haft hrem' with h | ⟨s₂, hstep, hinv₂, hmu₂⟩
        · left
          simp only [stepAbs, hget, Option.getD_some, if_neg hnlt]
          exact h
        · right
          refine ⟨s₂, ?_, hinv₂, ?_⟩
          · simp only [stepAbs, hget, Option.getD_some, if_neg hnlt]
            exact hstep
          · simp only [muA] at hmu₂ ⊢
            omega
      | nil =>
        have hne1 : ¬ (pos = 1) := by
          have hsz : sizeYP (YPos.yelem [] eref) = 2 := by
            simp [sizeYP, sizeYP.sizesYP]
          rw [hsz] at hrem'
          push_cast at hrem'
          omega
        have hcond : (decide (pos = 1) &&
            decide (1 < ((sizeYP (YPos.yelem ([] : List YPos) eref) : Nat) : Int))) = false := by
          simp [hne1]
        rcases stepAbsPast_inv σ rootRef rootLen (YPos.yelem [] eref)
            c rest pos hwf haft hrem' with h | ⟨s₂, hstep, hinv₂, hmu₂⟩
        · left
          simp only [stepAbs, hget, Option.getD_some, hcond, Bool.false_eq_true,
            if_false]
          exact h
        · right
          refine ⟨s₂, ?_, hinv₂, ?_⟩
          · simp only [stepAbs, hget, Option.getD_some, hcond, Bool.false_eq_true,
              if_false]
            exact hstep
          · simp only [muA] at hmu₂ ⊢
            omega

theorem runAbs_inv (σ : PosMapping) (rootRef rootLen : Nat) :
    ∀ (fuel : Nat) (s : APos), InvA σ s → muA s < fuel →
    runAbs σ rootRef rootLen fuel s = .ok (.typeIndex rootRef rootLen) := by
  intro fuel
  induction fuel with
  | zero => intro s _ h; exact absurd h (Nat.not_lt_zero _)
  | succ n ih =>
    intro s hInv hfuel
    rcases stepAbs_inv σ rootRef rootLen s hInv with hdone |
        ⟨s₂, hstep, hinv₂, hmu⟩
    · simp only [runAbs, hdone]
    · simp only [runAbs, hstep]
      exact ih s₂ hinv₂ (by omega)

/-- C10: when every replicated element's entry in the Mapping Table
holds its current local node (so its reported `nodeSize` is the node's
actual size), any offset strictly greater than the document's total
content size makes `absolutePositionToRelativePosition` return the
relative position anchored at the end of the root — the type-index
position at the root's child count — and in particular the
unexpected-case error branch is never reached. -/
theorem c10_past_end_anchors_at_root_end (pos : Int) (root : List YPos)
    (rootRef : Nat) (σ : PosMapping) (hσ : sigmaOkL σ root)
    (hpos : ((sizeYP.sizesYP root : Nat) : Int) < pos) :
    absolutePositionToRelativePosition pos root rootRef σ =
      .ok (.typeIndex rootRef root.length) := by
  have hpos0 : pos ≠ 0 := by
    have h0 : (0 : Int) ≤ ((sizeYP.sizesYP root : Nat) : Int) := Int.natCast_nonneg _
    omega
  simp only [absolutePositionToRelativePosition, if_neg hpos0]
  cases root with
  | nil => rfl
  | cons m rest =>
    have hσ' : sigmaOk σ m ∧ sigmaOkL σ rest := by
      simpa [sigmaOkL] using hσ
    apply runAbs_inv
    · refine ⟨?_, hσ'.1, ⟨hσ'.2, trivial⟩, ?_⟩
      · simp [crumbsWF]
      · simp only [remA, remC, remTail, sizeYP.sizesYP] at hpos ⊢
        push_cast at hpos ⊢
        omega
    · simp only [muA, muC, countYP.countsYP]
      omega

/-- Witness for C10 at a concrete document: a paragraph holding a
two-character text, total content size 4, queried at offset 7. -/
theorem c10_witness :
    sigmaOkL [(1, 4)] [.yelem [.ytext 2 10] 1] ∧
      ((sizeYP.sizesYP [.yelem [.ytext 2 10] 1] : Nat) : Int) < 7 ∧
      absolutePositionToRelativePosition 7 [.yelem [.ytext 2 10] 1] 0 [(1, 4)] =
        .ok (.typeIndex 0 1) := by
  have h1 : sigmaOkL [(1, 4)] [.yelem [.ytext 2 10] 1] := by
    simp [sigmaOkL, sigmaOk, pmget, sizeYP, sizeYP.sizesYP]
  have h2 : ((sizeYP.sizesYP [YPos.yelem [.ytext 2 10] 1] : Nat) : Int) < 7 := by
    simp [sizeYP.sizesYP, sizeYP]
  refine ⟨h1, h2, ?_⟩
  exact c10_past_end_anchors_at_root_end 7 [.yelem [.ytext 2 10] 1] 0 [(1, 4)] h1 h2

/-! ## Claim C1: position round trip -/

/-- Type identities occurring in a subtree (the node's own, then its
descendants'). -/
def refsOf : YPos → List Nat
  | .ytext _ r => [r]
  | .yelem cs r => r :: refsOfL cs
where
  /-- Identities of a child list's subtrees. -/
  refsOfL : List YPos → List Nat
  | [] => []
  | c :: rest => refsOf c ++ refsOfL rest

theorem sizesYP_append (xs ys : List YPos) :
    sizeYP.sizesYP (xs ++ ys) = sizeYP.sizesYP xs + sizeYP.sizesYP ys := by
  induction xs with
  | nil => simp [sizeYP.sizesYP]
  | cons x xs ih => simp [sizeYP.sizesYP, ih]; omega

theorem sizesYP_reverse (xs : List YPos) :
    sizeYP.sizesYP xs.reverse = sizeYP.sizesYP xs := by
  induction xs with
  | nil => rfl
  | cons x xs ih =>
    simp only [List.reverse_cons, sizesYP_append, ih, sizeYP.sizesYP]
    omega

theorem refOfP_mem_refsOf (t : YPos) : refOfP t ∈ refsOf t := by
  cases t <;> simp [refsOf, refOfP]

theorem refsOf_subset_refsOfL {c : YPos} {cs : List YPos} (h : c ∈ cs) :
    ∀ x ∈ refsOf c, x ∈ refsOf.refsOfL cs := by
  induction cs with
  | nil => simp at h
  | cons c₀ rest ih =>
    intro x hx
    rcases List.mem_cons.mp h with h₀ | h₀
    · subst h₀
      simp [refsOf.refsOfL, hx]
    · simp [refsOf.refsOfL]
      exact Or.inr (ih h₀ x hx)

theorem nodeAt_ref_mem : ∀ (p : List Nat) (cs : List YPos) (t : YPos),
    nodeAt cs p = some t → refOfP t ∈ refsOf.refsOfL cs := by
  intro p
  induction p with
  | nil => intro cs t h; simp [nodeAt] at h
  | cons j rest ih =>
    intro cs t h
    cases rest with
    | nil =>
      have hg : cs.get? j = some t := by simpa only [nodeAt] using h
      exact refsOf_subset_refsOfL (List.get?_mem hg) _ (refOfP_mem_refsOf t)
    | cons j₂ rest₂ =>
      simp only [nodeAt] at h
      cases hg : cs.get? j with
      | none => rw [hg] at h; exact absurd h (by simp)
      | some cnode =>
        rw [hg] at h
        cases cnode with
        | ytext l tr => exact absurd h (by simp)
        | yelem ccs cr =>
          refine refsOf_subset_refsOfL (List.get?_mem hg) _ ?_
          simp only [refsOf, List.mem_cons]
          exact Or.inr (ih _ _ h)

theorem findPath_not_mem : ∀ (n : Nat),
    (∀ (c : YPos) (r : Nat), 2 * countYP c ≤ n → r ∉ refsOf c →
      findPathN r c = none) ∧
    (∀ (cs : List YPos) (r : Nat) (i : Nat), 2 * countYP.countsYP cs + 1 ≤ n →
      r ∉ refsOf.refsOfL cs → findPathL r cs i = none) := by
  intro n
  induction n using Nat.strong_induction_on with
  | _ n ih =>
  constructor
  · intro c r hc hr
    cases c with
    | ytext len tr =>
      simp only [refsOf, List.mem_singleton] at hr
      rw [findPathN, if_neg (by simp [refOfP]; exact fun h => hr h.symm)]
    | yelem cs cr =>
      simp only [refsOf, List.mem_cons] at hr
      push_neg at hr
      rw [findPathN, if_neg (by simp [refOfP]; exact fun h => hr.1 h.symm)]
      have hcnt : countYP (YPos.yelem cs cr) = 1 + countYP.countsYP cs := rfl
      refine (ih (2 * countYP.countsYP cs + 1) (by omega)).2 cs r 0 (le_refl _) hr.2
  · intro cs r i hc hr
    cases cs with
    | nil => rw [findPathL]
    | cons c rest =>
      simp only [refsOf.refsOfL, List.mem_append] at hr
      push_neg at hr
      have hcnt : countYP.countsYP (c :: rest) = countYP c + countYP.countsYP rest := rfl
      have hc1 := countYP_pos c
      have h₁ : findPathN r c = none :=
        (ih (2 * countYP c) (by omega)).1 c r (le_refl _) hr.1
      have h₂ : findPathL r rest (i + 1) = none :=
        (ih (2 * countYP.countsYP rest + 1) (by omega)).2 rest r (i + 1)
          (le_refl _) hr.2
      rw [findPathL, h₁, h₂]

theorem find_at_path : ∀ (n : Nat) (rest : List Nat), rest.length ≤ n →
    ∀ (cs : List YPos) (j : Nat) (i₀ : Nat) (t : YPos),
    (refsOf.refsOfL cs).Nodup → nodeAt cs (j :: rest) = some t →
    findPathL (refOfP t) cs i₀ = some ((i₀ + j) :: rest) := by
  intro n
  induction n using Nat.strong_induction_on with
  | _ n ihn =>
  intro rest hlen cs
  induction cs with
  | nil =>
    intro j i₀ t _ hnode
    exfalso
    cases rest <;> simp [nodeAt] at hnode
  | cons c cs' ihcs =>
    intro j i₀ t hnd hnode
    cases j with
    | zero =>
      cases rest with
      | nil =>
        have hc : c = t := by
          have := hnode
          simp only [nodeAt, List.get?] at this
          exact Option.some.inj this
        subst hc
        cases c <;> (rw [findPathL, findPathN, if_pos rfl]; simp)
      | cons j₂ rest₂ =>
        simp only [nodeAt, List.get?] at hnode
        cases c with
        | ytext l tr => exact absurd hnode (by simp)
        | yelem ccs cr =>
          have hmem : refOfP t ∈ refsOf.refsOfL ccs := nodeAt_ref_mem _ _ _ hnode
          simp only [refsOf.refsOfL, refsOf] at hnd
          rcases List.nodup_append.mp hnd with ⟨hnd₁, _, _⟩
          have hcr : cr ∉ refsOf.refsOfL ccs := (List.nodup_cons.mp hnd₁).1
          have hndin : (refsOf.refsOfL ccs).Nodup := (List.nodup_cons.mp hnd₁).2
          have hfind := ihn rest₂.length (by simp at hlen; omega) rest₂ (le_refl _)
            ccs j₂ 0 t hndin hnode
          rw [findPathL, findPathN,
            if_neg (by simp only [refOfP]; exact fun h => hcr (h ▸ hmem))]
          rw [hfind]
          simp
    | succ j' =>
      have hnode' : nodeAt cs' (j' :: rest) = some t := by
        cases rest with
        | nil => simpa only [nodeAt, List.get?] using hnode
        | cons a b => simpa only [nodeAt, List.get?] using hnode
      have hmem : refOfP t ∈ refsOf.refsOfL cs' := nodeAt_ref_mem _ _ _ hnode'
      simp only [refsOf.refsOfL] at hnd
      rcases List.nodup_append.mp hnd with ⟨_, hnd₂, hdisj⟩
      have hnot : refOfP t ∉ refsOf c := fun hin => hdisj hin hmem
      have h₁ : findPathN (refOfP t) c = none :=
        (findPath_not_mem (2 * countYP c)).1 c _ (le_refl _) hnot
      have h₂ := ihcs j' (i₀ + 1) t hnd₂ hnode'
      rw [findPathL, h₁, h₂]
      have : i₀ + 1 + j' = i₀ + (j' + 1) := by omega
      rw [this]

/-- The zipper state reassembles to the root children: the innermost
crumb's earlier/later siblings surround the focus, each level's
reassembled element is the next level's focus, and the outermost level
is the root itself. -/
def reconZ (root : List YPos) : YPos → List Crumb → Prop
  | _, [] => False
  | foc, [c] => c.par = none ∧ root = c.bef.reverse ++ foc :: c.aft
  | foc, c :: c₂ :: rest => ∃ r, c.par = some r ∧
      reconZ root (.yelem (c.bef.reverse ++ foc :: c.aft) r) (c₂ :: rest)

/-- The child-index path to the focus: one index (the count of earlier
siblings) per level, outermost first. -/
def pathOfC : List Crumb → List Nat
  | [] => []
  | c :: rest => pathOfC rest ++ [c.bef.length]

theorem nodeAt_snoc : ∀ (p : List Nat) (cs ccs : List YPos) (r : Nat) (i : Nat),
    nodeAt cs p = some (.yelem ccs r) → nodeAt cs (p ++ [i]) = ccs.get? i := by
  intro p
  induction p with
  | nil => intro cs ccs r i h; simp [nodeAt] at h
  | cons j rest ih =>
    intro cs ccs r i h
    cases rest with
    | nil =>
      have hg : cs.get? j = some (.yelem ccs r) := by simpa only [nodeAt] using h
      simp only [List.cons_append, List.nil_append, nodeAt, hg]
    | cons j₂ rest₂ =>
      simp only [nodeAt] at h
      cases hg : cs.get? j with
      | none => rw [hg] at h; exact absurd h (by simp)
      | some cnode =>
        rw [hg] at h
        cases cnode with
        | ytext l tr => exact absurd h (by simp)
        | yelem ccs₂ r₂ =>
          have h₂ := ih _ _ _ i h
          simp only [List.cons_append, nodeAt, hg]
          exact h₂

theorem nodeAt_reconZ (root : List YPos) : ∀ (crumbs : List Crumb) (foc : YPos),
    reconZ root foc crumbs → nodeAt root (pathOfC crumbs) = some foc := by
  intro crumbs
  induction crumbs with
  | nil => intro foc h; simp [reconZ] at h
  | cons c rest ih =>
    intro foc h
    cases rest with
    | nil =>
      obtain ⟨hpar, hroot⟩ := h
      subst hroot
      have hlen : c.bef.reverse.length = c.bef.length := by simp
      simp only [pathOfC, List.nil_append]
      show nodeAt (c.bef.reverse ++ foc :: c.aft) [c.bef.length] = some foc
      simp only [nodeAt]
      rw [List.get?_append_right (by omega), hlen]
      simp
    | cons c₂ rest₂ =>
      obtain ⟨r, hpar, hrec⟩ := h
      have hp := ih _ hrec
      have hsnoc := nodeAt_snoc _ _ _ _ c.bef.length hp
      show nodeAt root (pathOfC (c₂ :: rest₂) ++ [c.bef.length]) = some foc
      rw [hsnoc]
      have hlen : c.bef.reverse.length = c.bef.length := by simp
      rw [List.get?_append_right (by omega), hlen]
      simp

theorem sigmaOkL_get? (σ : PosMapping) : ∀ (cs : List YPos) (j : Nat) (t : YPos),
    sigmaOkL σ cs → cs.get? j = some t → sigmaOk σ t := by
  intro cs
  induction cs with
  | nil => intro j t _ h; simp [List.get?] at h
  | cons c rest ih =>
    intro j t hs hg
    cases j with
    | zero =>
      have : c = t := by simpa [List.get?] using hg
      exact this ▸ hs.1
    | succ j' => exact ih j' t hs.2 (by simpa [List.get?] using hg)

theorem sigmaOk_nodeAt (σ : PosMapping) : ∀ (p : List Nat) (cs : List YPos) (t : YPos),
    sigmaOkL σ cs → nodeAt cs p = some t → sigmaOk σ t := by
  intro p
  induction p with
  | nil => intro cs t _ h; simp [nodeAt] at h
  | cons j rest ih =>
    intro cs t hs h
    cases rest with
    | nil =>
      exact sigmaOkL_get? σ cs j t hs (by simpa only [nodeAt] using h)
    | cons j₂ rest₂ =>
      simp only [nodeAt] at h
      cases hg : cs.get? j with
      | none => rw [hg] at h; exact absurd h (by simp)
      | some cnode =>
        rw [hg] at h
        cases cnode with
        | ytext l tr => exact absurd h (by simp)
        | yelem ccs cr =>
          have hsc : sigmaOk σ (.yelem ccs cr) := sigmaOkL_get? σ cs j _ hs hg
          exact ih _ _ hsc.2 h

theorem sigmaOkL_append (σ : PosMapping) (xs ys : List YPos) :
    sigmaOkL σ (xs ++ ys) ↔ sigmaOkL σ xs ∧ sigmaOkL σ ys := by
  induction xs with
  | nil => simp [sigmaOkL]
  | cons x xs ih =>
    simp only [List.cons_append, sigmaOkL, ih]
    tauto

theorem sigmaOkL_reverse (σ : PosMapping) (xs : List YPos) :
    sigmaOkL σ xs.reverse ↔ sigmaOkL σ xs := by
  induction xs with
  | nil => simp
  | cons x xs ih =>
    simp only [List.reverse_cons, sigmaOkL_append, ih, sigmaOkL]
    tauto

theorem sumSizesOpt_eq (σ : PosMapping) : ∀ (cs : List YPos), sigmaOkL σ cs →
    sumSizesOpt σ cs = some ((sizeYP.sizesYP cs : Nat) : Int) := by
  intro cs
  induction cs with
  | nil => simp [sumSizesOpt, sizeYP.sizesYP]
  | cons c rest ih =>
    intro hs
    have hsz : sizeOfYPOpt σ c = some ((sizeYP c : Nat) : Int) := by
      cases c with
      | ytext len tr => rfl
      | yelem ccs cr =>
        have := hs.1.1
        simp [sizeOfYPOpt, this]
    rw [sumSizesOpt, hsz, ih hs.2]
    simp only [Option.bind_eq_bind, Option.some_bind, sizeYP.sizesYP]
    push_cast
    rfl

/-- Absolute offset of the start boundary of the focused node: earlier
siblings at every level plus one start tag per enclosing element. -/
def locOfC : List Crumb → Nat
  | [] => 0
  | [c] => sizeYP.sizesYP c.bef
  | c :: rest => sizeYP.sizesYP c.bef + 1 + locOfC rest

theorem climb_level_last (σ : PosMapping) (ccs : List YPos) (i : Nat) (t : YPos)
    (ht : ccs.get? i = some t) :
    climbPath σ ccs [i] = (sumSizesOpt σ (ccs.take i)).map fun s => 1 + s := by
  simp only [climbPath]
  cases hs : sumSizesOpt σ (ccs.take i) with
  | none => rfl
  | some s₀ =>
    simp only [Option.bind_eq_bind, Option.some_bind, ht, Option.map_some']
    cases t with
    | ytext l tr => simp
    | yelem ccs₂ r₂ =>
      simp only [climbPath]
      simp

theorem climb_cons (σ : PosMapping) (cs : List YPos) (j : Nat) (rest : List Nat) :
    climbPath σ cs (j :: rest) =
      (sumSizesOpt σ (cs.take j)).bind fun s =>
        match cs.get? j with
        | some (.yelem ccs _) => (climbPath σ ccs rest).bind fun y => some (1 + s + y)
        | some (.ytext _ _) =>
          if rest = [] then (some 0).bind fun y => some (1 + s + y)
          else Option.bind none fun y => some (1 + s + y)
        | none => Option.bind none fun y => some (1 + s + y) := by
  simp only [climbPath, Option.bind_eq_bind]
  rfl

theorem climb_snoc (σ : PosMapping) : ∀ (p : List Nat) (cs ccs : List YPos)
    (r : Nat) (i : Nat) (u : Int) (t : YPos),
    nodeAt cs p = some (.yelem ccs r) → climbPath σ cs p = some u →
    ccs.get? i = some t →
    climbPath σ cs (p ++ [i]) =
      (sumSizesOpt σ (ccs.take i)).map fun s => u + (1 + s) := by
  intro p
  induction p with
  | nil => intro cs ccs r i u t h _ _; simp [nodeAt] at h
  | cons j rest ih =>
    intro cs ccs r i u t hnode hclimb hget
    cases rest with
    | nil =>
      have hg : cs.get? j = some (.yelem ccs r) := by
        simpa only [nodeAt] using hnode
      rw [climb_cons, hg] at hclimb
      cases hs₀ : sumSizesOpt σ (cs.take j) with
      | none => rw [hs₀] at hclimb; exact absurd hclimb (by simp)
      | some s₀ =>
        rw [hs₀] at hclimb
        simp only [Option.some_bind] at hclimb
        rw [show climbPath σ ccs ([] : List Nat) = some 0 from rfl] at hclimb
        simp only [Option.some_bind] at hclimb
        have hu : u = 1 + s₀ + 0 := (Option.some.inj hclimb).symm
        show climbPath σ cs (j :: [i]) = _
        rw [climb_cons, hg, hs₀]
        simp only [Option.some_bind]
        rw [climb_level_last σ ccs i t hget]
        cases hs₁ : sumSizesOpt σ (ccs.take i) with
        | none => rfl
        | some s₁ =>
          simp only [Option.map_some', Option.some_bind]
          congr 1
          omega
    | cons j₂ rest₂ =>
      simp only [nodeAt] at hnode
      cases hg : cs.get? j with
      | none => rw [hg] at hnode; exact absurd hnode (by simp)
      | some cnode =>
        rw [hg] at hnode
        cases cnode with
        | ytext l tr => exact absurd hnode (by simp)
        | yelem ccs₂ r₂ =>
          rw [climb_cons, hg] at hclimb
          cases hs₀ : sumSizesOpt σ (cs.take j) with
          | none => rw [hs₀] at hclimb; exact absurd hclimb (by simp)
          | some s₀ =>
            rw [hs₀] at hclimb
            simp only [Option.some_bind] at hclimb
            cases hu' : climbPath σ ccs₂ (j₂ :: rest₂) with
            | none => rw [hu'] at hclimb; exact absurd hclimb (by simp)
            | some u' =>
              rw [hu'] at hclimb
              simp only [Option.some_bind] at hclimb
              have hu : u = 1 + s₀ + u' := (Option.some.inj hclimb).symm
              have hih := ih ccs₂ ccs r i u' t hnode hu' hget
              show climbPath σ cs (j :: ((j₂ :: rest₂) ++ [i])) = _
              rw [climb_cons, hg, hs₀]
              simp only [Option.some_bind]
              rw [hih]
              cases hs₁ : sumSizesOpt σ (ccs.take i) with
              | none => rfl
              | some s₁ =>
                simp only [Option.map_some', Option.some_bind]
                congr 1
                omega

theorem climb_reconZ (σ : PosMapping) (root : List YPos)
    (hσ : sigmaOkL σ root) : ∀ (crumbs : List Crumb) (foc : YPos),
    reconZ root foc crumbs →
    climbPath σ root (pathOfC crumbs) = some (((locOfC crumbs : Nat) : Int) + 1) := by
  intro crumbs
  induction crumbs with
  | nil => intro foc h; simp [reconZ] at h
  | cons c rest ih =>
    intro foc h
    cases rest with
    | nil =>
      obtain ⟨hpar, hroot⟩ := h
      have hget : root.get? c.bef.length = some foc := by
        rw [hroot, List.get?_append_right (by simp)]
        simp
      have hσb : sigmaOkL σ c.bef.reverse := by
        rw [hroot] at hσ
        exact ((sigmaOkL_append σ _ _).mp hσ).1
      have htake : root.take c.bef.length = c.bef.reverse := by
        rw [hroot]
        exact List.take_left' (by simp)
      show climbPath σ root ([] ++ [c.bef.length]) = _
      rw [List.nil_append, climb_level_last σ root c.bef.length foc hget,
        htake, sumSizesOpt_eq σ _ hσb]
      simp only [Option.map_some', locOfC, sizesYP_reverse]
      congr 1
      push_cast
      ring
    | cons c₂ rest₂ =>
      obtain ⟨r, hpar, hrec⟩ := h
      have hp := nodeAt_reconZ root _ _ hrec
      have hclimb := ih _ hrec
      have hσp : sigmaOk σ (.yelem (c.bef.reverse ++ foc :: c.aft) r) :=
        sigmaOk_nodeAt σ _ _ _ hσ hp
      have hget : (c.bef.reverse ++ foc :: c.aft).get? c.bef.length = some foc := by
        rw [List.get?_append_right (by simp)]
        simp
      have hsum : sumSizesOpt σ ((c.bef.reverse ++ foc :: c.aft).take c.bef.length) =
          some ((sizeYP.sizesYP c.bef : Nat) : Int) := by
        rw [List.take_left' (by simp),
          sumSizesOpt_eq σ _ ((sigmaOkL_append σ _ _).mp hσp.2).1, sizesYP_reverse]
      have hsnoc := climb_snoc σ (pathOfC (c₂ :: rest₂)) root _ r c.bef.length _
        foc hp hclimb hget
      show climbPath σ root (pathOfC (c₂ :: rest₂) ++ [c.bef.length]) = _
      rw [hsnoc, hsum]
      simp only [Option.map_some', locOfC]
      congr 1
      push_cast
      ring

theorem find_of_nodeAt (root : List YPos) (hnd : (refsOf.refsOfL root).Nodup)
    (p : List Nat) (t : YPos) (hne : p ≠ []) (hnode : nodeAt root p = some t) :
    findPathL (refOfP t) root 0 = some p := by
  cases p with
  | nil => exact absurd rfl hne
  | cons j rest =>
    have := find_at_path rest.length rest (le_refl _) root j 0 t hnd hnode
    simpa using this

theorem refNe_of_nodeAt (root : List YPos) (rootRef : Nat)
    (hrr : rootRef ∉ refsOf.refsOfL root) (p : List Nat) (t : YPos)
    (hnode : nodeAt root p = some t) : refOfP t ≠ rootRef := by
  intro h
  exact hrr (h ▸ nodeAt_ref_mem p root t hnode)

theorem pathOfC_ne_nil (c : Crumb) (rest : List Crumb) :
    pathOfC (c :: rest) ≠ [] := by
  simp [pathOfC]

theorem getLast_concat_of_eq : ∀ {q : List Nat} (p : List Nat) (i : Nat),
    p ++ [i] = q → ∀ (h : q ≠ []), q.getLast h = i := by
  intro q p i heq h
  subst heq
  exact List.getLast_concat _

theorem relPos_typeIndex_text (root : List YPos) (rootRef : Nat) (σ : PosMapping)
    (hσ : sigmaOkL σ root) (hnd : (refsOf.refsOfL root).Nodup)
    (hrr : rootRef ∉ refsOf.refsOfL root)
    (len tref : Nat) (crumbs : List Crumb) (pos : Int)
    (hrec : reconZ root (.ytext len tref) crumbs)
    (hle : pos ≤ (len : Int)) :
    relativePositionToAbsolutePosition root rootRef (.typeIndex tref pos) σ =
      .okPos (((locOfC crumbs : Nat) : Int) + pos) := by
  have hnode := nodeAt_reconZ root crumbs _ hrec
  have hnn : pathOfC crumbs ≠ [] := by
    cases crumbs with
    | nil => simp [reconZ] at hrec
    | cons c rest => exact pathOfC_ne_nil c rest
  have hfind : findPathL tref root 0 = some (pathOfC crumbs) := by
    simpa only [refOfP] using find_of_nodeAt root hnd _ _ hnn hnode
  have hne : ¬ (tref = rootRef) :=
    refNe_of_nodeAt root rootRef hrr _ _ hnode
  have hclimb := climb_reconZ σ root hσ crumbs _ hrec
  obtain ⟨j, prest, hp⟩ := List.exists_cons_of_ne_nil hnn
  rw [hp] at hnode hfind hclimb
  have hres : resolveRel root rootRef (.typeIndex tref pos) =
      some (j :: prest, pos) := by
    simp only [resolveRel, if_neg hne, hfind, hnode, ylenOf, min_eq_left hle]
  simp only [relativePositionToAbsolutePosition, hres, hnode, hclimb]
  congr 1
  ring

theorem relPos_beforeItem (root : List YPos) (rootRef : Nat) (σ : PosMapping)
    (hσ : sigmaOkL σ root) (hnd : (refsOf.refsOfL root).Nodup)
    (hrr : rootRef ∉ refsOf.refsOfL root)
    (foc : YPos) (c : Crumb) (rest : List Crumb)
    (hrec : reconZ root foc (c :: rest)) :
    relativePositionToAbsolutePosition root rootRef (.beforeItem (refOfP foc)) σ =
      .okPos ((locOfC (c :: rest) : Nat) : Int) := by
  have hnode := nodeAt_reconZ root _ _ hrec
  have hfind := find_of_nodeAt root hnd _ _ (pathOfC_ne_nil c rest) hnode
  have hshape : pathOfC (c :: rest) = pathOfC rest ++ [c.bef.length] := rfl
  have hres : resolveRel root rootRef (.beforeItem (refOfP foc)) =
      some (pathOfC rest, ((c.bef.length : Nat) : Int)) := by
    simp only [resolveRel, hfind, hshape]
    cases hq : pathOfC rest ++ [c.bef.length] with
    | nil => simp at hq
    | cons j prest =>
      simp only [Option.some.injEq, Prod.mk.injEq]
      constructor
      · rw [show (j :: prest) = pathOfC rest ++ [c.bef.length] from hq.symm,
          List.dropLast_concat]
      · rw [getLast_concat_of_eq (pathOfC rest) c.bef.length hq]
  simp only [relativePositionToAbsolutePosition, hres]
  cases rest with
  | nil =>
    obtain ⟨hpar, hroot⟩ := hrec
    have htake : root.take ((c.bef.length : Int)).toNat = c.bef.reverse := by
      rw [Int.toNat_natCast, hroot]
      exact List.take_left' (by simp)
    have hσb : sigmaOkL σ c.bef.reverse := by
      rw [hroot] at hσ
      exact ((sigmaOkL_append σ _ _).mp hσ).1
    simp only [pathOfC, htake, sumSizesOpt_eq σ _ hσb, Option.map_some',
      sizesYP_reverse]
    rw [show climbPath σ root ([] : List Nat) = some 0 from rfl]
    simp only [locOfC]
    congr 1
    ring
  | cons c₂ rest₂ =>
    obtain ⟨r, hpar, hrec₂⟩ := hrec
    have hpnode := nodeAt_reconZ root _ _ hrec₂
    have hclimb := climb_reconZ σ root hσ _ _ hrec₂
    have hσp : sigmaOk σ (.yelem (c.bef.reverse ++ foc :: c.aft) r) :=
      sigmaOk_nodeAt σ _ _ _ hσ hpnode
    obtain ⟨j₂, prest₂, hp₂⟩ := List.exists_cons_of_ne_nil (pathOfC_ne_nil c₂ rest₂)
    rw [hp₂] at hpnode hclimb
    have htake : (c.bef.reverse ++ foc :: c.aft).take ((c.bef.length : Int)).toNat =
        c.bef.reverse := by
      rw [Int.toNat_natCast]
      exact List.take_left' (by simp)
    simp only [hp₂, hpnode, htake,
      sumSizesOpt_eq σ _ ((sigmaOkL_append σ _ _).mp hσp.2).1, Option.map_some',
      hclimb, sizesYP_reverse, locOfC]
    congr 1
    push_cast
    ring

theorem relPos_relEnd_elem (root : List YPos) (rootRef : Nat) (σ : PosMapping)
    (hσ : sigmaOkL σ root) (hnd : (refsOf.refsOfL root).Nodup)
    (hrr : rootRef ∉ refsOf.refsOfL root)
    (tcs : List YPos) (tr : Nat) (crumbs : List Crumb)
    (hrec : reconZ root (.yelem tcs tr) crumbs) :
    relativePositionToAbsolutePosition root rootRef (.relEnd tr) σ =
      .okPos (((locOfC crumbs : Nat) : Int) + 1 +
        ((sizeYP.sizesYP tcs : Nat) : Int)) := by
  have hnode := nodeAt_reconZ root crumbs _ hrec
  have hnn : pathOfC crumbs ≠ [] := by
    cases crumbs with
    | nil => simp [reconZ] at hrec
    | cons c rest => exact pathOfC_ne_nil c rest
  have hfind : findPathL tr root 0 = some (pathOfC crumbs) := by
    simpa only [refOfP] using find_of_nodeAt root hnd _ _ hnn hnode
  have hne : ¬ (tr = rootRef) :=
    refNe_of_nodeAt root rootRef hrr _ _ hnode
  have hclimb := climb_reconZ σ root hσ crumbs _ hrec
  have hσt : sigmaOk σ (.yelem tcs tr) := sigmaOk_nodeAt σ _ _ _ hσ hnode
  obtain ⟨j, prest, hp⟩ := List.exists_cons_of_ne_nil hnn
  rw [hp] at hnode hfind hclimb
  have hres : resolveRel root rootRef (.relEnd tr) =
      some (j :: prest, ((tcs.length : Nat) : Int)) := by
    simp only [resolveRel, if_neg hne, hfind, hnode, ylenOf]
  simp only [relativePositionToAbsolutePosition, hres, hnode, Int.toNat_natCast,
    List.take_length, sumSizesOpt_eq σ _ hσt.2, Option.map_some', hclimb]
  congr 1
  push_cast
  ring

theorem relPos_relEnd_root (root : List YPos) (rootRef : Nat) (σ : PosMapping)
    (hσ : sigmaOkL σ root) :
    relativePositionToAbsolutePosition root rootRef (.relEnd rootRef) σ =
      .okPos ((sizeYP.sizesYP root : Nat) : Int) := by
  have hres : resolveRel root rootRef (.relEnd rootRef) =
      some ([], ((root.length : Nat) : Int)) := by
    simp [resolveRel]
  simp only [relativePositionToAbsolutePosition, hres, Int.toNat_natCast,
    List.take_length, sumSizesOpt_eq σ _ hσ, Option.map_some']
  rw [show climbPath σ root ([] : List Nat) = some 0 from rfl]
  congr 1
  ring

theorem relPos_typeIndex_root_zero (root : List YPos) (rootRef : Nat)
    (σ : PosMapping) :
    relativePositionToAbsolutePosition root rootRef (.typeIndex rootRef 0) σ =
      .okPos 0 := by
  have hres : resolveRel root rootRef (.typeIndex rootRef 0) =
      some ([], (0 : Int)) := by
    simp only [resolveRel, if_pos rfl, if_true,
      min_eq_left (Int.natCast_nonneg root.length)]
  simp only [relativePositionToAbsolutePosition, hres]
  rw [show ((0 : Int)).toNat = 0 from rfl, List.take_zero]
  rw [show sumSizesOpt σ ([] : List YPos) = some 0 from rfl]
  simp only [Option.map_some']
  rw [show climbPath σ root ([] : List Nat) = some 0 from rfl]
  congr 1

/-- The walk invariant for an in-range offset `o`: the zipper
reassembles to the bound root, `o` splits into the focus start offset
plus the remaining `pos`, `pos` is nonnegative (zero only on a text
focus) and does not overrun the focus plus its later siblings. -/
def InvC (σ : PosMapping) (root : List YPos) (o : Int) (s : APos) : Prop :=
  reconZ root s.focus s.crumbs ∧
  o = ((locOfC s.crumbs : Nat) : Int) + s.pos ∧
  0 ≤ s.pos ∧
  (s.pos = 0 → isTextP s.focus = true) ∧
  s.pos ≤ ((sizeYP s.focus +
    sizeYP.sizesYP (match s.crumbs with | [] => [] | c :: _ => c.aft) : Nat) : Int)

theorem reconZ_shift (root : List YPos) (foc m : YPos) (cb aft₂ : List YPos)
    (cp : Option Nat) (rest : List Crumb)
    (h : reconZ root foc (Crumb.mk cb (m :: aft₂) cp :: rest)) :
    reconZ root m (Crumb.mk (foc :: cb) aft₂ cp :: rest) := by
  cases rest with
  | nil =>
    obtain ⟨hpar, hroot⟩ := h
    refine ⟨hpar, ?_⟩
    rw [hroot]
    simp
  | cons c₂ rest₂ =>
    obtain ⟨r, hpar, hrec⟩ := h
    refine ⟨r, hpar, ?_⟩
    have hl : (foc :: cb).reverse ++ m :: aft₂ = cb.reverse ++ foc :: m :: aft₂ := by
      simp
    rw [hl]
    exact hrec

theorem locOfC_shift (foc : YPos) (cb a₁ a₂ : List YPos) (p₁ p₂ : Option Nat)
    (rest : List Crumb) :
    locOfC (Crumb.mk (foc :: cb) a₁ p₁ :: rest) =
      sizeYP foc + locOfC (Crumb.mk cb a₂ p₂ :: rest) := by
  cases rest <;> (simp [locOfC, sizeYP.sizesYP]; try omega)

theorem stepAbsPastRT (σ : PosMapping) (root : List YPos) (rootRef : Nat)
    (hσ : sigmaOkL σ root) (hnd : (refsOf.refsOfL root).Nodup)
    (hrr : rootRef ∉ refsOf.refsOfL root) (o : Int)
    (foc : YPos) (cb ca : List YPos) (cp : Option Nat) (rest : List Crumb)
    (pos : Int)
    (hrec : reconZ root foc (Crumb.mk cb ca cp :: rest))
    (ho : o = ((locOfC (Crumb.mk cb ca cp :: rest) : Nat) : Int) + pos)
    (hlb : ((sizeYP foc : Nat) : Int) ≤ pos)
    (hub : pos ≤ ((sizeYP foc + sizeYP.sizesYP ca : Nat) : Int)) :
    (∃ rp, stepAbsPast rootRef root.length ⟨foc, Crumb.mk cb ca cp :: rest, pos⟩
        ((sizeYP foc : Nat) : Int) = .done rp ∧
      relativePositionToAbsolutePosition root rootRef rp σ = .okPos o) ∨
    (∃ s₂, stepAbsPast rootRef root.length ⟨foc, Crumb.mk cb ca cp :: rest, pos⟩
        ((sizeYP foc : Nat) : Int) = .cont s₂ ∧ InvC σ root o s₂ ∧
      muA s₂ ≤ muC (Crumb.mk cb ca cp :: rest)) := by
  cases ca with
  | cons m aft₂ =>
    have hrec₂ := reconZ_shift root foc m cb aft₂ cp rest hrec
    have hub' : pos - ((sizeYP foc : Nat) : Int) ≤
        ((sizeYP m + sizeYP.sizesYP aft₂ : Nat) : Int) := by
      simp only [sizeYP.sizesYP] at hub
      push_cast at hub ⊢
      omega
    by_cases hz : pos - ((sizeYP foc : Nat) : Int) = 0
    · cases htm : isTextP m with
      | false =>
        left
        refine ⟨.beforeItem (refOfP m), ?_, ?_⟩
        · simp only [stepAbsPast, finishStep, hz, htm]
          simp
        · rw [relPos_beforeItem root rootRef σ hσ hnd hrr m _ rest hrec₂]
          congr 1
          rw [locOfC_shift foc cb aft₂ (m :: aft₂) cp cp rest]
          push_cast
          omega
      | true =>
        right
        refine ⟨⟨m, Crumb.mk (foc :: cb) aft₂ cp :: rest, pos - sizeYP foc⟩,
          ?_, ⟨hrec₂, ?_, ?_, ?_, ?_⟩, ?_⟩
        · simp only [stepAbsPast, finishStep, hz, htm]
          simp
        · rw [ho, locOfC_shift foc cb aft₂ (m :: aft₂) cp cp rest]
          push_cast
          ring
        · show (0 : Int) ≤ pos - ((sizeYP foc : Nat) : Int)
          omega
        · intro h
          exact htm
        · simpa using hub'
        · simp only [muA, muC, countYP.countsYP]
          omega
    · right
      refine ⟨⟨m, Crumb.mk (foc :: cb) aft₂ cp :: rest, pos - sizeYP foc⟩,
        ?_, ⟨hrec₂, ?_, ?_, ?_, ?_⟩, ?_⟩
      · simp only [stepAbsPast]
        exact finishStep_cont _ hz
      · rw [ho, locOfC_shift foc cb aft₂ (m :: aft₂) cp cp rest]
        push_cast
        ring
      · show (0 : Int) ≤ pos - ((sizeYP foc : Nat) : Int)
        omega
      · intro h
        exact absurd h hz
      · simpa using hub'
      · simp only [muA, muC, countYP.countsYP]
        omega
  | nil =>
    have hz : pos - ((sizeYP foc : Nat) : Int) = 0 := by
      simp only [sizeYP.sizesYP] at hub
      push_cast at hub
      omega
    left
    cases rest with
    | nil =>
      obtain ⟨hpar, hroot⟩ := hrec
      simp only at hpar
      subst hpar
      refine ⟨.relEnd rootRef, ?_, ?_⟩
      · simp only [stepAbsPast, if_pos hz]
      · rw [relPos_relEnd_root root rootRef σ hσ]
        congr 1
        have hsz : sizeYP.sizesYP root =
            sizeYP.sizesYP cb + sizeYP foc := by
          rw [hroot, sizesYP_append, sizesYP_reverse]
          simp [sizeYP.sizesYP]
        rw [hsz]
        simp only [locOfC] at ho
        push_cast at ho ⊢
        omega
    | cons c₂ rest₂ =>
      obtain ⟨r, hpar, hrec₂⟩ := hrec
      simp only at hpar
      subst hpar
      refine ⟨.relEnd r, ?_, ?_⟩
      · simp only [stepAbsPast, if_pos hz]
      · rw [relPos_relEnd_elem root rootRef σ hσ hnd hrr _ r (c₂ :: rest₂) hrec₂]
        congr 1
        have hsz : sizeYP.sizesYP (cb.reverse ++ foc :: ([] : List YPos)) =
            sizeYP.sizesYP cb + sizeYP foc := by
          rw [sizesYP_append, sizesYP_reverse]
          simp [sizeYP.sizesYP]
        rw [hsz]
        simp only [locOfC] at ho
        push_cast at ho ⊢
        omega

theorem stepAbsRT (σ : PosMapping) (root : List YPos) (rootRef : Nat)
    (hσ : sigmaOkL σ root) (hnd : (refsOf.refsOfL root).Nodup)
    (hrr : rootRef ∉ refsOf.refsOfL root) (o : Int) (s : APos)
    (hInv : InvC σ root o s) :
    (∃ rp, stepAbs σ rootRef root.length s = .done rp ∧
      relativePositionToAbsolutePosition root rootRef rp σ = .okPos o) ∨
    (∃ s₂, stepAbs σ rootRef root.length s = .cont s₂ ∧ InvC σ root o s₂ ∧
      muA s₂ < muA s) := by
  obtain ⟨foc, crumbs, pos⟩ := s
  obtain ⟨hrec, ho, hp0, hptext, hub⟩ := hInv
  simp only at hrec ho hp0 hptext hub
  cases crumbs with
  | nil => simp [reconZ] at hrec
  | cons c rest =>
    obtain ⟨cb, ca, cp⟩ := c
    cases foc with
    | ytext len tref =>
      by_cases hple : pos ≤ (len : Int)
      · left
        refine ⟨.typeIndex tref pos, ?_, ?_⟩
        · simp only [stepAbs, if_pos hple]
        · rw [relPos_typeIndex_text root rootRef σ hσ hnd hrr len tref _ pos
            hrec hple, ho]
      · cases ca with
        | nil =>
          exfalso
          simp only [sizeYP, sizeYP.sizesYP] at hub
          push_cast at hub
          omega
        | cons m aft₂ =>
          right
          have hrec₂ := reconZ_shift root (.ytext len tref) m cb aft₂ cp rest hrec
          have hne0 : ¬ (pos - (len : Int) = 0) := by omega
          refine ⟨⟨m, Crumb.mk (.ytext len tref :: cb) aft₂ cp :: rest,
            pos - len⟩, ?_, ⟨hrec₂, ?_, ?_, ?_, ?_⟩, ?_⟩
          · simp only [stepAbs, if_neg hple]
            exact finishStep_cont _ hne0
          · rw [ho, locOfC_shift (.ytext len tref) cb aft₂ (m :: aft₂) cp cp rest]
            simp only [sizeYP]
            push_cast
            ring
          · show (0 : Int) ≤ pos - (len : Int)
            omega
          · intro h
            exact absurd h hne0
          · show pos - (len : Int) ≤ _
            simp only [sizeYP, sizeYP.sizesYP] at hub ⊢
            push_cast at hub ⊢
            omega
          · simp only [muA, muC, countYP, countYP.countsYP]
            omega
    | yelem ecs eref =>
      have hnode := nodeAt_reconZ root _ _ hrec
      have hσf : sigmaOk σ (.yelem ecs eref) := sigmaOk_nodeAt σ _ _ _ hσ hnode
      have hget : pmget σ eref = some (sizeYP (.yelem ecs eref)) := hσf.1
      have hpos1 : 1 ≤ pos := by
        rcases lt_or_eq_of_le hp0 with h | h
        · omega
        · exact absurd (h.symm) (by intro hh; have := hptext hh; simp [isTextP] at this)
      cases ecs with
      | cons chd ctl =>
        by_cases hdesc : pos < ((sizeYP (.yelem (chd :: ctl) eref) : Nat) : Int)
        · -- descend into the first child
          have hrec₂ : reconZ root chd
              (Crumb.mk [] ctl (some eref) :: Crumb.mk cb ca cp :: rest) :=
            ⟨eref, rfl, hrec⟩
          have hloc : locOfC (Crumb.mk ([] : List YPos) ctl (some eref) ::
              Crumb.mk cb ca cp :: rest) =
              1 + locOfC (Crumb.mk cb ca cp :: rest) := by
            simp [locOfC, sizeYP.sizesYP]
          have hub₂ : pos - 1 ≤ ((sizeYP chd + sizeYP.sizesYP ctl : Nat) : Int) := by
            simp only [sizeYP, sizeYP.sizesYP] at hdesc
            push_cast at hdesc ⊢
            omega
          by_cases hz : pos - 1 = 0
          · cases htm : isTextP chd with
            | false =>
              left
              refine ⟨.beforeItem (refOfP chd), ?_, ?_⟩
              · simp only [stepAbs, hget, Option.getD_some, if_pos hdesc,
                  finishStep, hz, htm]
                try simp
              · rw [relPos_beforeItem root rootRef σ hσ hnd hrr chd _ _ hrec₂]
                congr 1
                rw [hloc]
                push_cast
                omega
            | true =>
              right
              refine ⟨⟨chd, Crumb.mk [] ctl (some eref) ::
                Crumb.mk cb ca cp :: rest, pos - 1⟩, ?_, ⟨hrec₂, ?_, ?_, ?_, ?_⟩, ?_⟩
              · simp only [stepAbs, hget, Option.getD_some, if_pos hdesc,
                  finishStep, hz, htm]
                try simp
              · rw [ho, hloc]
                push_cast
                ring
              · show (0 : Int) ≤ pos - 1
                omega
              · intro h
                exact htm
              · simpa using hub₂
              · simp only [muA, muC, countYP, countYP.countsYP]
                omega
          · right
            refine ⟨⟨chd, Crumb.mk [] ctl (some eref) ::
              Crumb.mk cb ca cp :: rest, pos - 1⟩, ?_, ⟨hrec₂, ?_, ?_, ?_, ?_⟩, ?_⟩
            · simp only [stepAbs, hget, Option.getD_some, if_pos hdesc]
              exact finishStep_cont _ hz
            · rw [ho, hloc]
              push_cast
              ring
            · show (0 : Int) ≤ pos - 1
              omega
            · intro h
              exact absurd h hz
            · simpa using hub₂
            · simp only [muA, muC, countYP, countYP.countsYP]
              omega
        · -- walk past the element
          have hlb : ((sizeYP (.yelem (chd :: ctl) eref) : Nat) : Int) ≤ pos := by
            omega
          have hub' : pos ≤ ((sizeYP (.yelem (chd :: ctl) eref) +
              sizeYP.sizesYP ca : Nat) : Int) := hub
          rcases stepAbsPastRT σ root rootRef hσ hnd hrr o (.yelem (chd :: ctl) eref)
              cb ca cp rest pos hrec ho hlb hub' with
            ⟨rp, hstep, hcorr⟩ | ⟨s₂, hstep, hinv₂, hmu₂⟩
          · left
            refine ⟨rp, ?_, hcorr⟩
            simp only [stepAbs, hget, Option.getD_some, if_neg hdesc]
            exact hstep
          · right
            refine ⟨s₂, ?_, hinv₂, ?_⟩
            · simp only [stepAbs, hget, Option.getD_some, if_neg hdesc]
              exact hstep
            · have := countYP_pos (YPos.yelem (chd :: ctl) eref)
              simp only [muA] at hmu₂ ⊢
              omega
      | nil =>
        have hsz2 : sizeYP (YPos.yelem ([] : List YPos) eref) = 2 := by
          simp [sizeYP, sizeYP.sizesYP]
        by_cases hp1 : pos = 1
        · left
          refine ⟨.relEnd eref, ?_, ?_⟩
          · have hcond : (decide (pos = 1) &&
                decide (1 < ((sizeYP (YPos.yelem ([] : List YPos) eref) : Nat) : Int))) =
                  true := by
              rw [hsz2]
              simp [hp1]
            simp only [stepAbs, hget, Option.getD_some, hcond, if_true]
          · rw [relPos_relEnd_elem root rootRef σ hσ hnd hrr [] eref _ hrec]
            rw [ho, hp1]
            congr 1
        · have hcond : (decide (pos = 1) &&
              decide (1 < ((sizeYP (YPos.yelem ([] : List YPos) eref) : Nat) : Int))) =
                false := by
            simp [hp1]
          have hlb : ((sizeYP (YPos.yelem ([] : List YPos) eref) : Nat) : Int) ≤ pos := by
            rw [hsz2]
            push_cast
            omega
          rcases stepAbsPastRT σ root rootRef hσ hnd hrr o (.yelem [] eref)
              cb ca cp rest pos hrec ho hlb hub with
            ⟨rp, hstep, hcorr⟩ | ⟨s₂, hstep, hinv₂, hmu₂⟩
          · left
            refine ⟨rp, ?_, hcorr⟩
            simp only [stepAbs, hget, Option.getD_some, hcond, Bool.false_eq_true,
              if_false]
            exact hstep
          · right
            refine ⟨s₂, ?_, hinv₂, ?_⟩
            · simp only [stepAbs, hget, Option.getD_some, hcond, Bool.false_eq_true,
                if_false]
              exact hstep
            · have := countYP_pos (YPos.yelem ([] : List YPos) eref)
              simp only [muA] at hmu₂ ⊢
              omega

theorem runAbsRT (σ : PosMapping) (root : List YPos) (rootRef : Nat)
    (hσ : sigmaOkL σ root) (hnd : (refsOf.refsOfL root).Nodup)
    (hrr : rootRef ∉ refsOf.refsOfL root) (o : Int) :
    ∀ (fuel : Nat) (s : APos), InvC σ root o s → muA s < fuel →
    ∃ rp, runAbs σ rootRef root.length fuel s = .ok rp ∧
      relativePositionToAbsolutePosition root rootRef rp σ = .okPos o := by
  intro fuel
  induction fuel with
  | zero => intro s _ h; exact absurd h (Nat.not_lt_zero _)
  | succ n ih =>
    intro s hInv hfuel
    rcases stepAbsRT σ root rootRef hσ hnd hrr o s hInv with
      ⟨rp, hstep, hcorr⟩ | ⟨s₂, hstep, hinv₂, hmu⟩
    · refine ⟨rp, ?_, hcorr⟩
      simp only [runAbs, hstep]
    · obtain ⟨rp, hrun, hcorr⟩ := ih s₂ hinv₂ (by omega)
      refine ⟨rp, ?_, hcorr⟩
      simp only [runAbs, hstep]
      exact hrun

/-- C1: with the Mapping Table holding the current local node of every
replicated element (consistent reported sizes), distinct type
identities, and the root type distinct from every node, every absolute
offset `0 ≤ o ≤` content size survives the round trip: the relative
position produced by `absolutePositionToRelativePosition` is mapped
back to exactly `o` by `relativePositionToAbsolutePosition`; and
whenever the anchor no longer resolves (a concurrent delete removed
it), `relativePositionToAbsolutePosition` returns null instead of an
offset. -/
theorem c1_position_round_trip (root : List YPos) (rootRef : Nat)
    (σ : PosMapping) (o : Int)
    (hσ : sigmaOkL σ root) (hnd : (refsOf.refsOfL root).Nodup)
    (hrr : rootRef ∉ refsOf.refsOfL root)
    (h0 : 0 ≤ o) (hub : o ≤ ((sizeYP.sizesYP root : Nat) : Int)) :
    (∃ rp, absolutePositionToRelativePosition o root rootRef σ = .ok rp ∧
      relativePositionToAbsolutePosition root rootRef rp σ = .okPos o) ∧
    (∀ rp, resolveRel root rootRef rp = none →
      relativePositionToAbsolutePosition root rootRef rp σ = .unres) := by
  constructor
  · by_cases ho : o = 0
    · subst ho
      refine ⟨.typeIndex rootRef 0, ?_, relPos_typeIndex_root_zero root rootRef σ⟩
      simp [absolutePositionToRelativePosition]
    · cases root with
      | nil =>
        exfalso
        simp only [sizeYP.sizesYP] at hub
        omega
      | cons m rest =>
        have hinv : InvC σ (m :: rest) o
            ⟨m, [Crumb.mk [] rest none], o⟩ := by
          refine ⟨⟨rfl, rfl⟩, ?_, h0, ?_, ?_⟩
          · simp [locOfC, sizeYP.sizesYP]
          · intro h
            exact absurd h ho
          · simpa [sizeYP.sizesYP] using hub
        obtain ⟨rp, hrun, hcorr⟩ := runAbsRT σ (m :: rest) rootRef hσ hnd hrr o
          (countYP.countsYP (m :: rest) + 1) ⟨m, [Crumb.mk [] rest none], o⟩
          hinv (by simp [muA, muC, countYP.countsYP]; try omega)
        refine ⟨rp, ?_, hcorr⟩
        simp only [absolutePositionToRelativePosition, if_neg ho]
        exact hrun
  · intro rp h
    simp only [relativePositionToAbsolutePosition, h]

/-- Witness for C1 at a concrete document (a paragraph with a
two-character text), mapping `[(1, 4)]`, offset `2`. -/
theorem c1_witness :
    sigmaOkL [(1, 4)] [.yelem [.ytext 2 10] 1] ∧
      (refsOf.refsOfL [.yelem [.ytext 2 10] 1]).Nodup ∧
      0 ∉ refsOf.refsOfL [.yelem [.ytext 2 10] 1] ∧
      (0 : Int) ≤ 2 ∧
      (2 : Int) ≤ ((sizeYP.sizesYP [.yelem [.ytext 2 10] 1] : Nat) : Int) ∧
      ((∃ rp, absolutePositionToRelativePosition 2 [.yelem [.ytext 2 10] 1] 0
          [(1, 4)] = .ok rp ∧
        relativePositionToAbsolutePosition [.yelem [.ytext 2 10] 1] 0 rp
          [(1, 4)] = .okPos 2) ∧
      (∀ rp, resolveRel [.yelem [.ytext 2 10] 1] 0 rp = none →
        relativePositionToAbsolutePosition [.yelem [.ytext 2 10] 1] 0 rp
          [(1, 4)] = .unres)) := by
  have h1 : sigmaOkL [(1, 4)] [YPos.yelem [.ytext 2 10] 1] := by
    simp [sigmaOkL, sigmaOk, pmget, sizeYP, sizeYP.sizesYP]
  have h2 : (refsOf.refsOfL [YPos.yelem [.ytext 2 10] 1]).Nodup := by
    simp [refsOf.refsOfL, refsOf]
  have h3 : 0 ∉ refsOf.refsOfL [YPos.yelem [.ytext 2 10] 1] := by
    simp [refsOf.refsOfL, refsOf]
  have h4 : (0 : Int) ≤ 2 := by omega
  have h5 : (2 : Int) ≤ ((sizeYP.sizesYP [YPos.yelem [.ytext 2 10] 1] : Nat) : Int) := by
    simp [sizeYP.sizesYP, sizeYP]
  exact ⟨h1, h2, h3, h4, h5,
    c1_position_round_trip [.yelem [.ytext 2 10] 1] 0 [(1, 4)] 2 h1 h2 h3 h4 h5⟩

/-! ## Claim C3: the reconciler is idempotent -/

theorem jbeq_refl_measure : ∀ (n : Nat),
    (∀ j, sizeJ j ≤ n → jbeq j j = true) ∧
    (∀ l, sizeJ.sizeA l ≤ n → jbeqF l l = true) := by
  intro n
  induction n using Nat.strong_induction_on with
  | _ n ih =>
  constructor
  · intro j hj
    cases j with
    | jnull => simp [jbeq]
    | jprim s => simp [jbeq]
    | jobj fields =>
      simp only [jbeq]
      have hsz : sizeJ (JVal.jobj fields) = 1 + sizeJ.sizeA fields := rfl
      exact (ih (n - 1) (by omega)).2 fields (by omega)
  · intro l hl
    cases l with
    | nil => simp [jbeqF]
    | cons hd tl =>
      obtain ⟨k, v⟩ := hd
      simp only [jbeqF, Bool.and_eq_true, beq_self_eq_true, true_and]
      have hsz : sizeJ.sizeA ((k, v) :: tl) =
          1 + sizeJ v + sizeJ.sizeA tl := rfl
      have h1 := countYP_pos
      exact ⟨(ih (n - 1) (by omega)).1 v (by omega),
        (ih (n - 1) (by omega)).2 tl (by omega)⟩

theorem jbeq_refl (j : JVal) : jbeq j j = true :=
  (jbeq_refl_measure (sizeJ j)).1 j (le_refl _)

theorem jbeqF_refl (l : List (String × JVal)) : jbeqF l l = true :=
  (jbeq_refl_measure (sizeJ.sizeA l)).2 l (le_refl _)

theorem pmarkBeq_refl (m : PMark) : pmarkBeq m m = true := by
  simp [pmarkBeq, jbeqF_refl]

theorem pmarkBeqL_refl (l : List PMark) : pmarkBeqL l l = true := by
  induction l with
  | nil => rfl
  | cons x xs ih => simp [pmarkBeqL, pmarkBeq_refl, ih]

theorem pnode_refl_measure : ∀ (n : Nat),
    (∀ p, 2 * sizeP p ≤ n → pnodeBeq p p = true) ∧
    (∀ l, 2 * sizeP.sizePL l + 1 ≤ n → pnodeBeqL l l = true) := by
  intro n
  induction n using Nat.strong_induction_on with
  | _ n ih =>
  constructor
  · intro p hp
    cases p with
    | node nm a c r =>
      simp only [pnodeBeq, Bool.and_eq_true, beq_self_eq_true, true_and,
        jbeqF_refl, and_true]
      have hsz : sizeP (PNode.node nm a c r) = 1 + sizeP.sizePL c := rfl
      exact (ih (n - 1) (by omega)).2 c (by omega)
    | ptext s m r =>
      simp [pnodeBeq, pmarkBeqL_refl]
  · intro l hl
    cases l with
    | nil => rfl
    | cons x xs =>
      have hsz : sizeP.sizePL (x :: xs) = sizeP x + sizeP.sizePL xs := rfl
      have hx := sizeP_pos x
      simp only [pnodeBeqL, Bool.and_eq_true]
      exact ⟨(ih (n - 1) (by omega)).1 x (by omega),
        (ih (n - 1) (by omega)).2 xs (by omega)⟩

theorem pnodeBeq_refl (p : PNode) : pnodeBeq p p = true :=
  (pnode_refl_measure (2 * sizeP p)).1 p (le_refl _)

theorem pnodeBeqL_refl (l : List PNode) : pnodeBeqL l l = true :=
  (pnode_refl_measure (2 * sizeP.sizePL l + 1)).2 l (le_refl _)

theorem mappedIdentity_lvalOfUnit (u : NUnit) :
    mappedIdentity (some (lvalOfUnit u)) u = true := by
  cases u with
  | single n => simp [lvalOfUnit, mappedIdentity, pnodeBeq_refl]
  | group ts => simp [lvalOfUnit, mappedIdentity, pnodeBeqL_refl]

theorem mget_mset_self (m : Mapping) (r : Nat) (v : LVal) :
    mget (mset m r v) r = some v := by
  induction m with
  | nil => simp [mset, mget]
  | cons hd tl ih =>
    obtain ⟨r₀, v₀⟩ := hd
    by_cases h : r₀ = r
    · simp [mset, mget, h]
    · simp only [mset, if_neg h, mget, if_neg h]
      exact ih

theorem mget_mset_ne (m : Mapping) (r r₂ : Nat) (v : LVal) (h : r₂ ≠ r) :
    mget (mset m r v) r₂ = mget m r₂ := by
  induction m with
  | nil => simp [mset, mget, Ne.symm h]
  | cons hd tl ih =>
    obtain ⟨r₀, v₀⟩ := hd
    by_cases h₀ : r₀ = r
    · subst h₀
      simp only [mset, if_pos rfl, mget]
      rw [if_neg (Ne.symm h), if_neg (Ne.symm h)]
    · simp only [mset, if_neg h₀, mget]
      by_cases h₂ : r₀ = r₂
      · simp [h₂]
      · simp only [if_neg h₂]
        exact ih

/-- All type identities of a replicated subtree. -/
def refsY : YNode → List Nat
  | .yel _ _ cs r => r :: refsYL cs
  | .yfrag cs r => r :: refsYL cs
  | .ytx _ r => [r]
where
  /-- Identities of a child list. -/
  refsYL : List YNode → List Nat
  | [] => []
  | c :: rest => refsY c ++ refsYL rest

theorem yref_mem_refsY (y : YNode) : yref y ∈ refsY y := by
  cases y <;> simp [refsY, yref]

theorem refsYL_append (xs ys : List YNode) :
    refsY.refsYL (xs ++ ys) = refsY.refsYL xs ++ refsY.refsYL ys := by
  induction xs with
  | nil => simp [refsY.refsYL]
  | cons x xs ih => simp [refsY.refsYL, ih]

theorem mem_refsYL_of_mem {y : YNode} {l : List YNode} (h : y ∈ l) :
    ∀ r ∈ refsY y, r ∈ refsY.refsYL l := by
  induction l with
  | nil => simp at h
  | cons x xs ih =>
    intro r hr
    rcases List.mem_cons.mp h with rfl | hm
    · simp [refsY.refsYL]
      exact Or.inl hr
    · simp [refsY.refsYL]
      exact Or.inr (ih hm r hr)

theorem topRef_mem_refsYL {y : YNode} {l : List YNode} (h : y ∈ l) :
    yref y ∈ refsY.refsYL l :=
  mem_refsYL_of_mem h _ (yref_mem_refsY y)

theorem tops_nodup_of_refsYL_nodup : ∀ (l : List YNode),
    (refsY.refsYL l).Nodup → (l.map yref).Nodup := by
  intro l
  induction l with
  | nil => simp
  | cons y ys ih =>
    intro h
    simp only [refsY.refsYL] at h
    rcases List.nodup_append.mp h with ⟨h₁, h₂, h₃⟩
    simp only [List.map_cons, List.nodup_cons]
    refine ⟨?_, ih h₂⟩
    intro hmem
    obtain ⟨y₂, hy₂, heq⟩ := List.mem_map.mp hmem
    exact h₃ (yref_mem_refsY y) (heq ▸ topRef_mem_refsYL hy₂)

mutual

/-- Deep key-uniqueness of the attribute objects of a replicated tree
(JavaScript objects have unique keys). -/
def yAttrsWF : YNode → Prop
  | .yel _ a cs _ => (a.map Prod.fst).Nodup ∧ yAttrsWFL cs
  | .yfrag cs _ => yAttrsWFL cs
  | .ytx _ _ => True

/-- `yAttrsWF` for a child list. -/
def yAttrsWFL : List YNode → Prop
  | [] => True
  | c :: rest => yAttrsWF c ∧ yAttrsWFL rest

end

mutual

/-- Deep key-uniqueness of the attribute objects of a local tree. -/
def pWF : PNode → Prop
  | .node _ a c _ => (a.map Prod.fst).Nodup ∧ pWFL c
  | .ptext _ _ _ => True

/-- `pWF` for a child list. -/
def pWFL : List PNode → Prop
  | [] => True
  | c :: rest => pWF c ∧ pWFL rest

end

/-- `pWF` for a normalized unit. -/
def pWFU : NUnit → Prop
  | .single n => pWF n
  | .group ts => pWFL ts

/-- `pWFU` for a unit list. -/
def pWFUL : List NUnit → Prop
  | [] => True
  | u :: rest => pWFU u ∧ pWFUL rest

theorem alookup_setAttr_ne (a : Attrs) (k k₂ : String) (v : JVal)
    (h : k₂ ≠ k) : alookup (setAttr a k v) k₂ = alookup a k₂ := by
  induction a with
  | nil => simp [setAttr, alookup, Ne.symm h]
  | cons hd tl ih =>
    obtain ⟨k₀, v₀⟩ := hd
    by_cases h₀ : k₀ = k
    · subst h₀
      simp only [setAttr, if_pos rfl, alookup]
      rw [if_neg (Ne.symm h), if_neg (Ne.symm h)]
    · simp only [setAttr, if_neg h₀, alookup]
      by_cases h₂ : k₀ = k₂
      · simp [h₂]
      · simp only [if_neg h₂]
        exact ih

theorem alookup_removeAttr_self (a : Attrs) (k : String) :
    alookup (removeAttr a k) k = none := by
  induction a with
  | nil => simp [removeAttr, alookup]
  | cons hd tl ih =>
    obtain ⟨k₀, v₀⟩ := hd
    by_cases h₀ : k₀ = k
    · simp only [removeAttr, if_pos h₀]
      exact ih
    · simp only [removeAttr, if_neg h₀, alookup, if_neg h₀]
      exact ih

theorem alookup_removeAttr_ne (a : Attrs) (k k₂ : String) (h : k₂ ≠ k) :
    alookup (removeAttr a k) k₂ = alookup a k₂ := by
  induction a with
  | nil => simp [removeAttr]
  | cons hd tl ih =>
    obtain ⟨k₀, v₀⟩ := hd
    by_cases h₀ : k₀ = k
    · subst h₀
      simp only [removeAttr, if_pos rfl, alookup]
      rw [if_neg (Ne.symm h)]
      exact ih
    · simp only [removeAttr, if_neg h₀, alookup]
      by_cases h₂ : k₀ = k₂
      · simp [h₂]
      · simp only [if_neg h₂]
        exact ih

theorem mem_alookup_isSome {a : Attrs} {k : String} {v : JVal}
    (h : (k, v) ∈ a) : (alookup a k).isSome = true := by
  induction a with
  | nil => simp at h
  | cons hd tl ih =>
    obtain ⟨k₀, v₀⟩ := hd
    rcases List.mem_cons.mp h with heq | hm
    · obtain ⟨h1, h2⟩ := Prod.mk.injEq .. ▸ heq
      simp [alookup, h1.symm]
    · by_cases h₀ : k₀ = k
      · simp [alookup, h₀]
      · simp only [alookup, if_neg h₀]
        exact ih hm

theorem alookup_some_mem {a : Attrs} {k : String} {v : JVal}
    (h : alookup a k = some v) : (k, v) ∈ a := by
  induction a with
  | nil => simp [alookup] at h
  | cons hd tl ih =>
    obtain ⟨k₀, v₀⟩ := hd
    by_cases h₀ : k₀ = k
    · subst h₀
      simp only [alookup, if_pos rfl] at h
      simp [Option.some.inj h]
    · simp only [alookup, if_neg h₀] at h
      exact List.mem_cons_of_mem _ (ih h)

theorem alookup_isSome_mem_keys {a : Attrs} {k : String}
    (h : (alookup a k).isSome = true) : k ∈ a.map Prod.fst := by
  obtain ⟨v, hv⟩ := Option.isSome_iff_exists.mp h
  exact List.mem_map.mpr ⟨(k, v), alookup_some_mem hv, rfl⟩

theorem alookup_of_mem_nodup {a : Attrs} {k : String} {v : JVal}
    (hnd : (a.map Prod.fst).Nodup) (h : (k, v) ∈ a) : alookup a k = some v := by
  induction a with
  | nil => simp at h
  | cons hd tl ih =>
    obtain ⟨k₀, v₀⟩ := hd
    simp only [List.map_cons, List.nodup_cons] at hnd
    rcases List.mem_cons.mp h with heq | hm
    · obtain ⟨h1, h2⟩ := Prod.mk.injEq .. ▸ heq
      subst h1
      subst h2
      simp [alookup]
    · have hne : ¬ (k₀ = k) := by
        intro hh
        subst hh
        exact hnd.1 (List.mem_map.mpr ⟨(k₀, v), hm, rfl⟩)
      simp only [alookup, if_neg hne]
      exact ih hnd.2 hm

/-- The replicated attributes are already reconciled with the local
attributes: re-running the two attribute loops touches nothing. -/
def AttrsSynced (ya pa : Attrs) : Prop :=
  (∀ k v, (k, v) ∈ pa →
    (jbeq v JVal.jnull = false →
      k = "ychange" ∨ obeq (alookup ya k) (some v) = true) ∧
    (jbeq v JVal.jnull = true → alookup ya k = none)) ∧
  (∀ k v, (k, v) ∈ ya → (alookup pa k).isSome = true)

theorem updAttrsLoop1_noop (ref : Nat) (ya : Attrs) :
    ∀ (entries : List (String × JVal)) (st : USt),
    (∀ k v, (k, v) ∈ entries →
      (jbeq v JVal.jnull = false →
        k = "ychange" ∨ obeq (alookup ya k) (some v) = true) ∧
      (jbeq v JVal.jnull = true → alookup ya k = none)) →
    updAttrsLoop1 ref ya entries ya st = (ya, st) := by
  intro entries
  induction entries with
  | nil => intro st _; rfl
  | cons hd tl ih =>
    obtain ⟨k, v⟩ := hd
    intro st hp
    have hhead := hp k v (List.mem_cons_self _ _)
    have htail : ∀ k v, (k, v) ∈ tl → _ := fun k v hm => hp k v (List.mem_cons_of_mem _ hm)
    cases hv : jbeq v JVal.jnull with
    | false =>
      have hcond : (!(obeq (alookup ya k) (some v)) && k != "ychange") = false := by
        rcases hhead.1 hv with h | h
        · simp [h]
        · simp [h]
      simp only [updAttrsLoop1, hv, Bool.not_false, if_true, hcond,
        Bool.false_eq_true, if_false]
      exact ih st htail
    | true =>
      have hnone : alookup ya k = none := hhead.2 hv
      simp only [updAttrsLoop1, hv, Bool.not_true, Bool.false_eq_true, if_false,
        hnone, Option.isSome_none]
      exact ih st htail

theorem updAttrsLoop2_noop (ref : Nat) (pa : Attrs) :
    ∀ (entries : List (String × JVal)) (cur : Attrs) (st : USt),
    (∀ k v, (k, v) ∈ entries → (alookup pa k).isSome = true) →
    updAttrsLoop2 ref pa entries cur st = (cur, st) := by
  intro entries
  induction entries with
  | nil => intro cur st _; rfl
  | cons hd tl ih =>
    obtain ⟨k, v⟩ := hd
    intro cur st hp
    have hk := hp k v (List.mem_cons_self _ _)
    have hnone : (alookup pa k).isNone = false := by
      cases hx : alookup pa k with
      | none => rw [hx] at hk; exact absurd hk (by simp)
      | some w => rfl
    simp only [updAttrsLoop2, hnone, Bool.false_eq_true, if_false]
    exact ih cur st fun k v hm => hp k v (List.mem_cons_of_mem _ hm)

theorem updateAttrs_noop (ref : Nat) (ya pa : Attrs) (st : USt)
    (h : AttrsSynced ya pa) : updateAttrs ref ya pa st = (ya, st) := by
  rw [updateAttrs, updAttrsLoop1_noop ref ya pa st h.1]
  exact updAttrsLoop2_noop ref pa ya ya st h.2

theorem updAttrsLoop1_state (ref : Nat) (snap : Attrs) :
    ∀ (entries : List (String × JVal)) (cur : Attrs) (st : USt),
    (updAttrsLoop1 ref snap entries cur st).2.mapping = st.mapping ∧
    (updAttrsLoop1 ref snap entries cur st).2.nextRef = st.nextRef := by
  intro entries
  induction entries with
  | nil => intro cur st; exact ⟨rfl, rfl⟩
  | cons hd tl ih =>
    obtain ⟨k, v⟩ := hd
    intro cur st
    simp only [updAttrsLoop1]
    split
    · split
      · exact ih _ _
      · exact ih _ _
    · split
      · exact ih _ _
      · exact ih _ _

theorem updAttrsLoop2_state (ref : Nat) (pa : Attrs) :
    ∀ (entries : List (String × JVal)) (cur : Attrs) (st : USt),
    (updAttrsLoop2 ref pa entries cur st).2.mapping = st.mapping ∧
    (updAttrsLoop2 ref pa entries cur st).2.nextRef = st.nextRef := by
  intro entries
  induction entries with
  | nil => intro cur st; exact ⟨rfl, rfl⟩
  | cons hd tl ih =>
    obtain ⟨k, v⟩ := hd
    intro cur st
    simp only [updAttrsLoop2]
    split
    · split
      · exact ih _ _
      · exact ih _ _
    · exact ih _ _

theorem updateAttrs_state (ref : Nat) (ya pa : Attrs) (st : USt) :
    (updateAttrs ref ya pa st).2.mapping = st.mapping ∧
    (updateAttrs ref ya pa st).2.nextRef = st.nextRef := by
  rw [updateAttrs]
  refine ⟨?_, ?_⟩
  · rw [(updAttrsLoop2_state ref pa ya _ _).1,
      (updAttrsLoop1_state ref ya pa ya st).1]
  · rw [(updAttrsLoop2_state ref pa ya _ _).2,
      (updAttrsLoop1_state ref ya pa ya st).2]

theorem updAttrsLoop1_char (ref : Nat) (snap : Attrs) :
    ∀ (entries : List (String × JVal)) (cur : Attrs) (st : USt),
    (entries.map Prod.fst).Nodup →
    (∀ k, k ∉ entries.map Prod.fst →
      alookup (updAttrsLoop1 ref snap entries cur st).1 k = alookup cur k) ∧
    (∀ k v, (k, v) ∈ entries →
      (jbeq v JVal.jnull = false →
        ((k = "ychange" ∨ obeq (alookup snap k) (some v) = true) →
          alookup (updAttrsLoop1 ref snap entries cur st).1 k = alookup cur k) ∧
        (¬(k = "ychange" ∨ obeq (alookup snap k) (some v) = true) →
          alookup (updAttrsLoop1 ref snap entries cur st).1 k = some v)) ∧
      (jbeq v JVal.jnull = true →
        alookup (updAttrsLoop1 ref snap entries cur st).1 k = none)) ∧
    (∀ k, (alookup (updAttrsLoop1 ref snap entries cur st).1 k).isSome = true →
      (alookup cur k).isSome = true ∨ k ∈ entries.map Prod.fst) := by
  intro entries
  induction entries with
  | nil =>
    intro cur st _
    exact ⟨fun k _ => rfl, fun k v hm => absurd hm (by simp),
      fun k h => Or.inl h⟩
  | cons hd tl ih =>
    obtain ⟨k, v⟩ := hd
    intro cur st hnd
    simp only [List.map_cons, List.nodup_cons] at hnd
    obtain ⟨hk, hnd₂⟩ := hnd
    cases hv : jbeq v JVal.jnull with
    | false =>
      by_cases hc : k = "ychange" ∨ obeq (alookup snap k) (some v) = true
      · have hcond : (!(obeq (alookup snap k) (some v)) && k != "ychange") = false := by
          rcases hc with h | h
          · simp [h]
          · simp [h]
        have hstep : updAttrsLoop1 ref snap ((k, v) :: tl) cur st =
            updAttrsLoop1 ref snap tl cur st := by
          simp only [updAttrsLoop1, hv, Bool.not_false, if_true, hcond,
            Bool.false_eq_true, if_false]
        rw [hstep]
        obtain ⟨ih1, ih2, ih3⟩ := ih cur st hnd₂
        refine ⟨?_, ?_, ?_⟩
        · intro k₂ hk₂
          exact ih1 k₂ (by simp at hk₂; simp [hk₂])
        · intro k₂ v₂ hm
          rcases List.mem_cons.mp hm with heq | hm₂
          · obtain ⟨h1, h2⟩ := Prod.mk.injEq .. ▸ heq
            rw [h1, h2]
            refine ⟨fun _ => ⟨fun _ => ih1 k hk, fun hnc => absurd hc hnc⟩,
              fun hn => absurd hn (by simp [hv])⟩
          · exact ih2 k₂ v₂ hm₂
        · intro k₂ h₂
          rcases ih3 k₂ h₂ with h | h
          · exact Or.inl h
          · exact Or.inr (by simp [h])
      · have hcond : (!(obeq (alookup snap k) (some v)) && k != "ychange") = true := by
          push_neg at hc
          simp [hc.2, hc.1]
        have hstep : updAttrsLoop1 ref snap ((k, v) :: tl) cur st =
            updAttrsLoop1 ref snap tl (setAttr cur k v)
              { st with log := st.log ++ [.setAttrOp ref k v] } := by
          simp only [updAttrsLoop1, hv, Bool.not_false, if_true, hcond, if_true]
        rw [hstep]
        obtain ⟨ih1, ih2, ih3⟩ := ih (setAttr cur k v) _ hnd₂
        refine ⟨?_, ?_, ?_⟩
        · intro k₂ hk₂
          simp only [List.map_cons, List.mem_cons] at hk₂
          push_neg at hk₂
          rw [ih1 k₂ hk₂.2, alookup_setAttr_ne cur k k₂ v hk₂.1]
        · intro k₂ v₂ hm
          rcases List.mem_cons.mp hm with heq | hm₂
          · obtain ⟨h1, h2⟩ := Prod.mk.injEq .. ▸ heq
            rw [h1, h2]
            refine ⟨fun _ => ⟨fun hcc => absurd hcc hc, fun _ => ?_⟩,
              fun hn => absurd hn (by simp [hv])⟩
            rw [ih1 k hk, alookup_setAttr_self]
          · have hne : k₂ ≠ k := by
              intro hh
              subst hh
              exact hk (List.mem_map.mpr ⟨(k₂, v₂), hm₂, rfl⟩)
            have := ih2 k₂ v₂ hm₂
            rw [alookup_setAttr_ne cur k k₂ v hne] at this
            exact this
        · intro k₂ h₂
          rcases ih3 k₂ h₂ with h | h
          · by_cases hne : k₂ = k
            · exact Or.inr (by simp [hne])
            · rw [alookup_setAttr_ne cur k k₂ v hne] at h
              exact Or.inl h
          · exact Or.inr (by simp [h])
    | true =>
      cases hs : (alookup cur k).isSome with
      | true =>
        have hstep : updAttrsLoop1 ref snap ((k, v) :: tl) cur st =
            updAttrsLoop1 ref snap tl (removeAttr cur k)
              { st with log := st.log ++ [.remAttrOp ref k] } := by
          simp only [updAttrsLoop1, hv, Bool.not_true, Bool.false_eq_true,
            if_false, hs, if_true]
        rw [hstep]
        obtain ⟨ih1, ih2, ih3⟩ := ih (removeAttr cur k) _ hnd₂
        refine ⟨?_, ?_, ?_⟩
        · intro k₂ hk₂
          simp only [List.map_cons, List.mem_cons] at hk₂
          push_neg at hk₂
          rw [ih1 k₂ hk₂.2, alookup_removeAttr_ne cur k k₂ hk₂.1]
        · intro k₂ v₂ hm
          rcases List.mem_cons.mp hm with heq | hm₂
          · obtain ⟨h1, h2⟩ := Prod.mk.injEq .. ▸ heq
            rw [h1, h2]
            refine ⟨fun hnn => absurd hv (by simp [hnn]), fun _ => ?_⟩
            rw [ih1 k hk, alookup_removeAttr_self]
          · have hne : k₂ ≠ k := by
              intro hh
              subst hh
              exact hk (List.mem_map.mpr ⟨(k₂, v₂), hm₂, rfl⟩)
            have := ih2 k₂ v₂ hm₂
            rw [alookup_removeAttr_ne cur k k₂ hne] at this
            exact this
        · intro k₂ h₂
          rcases ih3 k₂ h₂ with h | h
          · by_cases hne : k₂ = k
            · subst hne
              rw [alookup_removeAttr_self] at h
              exact absurd h (by simp)
            · rw [alookup_removeAttr_ne cur k k₂ hne] at h
              exact Or.inl h
          · exact Or.inr (by simp [h])
      | false =>
        have hstep : updAttrsLoop1 ref snap ((k, v) :: tl) cur st =
            updAttrsLoop1 ref snap tl cur st := by
          simp only [updAttrsLoop1, hv, Bool.not_true, Bool.false_eq_true,
            if_false, hs]
        rw [hstep]
        obtain ⟨ih1, ih2, ih3⟩ := ih cur st hnd₂
        refine ⟨?_, ?_, ?_⟩
        · intro k₂ hk₂
          exact ih1 k₂ (by simp at hk₂; simp [hk₂])
        · intro k₂ v₂ hm
          rcases List.mem_cons.mp hm with heq | hm₂
          · obtain ⟨h1, h2⟩ := Prod.mk.injEq .. ▸ heq
            rw [h1, h2]
            refine ⟨fun hnn => absurd hv (by simp [hnn]), fun _ => ?_⟩
            rw [ih1 k hk]
            cases hx : alookup cur k with
            | none => rfl
            | some w => rw [hx] at hs; simp at hs
          · exact ih2 k₂ v₂ hm₂
        · intro k₂ h₂
          rcases ih3 k₂ h₂ with h | h
          · exact Or.inl h
          · exact Or.inr (by simp [h])

theorem updAttrsLoop2_char (ref : Nat) (pa : Attrs) :
    ∀ (entries : List (String × JVal)) (cur : Attrs) (st : USt),
    (∀ k, (alookup pa k).isSome = true →
      alookup (updAttrsLoop2 ref pa entries cur st).1 k = alookup cur k) ∧
    (∀ k v, (k, v) ∈ entries → (alookup pa k).isSome = false →
      alookup (updAttrsLoop2 ref pa entries cur st).1 k = none) ∧
    (∀ k, alookup cur k = none →
      alookup (updAttrsLoop2 ref pa entries cur st).1 k = none) ∧
    (∀ k, (alookup (updAttrsLoop2 ref pa entries cur st).1 k).isSome = true →
      (alookup cur k).isSome = true) := by
  intro entries
  induction entries with
  | nil =>
    intro cur st
    exact ⟨fun k _ => rfl, fun k v hm => absurd hm (by simp),
      fun k h => h, fun k h => h⟩
  | cons hd tl ih =>
    obtain ⟨k, v⟩ := hd
    intro cur st
    cases hpn : (alookup pa k).isNone with
    | true =>
      have hps : (alookup pa k).isSome = false := by
        cases hx : alookup pa k with
        | none => rfl
        | some w => rw [hx] at hpn; simp at hpn
      cases hs : (alookup cur k).isSome with
      | true =>
        have hstep : updAttrsLoop2 ref pa ((k, v) :: tl) cur st =
            updAttrsLoop2 ref pa tl (removeAttr cur k)
              { st with log := st.log ++ [.remAttrOp ref k] } := by
          simp only [updAttrsLoop2, hpn, if_true, hs]
        rw [hstep]
        obtain ⟨ih1, ih2, ih3, ih4⟩ := ih (removeAttr cur k) _
        refine ⟨?_, ?_, ?_, ?_⟩
        · intro k₂ h₂
          have hne : k₂ ≠ k := by
            intro hh
            subst hh
            rw [h₂] at hps
            exact absurd hps (by simp)
          rw [ih1 k₂ h₂, alookup_removeAttr_ne cur k k₂ hne]
        · intro k₂ v₂ hm _
          rcases List.mem_cons.mp hm with heq | hm₂
          · obtain ⟨h1, h2⟩ := Prod.mk.injEq .. ▸ heq
            rw [h1]
            exact ih3 k (alookup_removeAttr_self cur k)
          · exact ih2 k₂ v₂ hm₂ (by assumption)
        · intro k₂ h₂
          by_cases hne : k₂ = k
          · subst hne
            exact ih3 k₂ (alookup_removeAttr_self cur k₂)
          · exact ih3 k₂ (by rw [alookup_removeAttr_ne cur k k₂ hne]; exact h₂)
        · intro k₂ h₂
          have := ih4 k₂ h₂
          by_cases hne : k₂ = k
          · subst hne
            rw [alookup_removeAttr_self] at this
            exact absurd this (by simp)
          · rw [alookup_removeAttr_ne cur k k₂ hne] at this
            exact this
      | false =>
        have hstep : updAttrsLoop2 ref pa ((k, v) :: tl) cur st =
            updAttrsLoop2 ref pa tl cur st := by
          simp only [updAttrsLoop2, hpn, if_true, hs, Bool.false_eq_true,
            if_false]
        rw [hstep]
        obtain ⟨ih1, ih2, ih3, ih4⟩ := ih cur st
        refine ⟨ih1, ?_, ih3, ih4⟩
        intro k₂ v₂ hm hf
        rcases List.mem_cons.mp hm with heq | hm₂
        · obtain ⟨h1, h2⟩ := Prod.mk.injEq .. ▸ heq
          rw [h1]
          refine ih3 k ?_
          cases hx : alookup cur k with
          | none => rfl
          | some w => rw [hx] at hs; simp at hs
        · exact ih2 k₂ v₂ hm₂ hf
    | false =>
      have hstep : updAttrsLoop2 ref pa ((k, v) :: tl) cur st =
          updAttrsLoop2 ref pa tl cur st := by
        simp only [updAttrsLoop2, hpn, Bool.false_eq_true, if_false]
      rw [hstep]
      obtain ⟨ih1, ih2, ih3, ih4⟩ := ih cur st
      refine ⟨ih1, ?_, ih3, ih4⟩
      intro k₂ v₂ hm hf
      rcases List.mem_cons.mp hm with heq | hm₂
      · obtain ⟨h1, h2⟩ := Prod.mk.injEq .. ▸ heq
        rw [h1] at hf
        exfalso
        cases hx : alookup pa k with
        | none => rw [hx] at hpn; simp at hpn
        | some w => rw [hx] at hf; simp at hf
      · exact ih2 k₂ v₂ hm₂ hf

theorem updateAttrs_establishes (ref : Nat) (ya pa : Attrs) (st : USt)
    (hpa : (pa.map Prod.fst).Nodup) :
    AttrsSynced (updateAttrs ref ya pa st).1 pa := by
  rw [updateAttrs]
  obtain ⟨l1f, l1e, l1k⟩ := updAttrsLoop1_char ref ya pa ya st hpa
  obtain ⟨l2f, l2e, l2n, l2k⟩ :=
    updAttrsLoop2_char ref pa ya (updAttrsLoop1 ref ya pa ya st).1
      (updAttrsLoop1 ref ya pa ya st).2
  constructor
  · intro k v hm
    have hpk : alookup pa k = some v := alookup_of_mem_nodup hpa hm
    have hpks : (alookup pa k).isSome = true := by rw [hpk]; rfl
    have hfinal := l2f k hpks
    constructor
    · intro hnn
      obtain ⟨hc1, hc2⟩ := (l1e k v hm).1 hnn
      by_cases hc : k = "ychange" ∨ obeq (alookup ya k) (some v) = true
      · rcases hc with h | h
        · exact Or.inl h
        · right
          rw [hfinal, hc1 (Or.inr h)]
          exact h
      · right
        rw [hfinal, hc2 hc]
        simp [obeq, jbeq_refl]
    · intro hn
      rw [hfinal]
      exact (l1e k v hm).2 hn
  · intro k v hm
    by_cases hps : (alookup pa k).isSome = true
    · exact hps
    · exfalso
      have hks : (alookup (updAttrsLoop2 ref pa ya (updAttrsLoop1 ref ya pa ya st).1
          (updAttrsLoop1 ref ya pa ya st).2).1 k).isSome = true :=
        mem_alookup_isSome hm
      have h1s := l2k k hks
      rcases l1k k h1s with hys | hkeys
      · obtain ⟨w, hw⟩ := Option.isSome_iff_exists.mp hys
        have hmem : (k, w) ∈ ya := alookup_some_mem hw
        have := l2e k w hmem (by simpa using hps)
        rw [this] at hks
        exact absurd hks (by simp)
      · have : (alookup pa k).isSome = true := by
          obtain ⟨⟨k₂, v₂⟩, hm₂, he⟩ := List.mem_map.mp hkeys
          exact he ▸ mem_alookup_isSome hm₂
        exact hps this

/-- One reconciled child pair: the replicated child is identity-mapped
to the local unit, or structurally equal to it (with the comparison
known not to throw, as the completed first run evaluated it). -/
def SyncedPair (M : Mapping) (y : YNode) (p : NUnit) : Prop :=
  mappedIdentity (mget M (yref y)) p = true ∨
    (eqThrows y p = false ∧ equalYTypePNode y p = true)

/-- Positionally reconciled child lists (equal lengths). -/
def SyncedL (M : Mapping) : List YNode → List NUnit → Prop
  | [], [] => True
  | y :: ys, p :: ps => SyncedPair M y p ∧ SyncedL M ys ps
  | _, _ => False

theorem SyncedL_length {M : Mapping} : ∀ {ys : List YNode} {ps : List NUnit},
    SyncedL M ys ps → ys.length = ps.length := by
  intro ys
  induction ys with
  | nil => intro ps h; cases ps with
    | nil => rfl
    | cons p ps => simp [SyncedL] at h
  | cons y ys ih =>
    intro ps h
    cases ps with
    | nil => simp [SyncedL] at h
    | cons p ps =>
      simp only [List.length_cons]
      rw [ih h.2]

theorem SyncedL_transport {M M₂ : Mapping} : ∀ {ys : List YNode} {ps : List NUnit},
    (∀ y ∈ ys, mget M₂ (yref y) = mget M (yref y)) →
    SyncedL M ys ps → SyncedL M₂ ys ps := by
  intro ys
  induction ys with
  | nil => intro ps _ h; cases ps with
    | nil => trivial
    | cons p ps => simp [SyncedL] at h
  | cons y ys ih =>
    intro ps hag h
    cases ps with
    | nil => simp [SyncedL] at h
    | cons p ps =>
      refine ⟨?_, ih (fun y₂ hm => hag y₂ (List.mem_cons_of_mem _ hm)) h.2⟩
      rcases h.1 with hid | heq
      · exact Or.inl (by rw [hag y (List.mem_cons_self _ _)]; exact hid)
      · exact Or.inr heq

theorem SyncedL_append {M : Mapping} : ∀ {a : List YNode} {b : List NUnit}
    {c : List YNode} {d : List NUnit},
    SyncedL M a b → SyncedL M c d → SyncedL M (a ++ c) (b ++ d) := by
  intro a
  induction a with
  | nil => intro b c d h1 h2; cases b with
    | nil => simpa using h2
    | cons p ps => simp [SyncedL] at h1
  | cons y ys ih =>
    intro b c d h1 h2
    cases b with
    | nil => simp [SyncedL] at h1
    | cons p ps =>
      exact ⟨h1.1, ih h1.2 h2⟩

theorem SyncedL_reverse {M : Mapping} : ∀ {ys : List YNode} {ps : List NUnit},
    SyncedL M ys ps → SyncedL M ys.reverse ps.reverse := by
  intro ys
  induction ys with
  | nil => intro ps h; cases ps with
    | nil => trivial
    | cons p ps => simp [SyncedL] at h
  | cons y ys ih =>
    intro ps h
    cases ps with
    | nil => simp [SyncedL] at h
    | cons p ps =>
      simp only [List.reverse_cons]
      exact SyncedL_append (ih h.2) ⟨h.1, trivial⟩

theorem map_take_subset {l : List YNode} {n : Nat} {r : Nat}
    (h : r ∈ (l.take n).map yref) : r ∈ l.map yref := by
  rw [List.map_take] at h
  exact List.mem_of_mem_take h

theorem leftScan_post : ∀ (ys : List YNode) (ps : List NUnit) (m : Mapping),
    (ys.map yref).Nodup →
    (leftScan m ys ps).1 ≤ ys.length ∧ (leftScan m ys ps).1 ≤ ps.length ∧
    SyncedL (leftScan m ys ps).2 (ys.take (leftScan m ys ps).1)
      (ps.take (leftScan m ys ps).1) ∧
    (∀ r, r ∉ (ys.take (leftScan m ys ps).1).map yref →
      mget (leftScan m ys ps).2 r = mget m r) := by
  intro ys
  induction ys with
  | nil =>
    intro ps m _
    refine ⟨by simp [leftScan], by simp [leftScan], ?_, ?_⟩
    · simp only [leftScan, List.take_nil, List.take_zero]
      trivial
    · intro r _
      rfl
  | cons y ys ih =>
    intro ps m hnd
    cases ps with
    | nil =>
      refine ⟨by simp [leftScan], by simp [leftScan], ?_, ?_⟩
      · simp only [leftScan, List.take_zero]
        trivial
      · intro r _
        rfl
    | cons p ps =>
      simp only [List.map_cons, List.nodup_cons] at hnd
      obtain ⟨hy, hnd₂⟩ := hnd
      cases hI : mappedIdentity (mget m (yref y)) p with
      | true =>
        have hstep : leftScan m (y :: ys) (p :: ps) =
            ((leftScan m ys ps).1 + 1, (leftScan m ys ps).2) := by
          simp only [leftScan, hI, if_true]
        rw [hstep]
        obtain ⟨ih1, ih2, ih3, ih4⟩ := ih ps m hnd₂
        refine ⟨by simpa using ih1, by simpa using ih2, ?_, ?_⟩
        · simp only [List.take_succ_cons]
          refine ⟨?_, ih3⟩
          left
          rw [ih4 (yref y) (fun hm => hy (map_take_subset hm))]
          exact hI
        · intro r hr
          simp only [List.take_succ_cons, List.map_cons, List.mem_cons] at hr
          push_neg at hr
          exact ih4 r hr.2
      | false =>
        cases hE : equalYTypePNode y p with
        | true =>
          have hstep : leftScan m (y :: ys) (p :: ps) =
              ((leftScan (mset m (yref y) (lvalOfUnit p)) ys ps).1 + 1,
                (leftScan (mset m (yref y) (lvalOfUnit p)) ys ps).2) := by
            simp only [leftScan, hI, Bool.false_eq_true, if_false, hE, if_true]
          rw [hstep]
          obtain ⟨ih1, ih2, ih3, ih4⟩ :=
            ih ps (mset m (yref y) (lvalOfUnit p)) hnd₂
          refine ⟨by simpa using ih1, by simpa using ih2, ?_, ?_⟩
          · simp only [List.take_succ_cons]
            refine ⟨?_, ih3⟩
            left
            rw [ih4 (yref y) (fun hm => hy (map_take_subset hm)), mget_mset_self]
            exact mappedIdentity_lvalOfUnit p
          · intro r hr
            simp only [List.take_succ_cons, List.map_cons, List.mem_cons] at hr
            push_neg at hr
            rw [ih4 r hr.2, mget_mset_ne m (yref y) r (lvalOfUnit p) hr.1]
        | false =>
          have hstep : leftScan m (y :: ys) (p :: ps) = (0, m) := by
            simp only [leftScan, hI, Bool.false_eq_true, if_false, hE]
          rw [hstep]
          refine ⟨by simp, by simp, ?_, fun r _ => rfl⟩
          simp only [List.take_zero]
          trivial

theorem rightScan_post : ∀ (b : Nat) (ys : List YNode) (ps : List NUnit)
    (m : Mapping), (ys.map yref).Nodup →
    (rightScan m ys ps b).1 ≤ ys.length ∧ (rightScan m ys ps b).1 ≤ ps.length ∧
    (rightScan m ys ps b).1 ≤ b ∧
    SyncedL (rightScan m ys ps b).2 (ys.take (rightScan m ys ps b).1)
      (ps.take (rightScan m ys ps b).1) ∧
    (∀ r, r ∉ (ys.take (rightScan m ys ps b).1).map yref →
      mget (rightScan m ys ps b).2 r = mget m r) := by
  intro b
  induction b with
  | zero =>
    intro ys ps m _
    have hstep : rightScan m ys ps 0 = (0, m) := by
      cases ys <;> cases ps <;> rfl
    rw [hstep]
    refine ⟨by simp, by simp, by simp, ?_, fun r _ => rfl⟩
    simp only [List.take_zero]
    trivial
  | succ b ih =>
    intro ys ps m hnd
    cases ys with
    | nil =>
      refine ⟨by simp [rightScan], by simp [rightScan], by simp [rightScan],
        ?_, ?_⟩
      · simp only [rightScan, List.take_nil, List.take_zero]
        trivial
      · intro r _
        rfl
    | cons y ys =>
      cases ps with
      | nil =>
        refine ⟨by simp [rightScan], by simp [rightScan], by simp [rightScan],
          ?_, ?_⟩
        · simp only [rightScan, List.take_zero]
          trivial
        · intro r _
          rfl
      | cons p ps =>
        simp only [List.map_cons, List.nodup_cons] at hnd
        obtain ⟨hy, hnd₂⟩ := hnd
        cases hI : mappedIdentity (mget m (yref y)) p with
        | true =>
          have hstep : rightScan m (y :: ys) (p :: ps) (b + 1) =
              ((rightScan m ys ps b).1 + 1, (rightScan m ys ps b).2) := by
            simp only [rightScan, hI, if_true]
          rw [hstep]
          obtain ⟨ih1, ih2, ih3, ih4, ih5⟩ := ih ys ps m hnd₂
          refine ⟨by simpa using ih1, by simpa using ih2, by omega, ?_, ?_⟩
          · simp only [List.take_succ_cons]
            refine ⟨?_, ih4⟩
            left
            rw [ih5 (yref y) (fun hm => hy (map_take_subset hm))]
            exact hI
          · intro r hr
            simp only [List.take_succ_cons, List.map_cons, List.mem_cons] at hr
            push_neg at hr
            exact ih5 r hr.2
        | false =>
          cases hE : equalYTypePNode y p with
          | true =>
            have hstep : rightScan m (y :: ys) (p :: ps) (b + 1) =
                ((rightScan (mset m (yref y) (lvalOfUnit p)) ys ps b).1 + 1,
                  (rightScan (mset m (yref y) (lvalOfUnit p)) ys ps b).2) := by
              simp only [rightScan, hI, Bool.false_eq_true, if_false, hE, if_true]
            rw [hstep]
            obtain ⟨ih1, ih2, ih3, ih4, ih5⟩ :=
              ih ys ps (mset m (yref y) (lvalOfUnit p)) hnd₂
            refine ⟨by simpa using ih1, by simpa using ih2, by omega, ?_, ?_⟩
            · simp only [List.take_succ_cons]
              refine ⟨?_, ih4⟩
              left
              rw [ih5 (yref y) (fun hm => hy (map_take_subset hm)), mget_mset_self]
              exact mappedIdentity_lvalOfUnit p
            · intro r hr
              simp only [List.take_succ_cons, List.map_cons, List.mem_cons] at hr
              push_neg at hr
              rw [ih5 r hr.2, mget_mset_ne m (yref y) r (lvalOfUnit p) hr.1]
          | false =>
            have hstep : rightScan m (y :: ys) (p :: ps) (b + 1) = (0, m) := by
              simp only [rightScan, hI, Bool.false_eq_true, if_false, hE]
            rw [hstep]
            refine ⟨by simp, by simp, by simp, ?_, fun r _ => rfl⟩
            simp only [List.take_zero]
            trivial

theorem leftScan_full : ∀ (ys : List YNode) (ps : List NUnit) (m : Mapping),
    SyncedL m ys ps → (ys.map yref).Nodup →
    (leftScan m ys ps).1 = ys.length := by
  intro ys
  induction ys with
  | nil =>
    intro ps m h _
    cases ps with
    | nil => rfl
    | cons p ps => simp [SyncedL] at h
  | cons y ys ih =>
    intro ps m h hnd
    cases ps with
    | nil => simp [SyncedL] at h
    | cons p ps =>
      simp only [List.map_cons, List.nodup_cons] at hnd
      obtain ⟨hy, hnd₂⟩ := hnd
      cases hI : mappedIdentity (mget m (yref y)) p with
      | true =>
        have hstep : leftScan m (y :: ys) (p :: ps) =
            ((leftScan m ys ps).1 + 1, (leftScan m ys ps).2) := by
          simp only [leftScan, hI, if_true]
        rw [hstep]
        simp only [List.length_cons]
        rw [ih ps m h.2 hnd₂]
      | false =>
        have hE : equalYTypePNode y p = true := by
          rcases h.1 with hid | heq
          · rw [hI] at hid; exact absurd hid (by simp)
          · exact heq.2
        have hstep : leftScan m (y :: ys) (p :: ps) =
            ((leftScan (mset m (yref y) (lvalOfUnit p)) ys ps).1 + 1,
              (leftScan (mset m (yref y) (lvalOfUnit p)) ys ps).2) := by
          simp only [leftScan, hI, Bool.false_eq_true, if_false, hE, if_true]
        rw [hstep]
        simp only [List.length_cons]
        have h₂ : SyncedL (mset m (yref y) (lvalOfUnit p)) ys ps :=
          SyncedL_transport
            (fun y₂ hm => mget_mset_ne m (yref y) (yref y₂) (lvalOfUnit p)
              (fun hh => hy (hh ▸ List.mem_map.mpr ⟨y₂, hm, rfl⟩))) h.2
        rw [ih ps _ h₂ hnd₂]

theorem createType_post_measure : ∀ (n : Nat),
    (∀ (node : PNode) (st : USt), 3 * sizeP node ≤ n →
      st.nextRef < (createTypeFromElementNode node st).2.nextRef ∧
      yref (createTypeFromElementNode node st).1 = st.nextRef ∧
      (∀ r ∈ refsY (createTypeFromElementNode node st).1,
        st.nextRef ≤ r ∧ r < (createTypeFromElementNode node st).2.nextRef) ∧
      (refsY (createTypeFromElementNode node st).1).Nodup ∧
      (∀ r, r < st.nextRef →
        mget (createTypeFromElementNode node st).2.mapping r =
          mget st.mapping r) ∧
      mget (createTypeFromElementNode node st).2.mapping st.nextRef =
        some (.lnode node)) ∧
    (∀ (us : List NUnit) (st : USt), 3 * sizeNUL us + 2 ≤ n →
      st.nextRef ≤ (createTypeList us st).2.nextRef ∧
      (createTypeList us st).1.length = us.length ∧
      (∀ r ∈ refsY.refsYL (createTypeList us st).1,
        st.nextRef ≤ r ∧ r < (createTypeList us st).2.nextRef) ∧
      (refsY.refsYL (createTypeList us st).1).Nodup ∧
      (∀ r, r < st.nextRef →
        mget (createTypeList us st).2.mapping r = mget st.mapping r) ∧
      SyncedL (createTypeList us st).2.mapping (createTypeList us st).1 us) ∧
    (∀ (u : NUnit) (st : USt), 3 * sizeNU u + 1 ≤ n →
      st.nextRef < (createTypeFromTextOrElementNode u st).2.nextRef ∧
      yref (createTypeFromTextOrElementNode u st).1 = st.nextRef ∧
      (∀ r ∈ refsY (createTypeFromTextOrElementNode u st).1,
        st.nextRef ≤ r ∧ r < (createTypeFromTextOrElementNode u st).2.nextRef) ∧
      (refsY (createTypeFromTextOrElementNode u st).1).Nodup ∧
      (∀ r, r < st.nextRef →
        mget (createTypeFromTextOrElementNode u st).2.mapping r =
          mget st.mapping r) ∧
      mget (createTypeFromTextOrElementNode u st).2.mapping st.nextRef =
        some (lvalOfUnit u)) := by
  intro n
  induction n using Nat.strong_induction_on with
  | _ n ihn =>
  refine ⟨?_, ?_, ?_⟩
  · intro node st hsz
    have hm1 : 3 * sizeNUL (normalizePNodeContent (contentOf node)) + 2 ≤ n - 1 := by
      have h1 := sizeNUL_normalize_le (contentOf node)
      have h2 := sizePL_lt_sizeP node
      omega
    obtain ⟨c1, c2, c3, c4, c5, c6⟩ :=
      (ihn (n - 1) (by have := sizeP_pos node; omega)).2.1
        (normalizePNodeContent (contentOf node))
        { st with nextRef := st.nextRef + 1 } hm1
    simp only [createTypeFromElementNode]
    refine ⟨by simpa using c1, rfl, ?_, ?_, ?_, ?_⟩
    · intro r hr
      simp only [refsY, List.mem_cons] at hr
      rcases hr with rfl | hr
      · try simp only []
        refine ⟨le_refl _, ?_⟩
        have := c1
        simp only [] at this
        omega
      · have := c3 r hr
        simp only [] at this
        omega
    · simp only [refsY, List.nodup_cons]
      refine ⟨?_, c4⟩
      intro hmem
      have := (c3 _ hmem).1
      simp only [] at this
      omega
    · intro r hr
      try simp only []
      rw [mget_mset_ne _ _ _ _ (by omega)]
      exact c5 r (by simp only []; omega)
    · try simp only []
      exact mget_mset_self _ _ _
  · intro us st hsz
    cases us with
    | nil =>
      simp [createTypeList, refsY.refsYL, SyncedL]
    | cons u rest =>
      have hszu : 3 * sizeNU u + 1 ≤ n - 1 := by
        have h1 := sizeNU_pos u
        have h2 : sizeNUL (u :: rest) = sizeNU u + sizeNUL rest := rfl
        omega
      obtain ⟨u1, u2, u3, u4, u5, u6⟩ :=
        (ihn (n - 1) (by have := sizeNU_pos u; simp [sizeNUL] at hsz; omega)).2.2
          u st hszu
      have hszr : 3 * sizeNUL rest + 2 ≤ n - 1 := by
        have h1 := sizeNU_pos u
        have h2 : sizeNUL (u :: rest) = sizeNU u + sizeNUL rest := rfl
        omega
      obtain ⟨l1, l2, l3, l4, l5, l6⟩ :=
        (ihn (n - 1) (by have := sizeNU_pos u; simp [sizeNUL] at hsz; omega)).2.1
          rest (createTypeFromTextOrElementNode u st).2 hszr
      simp only [createTypeList]
      refine ⟨by omega, by simp [l2], ?_, ?_, ?_, ?_⟩
      · intro r hr
        simp only [refsY.refsYL, List.mem_append] at hr
        rcases hr with hr | hr
        · have := u3 r hr
          omega
        · have := l3 r hr
          omega
      · simp only [refsY.refsYL]
        rw [List.nodup_append]
        refine ⟨u4, l4, ?_⟩
        intro r hr₁ hr₂
        have h1 := u3 r hr₁
        have h2 := l3 r hr₂
        omega
      · intro r hr
        rw [l5 r (by omega), u5 r hr]
      · refine ⟨?_, l6⟩
        left
        rw [u2]
        have : mget (createTypeList rest (createTypeFromTextOrElementNode u st).2).2.mapping
            st.nextRef = some (lvalOfUnit u) := by
          rw [l5 st.nextRef u1]
          exact u6
        rw [this]
        exact mappedIdentity_lvalOfUnit u
  · intro u st hsz
    cases u with
    | group ts =>
      simp only [createTypeFromTextOrElementNode, createTypeFromTextNodes]
      refine ⟨by simp, rfl, ?_, by simp [refsY], ?_, ?_⟩
      · intro r hr
        simp only [refsY, List.mem_singleton] at hr
        subst hr
        simp
      · intro r hr
        try simp only []
        exact mget_mset_ne _ _ _ _ (by omega)
      · simp only [lvalOfUnit]
        exact mget_mset_self _ _ _
    | single node =>
      have hszn : 3 * sizeP node ≤ n - 1 := by
        simp only [sizeNU] at hsz
        omega
      obtain ⟨e1, e2, e3, e4, e5, e6⟩ :=
        (ihn (n - 1) (by have := sizeP_pos node; simp [sizeNU] at hsz; omega)).1
          node st hszn
      simp only [createTypeFromTextOrElementNode]
      exact ⟨e1, e2, e3, e4, e5, e6⟩

theorem createTypeList_post (us : List NUnit) (st : USt) :
    st.nextRef ≤ (createTypeList us st).2.nextRef ∧
    (createTypeList us st).1.length = us.length ∧
    (∀ r ∈ refsY.refsYL (createTypeList us st).1,
      st.nextRef ≤ r ∧ r < (createTypeList us st).2.nextRef) ∧
    (refsY.refsYL (createTypeList us st).1).Nodup ∧
    (∀ r, r < st.nextRef →
      mget (createTypeList us st).2.mapping r = mget st.mapping r) ∧
    SyncedL (createTypeList us st).2.mapping (createTypeList us st).1 us :=
  (createType_post_measure (3 * sizeNUL us + 2)).2.1 us st (le_refl _)

theorem createTypeFromTextOrElementNode_post (u : NUnit) (st : USt) :
    st.nextRef < (createTypeFromTextOrElementNode u st).2.nextRef ∧
    yref (createTypeFromTextOrElementNode u st).1 = st.nextRef ∧
    (∀ r ∈ refsY (createTypeFromTextOrElementNode u st).1,
      st.nextRef ≤ r ∧ r < (createTypeFromTextOrElementNode u st).2.nextRef) ∧
    (refsY (createTypeFromTextOrElementNode u st).1).Nodup ∧
    (∀ r, r < st.nextRef →
      mget (createTypeFromTextOrElementNode u st).2.mapping r =
        mget st.mapping r) ∧
    mget (createTypeFromTextOrElementNode u st).2.mapping st.nextRef =
      some (lvalOfUnit u) :=
  (createType_post_measure (3 * sizeNU u + 1)).2.2 u st (le_refl _)

theorem pWFL_iff (l : List PNode) : pWFL l ↔ ∀ x ∈ l, pWF x := by
  induction l with
  | nil => simp [pWFL]
  | cons x xs ih =>
    simp only [pWFL, ih, List.mem_cons]
    constructor
    · rintro ⟨h1, h2⟩ y (rfl | hm)
      · exact h1
      · exact h2 y hm
    · intro h
      exact ⟨h x (Or.inl rfl), fun y hm => h y (Or.inr hm)⟩

theorem pWFUL_iff (l : List NUnit) : pWFUL l ↔ ∀ u ∈ l, pWFU u := by
  induction l with
  | nil => simp [pWFUL]
  | cons x xs ih =>
    simp only [pWFUL, ih, List.mem_cons]
    constructor
    · rintro ⟨h1, h2⟩ y (rfl | hm)
      · exact h1
      · exact h2 y hm
    · intro h
      exact ⟨h x (Or.inl rfl), fun y hm => h y (Or.inr hm)⟩

theorem pWFUL_normalize : ∀ (n : Nat) (c : List PNode), c.length ≤ n →
    pWFL c → pWFUL (normalizePNodeContent c) := by
  intro n
  induction n with
  | zero =>
    intro c hc _
    have : c = [] := List.length_eq_zero.mp (Nat.le_zero.mp hc)
    subst this
    simp [normalizePNodeContent, pWFUL]
  | succ n ih =>
    intro c hc hwf
    cases c with
    | nil => simp [normalizePNodeContent, pWFUL]
    | cons x rest =>
      cases ht : isText x with
      | true =>
        have hstep : normalizePNodeContent (x :: rest) =
            .group (x :: rest.takeWhile isText) ::
              normalizePNodeContent (rest.dropWhile isText) := by
          simp only [normalizePNodeContent, ht, if_true]
        rw [hstep]
        refine ⟨?_, ?_⟩
        · refine (pWFL_iff _).mpr ?_
          intro y hy
          rcases List.mem_cons.mp hy with rfl | hm
          · exact hwf.1
          · exact (pWFL_iff rest).mp hwf.2 y
              ((List.takeWhile_sublist isText).mem hm)
        · refine ih (rest.dropWhile isText) ?_ ?_
          · have := List.Sublist.length_le (List.dropWhile_sublist (l := rest)
              (p := isText))
            simp only [List.length_cons] at hc
            omega
          · exact (pWFL_iff _).mpr fun y hm =>
              (pWFL_iff rest).mp hwf.2 y
                ((List.dropWhile_sublist (l := rest) (p := isText)).mem hm)
      | false =>
        have hstep : normalizePNodeContent (x :: rest) =
            .single x :: normalizePNodeContent rest := by
          simp only [normalizePNodeContent, ht, Bool.false_eq_true, if_false]
        rw [hstep]
        refine ⟨hwf.1, ih rest ?_ hwf.2⟩
        simp only [List.length_cons] at hc
        omega

theorem take_mid_drop {α : Type} (l : List α) (L R : Nat) (h : L + R ≤ l.length) :
    l.take L ++ midSlice l L R ++ l.drop (l.length - R) = l := by
  have h1 : l.drop (l.length - R) = (l.drop L).drop (l.length - L - R) := by
    rw [List.drop_drop]
    congr 1
    omega
  rw [h1]
  simp only [midSlice]
  rw [List.append_assoc, List.take_append_drop, List.take_append_drop]

theorem midSlice_length {α : Type} (l : List α) (L R : Nat) (h : L + R ≤ l.length) :
    (midSlice l L R).length = l.length - L - R := by
  simp only [midSlice, List.length_take, List.length_drop]
  omega

theorem reverse_take_rev {α : Type} (l : List α) (R : Nat) (h : R ≤ l.length) :
    l.reverse.take R = (l.drop (l.length - R)).reverse := by
  rw [List.reverse_drop]
  congr 1
  omega


/-- The right matching loop with an empty budget does nothing and
cannot throw. -/
theorem rsThrows_zero (m : Mapping) (ys : List YNode) (ps : List NUnit) :
    rsThrows m ys ps 0 = false := by
  cases ys <;> cases ps <;> simp [rsThrows]

/-- The right matching loop with an empty budget returns no matches. -/
theorem rightScan_zero (m : Mapping) (ys : List YNode) (ps : List NUnit) :
    rightScan m ys ps 0 = (0, m) := by
  cases ys <;> cases ps <;> rfl

/-- On reconciled child lists the left matching loop never throws:
identity pairs are consumed without comparison, and the remaining
pairs carry a recorded non-throwing true comparison. -/
theorem lsThrows_synced : ∀ (ys : List YNode) (ps : List NUnit) (m : Mapping),
    SyncedL m ys ps → (ys.map yref).Nodup → lsThrows m ys ps = false := by
  intro ys
  induction ys with
  | nil =>
    intro ps m h _
    cases ps with
    | nil => simp [lsThrows]
    | cons p ps => simp [SyncedL] at h
  | cons y ys ih =>
    intro ps m h hnd
    cases ps with
    | nil => simp [SyncedL] at h
    | cons p ps =>
      simp only [List.map_cons, List.nodup_cons] at hnd
      obtain ⟨hy, hnd₂⟩ := hnd
      rw [lsThrows]
      split
      · exact ih ps m h.2 hnd₂
      · rename_i hI
        have hE : eqThrows y p = false ∧ equalYTypePNode y p = true := by
          rcases h.1 with hid | heq
          · exact absurd hid hI
          · exact heq
        rw [hE.1, hE.2]
        simp only [Bool.false_eq_true, if_false, eq_self_iff_true, if_true]
        exact ih ps _ (SyncedL_transport (fun y₂ hm =>
          mget_mset_ne m (yref y) (yref y₂) (lvalOfUnit p)
            (fun hh => hy (hh ▸ List.mem_map.mpr ⟨y₂, hm, rfl⟩))) h.2) hnd₂

/-- `setYChildren` keeps identity, name and kind. -/
theorem setYChildren_shape (y : YNode) (a : Attrs) (cs : List YNode) :
    yref (setYChildren y a cs) = yref y ∧
    ynameOf (setYChildren y a cs) = ynameOf y ∧
    isYEl (setYChildren y a cs) = isYEl y ∧
    isYText (setYChildren y a cs) = isYText y := by
  cases y <;> simp [setYChildren, yref, ynameOf, isYEl, isYText]

theorem ychildren_setYChildren (y : YNode) (a : Attrs) (cs : List YNode)
    (hty : isYText y = false) : ychildren (setYChildren y a cs) = cs := by
  cases y <;> simp_all [setYChildren, ychildren, isYText]

theorem yattrsOf_setYChildren (y : YNode) (a : Attrs) (cs : List YNode)
    (hel : isYEl y = true) : yattrsOf (setYChildren y a cs) = a := by
  cases y <;> simp_all [setYChildren, yattrsOf, isYEl]

theorem refsY_setYChildren (y : YNode) (a : Attrs) (cs : List YNode)
    (hty : isYText y = false) :
    refsY (setYChildren y a cs) = yref y :: refsY.refsYL cs := by
  cases y <;> simp_all [setYChildren, refsY, yref, isYText]

theorem refsY_decomp (y : YNode) (hty : isYText y = false) :
    refsY y = yref y :: refsY.refsYL (ychildren y) := by
  cases y <;> simp_all [refsY, yref, ychildren, isYText]

theorem setYChildren_self (y : YNode) :
    setYChildren y (yattrsOf y) (ychildren y) = y := by
  cases y <;> simp [setYChildren, yattrsOf, ychildren]

theorem isYText_of_isYEl {y : YNode} (h : isYEl y = true) : isYText y = false := by
  cases y <;> simp_all [isYEl, isYText]

theorem refsYL_singleton (y : YNode) : refsY.refsYL [y] = refsY y := by
  simp [refsY.refsYL]

theorem refsYL_sublist : ∀ {l₁ l₂ : List YNode}, l₁.Sublist l₂ →
    (refsY.refsYL l₁).Sublist (refsY.refsYL l₂) := by
  intro l₁ l₂ h
  induction h with
  | slnil => exact List.Sublist.refl _
  | cons a hs ih =>
    exact ih.trans (by
      simp only [refsY.refsYL]
      exact List.sublist_append_right _ _)
  | cons₂ a hs ih =>
    simp only [refsY.refsYL]
    exact ih.append_left _

/-- When the stored value is already the one being written, the write
changes no lookup. -/
theorem mget_mset_pointwise (m : Mapping) (r : Nat) (v : LVal)
    (h : mget m r = some v) : ∀ r₂, mget (mset m r v) r₂ = mget m r₂ := by
  intro r₂
  by_cases hr : r₂ = r
  · subst hr; rw [mget_mset_self, h]
  · exact mget_mset_ne m r r₂ v hr

theorem pWFL_contentOf {p : PNode} (h : pWF p) : pWFL (contentOf p) := by
  cases p with
  | node n a c r => exact h.2
  | ptext s ms r => trivial

theorem pWFUL_sublist {l₁ l₂ : List NUnit} (hs : l₁.Sublist l₂)
    (h : pWFUL l₂) : pWFUL l₁ :=
  (pWFUL_iff _).mpr fun u hu => (pWFUL_iff _).mp h u (hs.subset hu)

theorem midSlice_sublist {α : Type} (l : List α) (a b : Nat) :
    (midSlice l a b).Sublist l :=
  (List.take_sublist _ _).trans (List.drop_sublist _ _)

theorem refsYL_decomp3 (ys : List YNode) (L R : Nat) (h : L + R ≤ ys.length) :
    refsY.refsYL (ys.take L) ++ refsY.refsYL (midSlice ys L R) ++
      refsY.refsYL (ys.drop (ys.length - R)) = refsY.refsYL ys := by
  conv_rhs => rw [← take_mid_drop ys L R h]
  rw [refsYL_append, refsYL_append]


theorem attrsOf_nodup {p : PNode} (h : pWF p) :
    ((attrsOf p).map Prod.fst).Nodup := by
  cases p with
  | node n a c r => exact h.1
  | ptext s ms r => simp [attrsOf]

theorem nodup_three_disjoint {α : Type} {A B C : List α}
    (h : (A ++ B ++ C).Nodup) :
    A.Nodup ∧ B.Nodup ∧ C.Nodup ∧
    (∀ a ∈ A, a ∉ B) ∧ (∀ a ∈ A, a ∉ C) ∧ (∀ a ∈ B, a ∉ C) := by
  rcases List.nodup_append.mp h with ⟨hab, hc, hdisj⟩
  rcases List.nodup_append.mp hab with ⟨ha, hb, hab2⟩
  refine ⟨ha, hb, hc, hab2, ?_, ?_⟩
  · intro a haA hc'
    exact hdisj (List.mem_append.mpr (Or.inl haA)) hc'
  · intro a haB hc'
    exact hdisj (List.mem_append.mpr (Or.inr haB)) hc'

/-- The state after a completed run of the reconciler: shape and
identity of the root are preserved, the identity counter only grows,
the result's identities are the old ones or freshly allocated ones and
stay distinct, lookups outside the processed subtree are untouched,
the root is identity-mapped to the local node, the root attributes are
synchronized (for elements), and the children are pairwise reconciled
with the normalized local content; the middle loop satisfies the
list-level analogue. -/
theorem updateYFragment_post_measure : ∀ (n : Nat),
    (∀ (y : YNode) (p : PNode) (st : USt) (y' : YNode) (st' : USt),
      3 * sizeP p + 1 ≤ n →
      updateYFragment y p st = Except.ok (y', st') →
      isYText y = false →
      (refsY y).Nodup →
      (∀ r ∈ refsY y, r < st.nextRef) →
      pWF p →
      yref y' = yref y ∧
      ynameOf y' = ynameOf y ∧
      isYEl y' = isYEl y ∧
      isYText y' = isYText y ∧
      st.nextRef ≤ st'.nextRef ∧
      (∀ r ∈ refsY y', r ∈ refsY y ∨ (st.nextRef ≤ r ∧ r < st'.nextRef)) ∧
      (refsY y').Nodup ∧
      (∀ r, r ∉ refsY y → r < st.nextRef →
        mget st'.mapping r = mget st.mapping r) ∧
      mget st'.mapping (yref y) = some (LVal.lnode p) ∧
      (isYEl y = true → AttrsSynced (yattrsOf y') (attrsOf p)) ∧
      SyncedL st'.mapping (ychildren y') (normalizePNodeContent (contentOf p))) ∧
    (∀ (fragRef idx : Nat) (ys : List YNode) (ps : List NUnit) (st : USt)
        (res : List YNode) (st' : USt),
      3 * sizeNUL ps + 2 ≤ n →
      middleLoop fragRef idx ys ps st = Except.ok (res, st') →
      (refsY.refsYL ys).Nodup →
      (∀ r ∈ refsY.refsYL ys, r < st.nextRef) →
      pWFUL ps →
      st.nextRef ≤ st'.nextRef ∧
      res.length = ps.length ∧
      (∀ r ∈ refsY.refsYL res, r ∈ refsY.refsYL ys ∨
        (st.nextRef ≤ r ∧ r < st'.nextRef)) ∧
      (refsY.refsYL res).Nodup ∧
      (∀ r, r ∉ refsY.refsYL ys → r < st.nextRef →
        mget st'.mapping r = mget st.mapping r) ∧
      SyncedL st'.mapping res ps) := by
  intro n
  induction n using Nat.strong_induction_on with
  | _ n ihn =>
  constructor
  · intro y p st y' st' hm hok hty hnd hlt hwf
    have hc : (isYEl y && (ynameOf y != pName p)) = false := by
      by_contra hcon
      rw [updateYFragment,
        if_pos (by revert hcon; cases (isYEl y && (ynameOf y != pName p)) <;> simp)] at hok
      exact Except.noConfusion hok
    rw [updateYFragment] at hok
    simp only [hc, Bool.false_eq_true, if_false] at hok
    obtain ⟨na, stA, harr, hAm, hAn, hAsync⟩ :
        ∃ na stA, (if isYEl y = true then
            updateAttrs (yref y) (yattrsOf y) (attrsOf p)
              { st with mapping := mset st.mapping (yref y) (LVal.lnode p) }
          else (yattrsOf y,
            { st with mapping := mset st.mapping (yref y) (LVal.lnode p) })) =
            (na, stA) ∧
          stA.mapping = mset st.mapping (yref y) (LVal.lnode p) ∧
          stA.nextRef = st.nextRef ∧
          (isYEl y = true → AttrsSynced na (attrsOf p)) := by
      split
      · refine ⟨_, _, rfl, (updateAttrs_state _ _ _ _).1,
          (updateAttrs_state _ _ _ _).2, fun _ => ?_⟩
        exact updateAttrs_establishes _ _ _ _ (attrsOf_nodup hwf)
      · rename_i hne
        refine ⟨_, _, rfl, rfl, rfl, fun hel => absurd hel hne⟩
    rw [harr] at hok
    dsimp only at hok
    split at hok
    · exact Except.noConfusion hok
    split at hok
    · exact Except.noConfusion hok
    split at hok
    · exact Except.noConfusion hok
    rename_i res₀ hmid
    injection hok with hpair
    injection hpair with hy' hst'
    subst hy'
    subst hst'
    -- abbreviations
    set pCh := normalizePNodeContent (contentOf p) with hpCh
    set yCh := ychildren y with hyCh
    set ls := leftScan stA.mapping yCh pCh with hlsdef
    set B := min pCh.length yCh.length - ls.1 - 1 with hBdef
    set rs := rightScan ls.2 yCh.reverse pCh.reverse B with hrsdef
    -- basic ref facts
    have hrdec := refsY_decomp y hty
    have hndc : (refsY.refsYL yCh).Nodup := by
      rw [hrdec] at hnd
      exact (List.nodup_cons.mp hnd).2
    have hroot : yref y ∉ refsY.refsYL yCh := by
      rw [hrdec] at hnd
      exact (List.nodup_cons.mp hnd).1
    have hrootlt : yref y < st.nextRef :=
      hlt _ (by rw [hrdec]; exact List.mem_cons_self _ _)
    have hltc : ∀ r ∈ refsY.refsYL yCh, r < st.nextRef := by
      intro r hr
      exact hlt r (by rw [hrdec]; exact List.mem_cons_of_mem _ hr)
    have htops : (yCh.map yref).Nodup := tops_nodup_of_refsYL_nodup _ hndc
    have htopsR : (yCh.reverse.map yref).Nodup := by
      rw [List.map_reverse]
      exact List.nodup_reverse.mpr htops
    -- scan postconditions
    obtain ⟨hl1, hl2, hl3, hl4⟩ := leftScan_post yCh pCh stA.mapping htops
    rw [← hlsdef] at hl1 hl2 hl3 hl4
    obtain ⟨hr1, hr2, hr3, hr4, hr5⟩ :=
      rightScan_post B yCh.reverse pCh.reverse ls.2 htopsR
    rw [← hrsdef] at hr1 hr2 hr3 hr4 hr5
    have hsum : ls.1 + rs.1 ≤ yCh.length ∧ ls.1 + rs.1 ≤ pCh.length := by
      rw [hBdef] at hr3
      have h2 : min pCh.length yCh.length ≤ pCh.length := Nat.min_le_left _ _
      have h3 : min pCh.length yCh.length ≤ yCh.length := Nat.min_le_right _ _
      omega
    have hydec := take_mid_drop yCh ls.1 rs.1 hsum.1
    have hpdec := take_mid_drop pCh ls.1 rs.1 hsum.2
    -- segment disjointness of the deep identity lists
    have hdec3 := refsYL_decomp3 yCh ls.1 rs.1 hsum.1
    obtain ⟨dT, dM, dD, dTM, dTD, dMD⟩ :=
      nodup_three_disjoint (hdec3 ▸ hndc)
    -- the suffix walked by the right scan is the reversed drop part
    have hsufY : yCh.reverse.take rs.1 =
        (yCh.drop (yCh.length - rs.1)).reverse :=
      reverse_take_rev yCh rs.1 (by omega)
    have hsufP : pCh.reverse.take rs.1 =
        (pCh.drop (pCh.length - rs.1)).reverse :=
      reverse_take_rev pCh rs.1 (by omega)
    -- frame of the two scans on anything outside the children
    have hframe_scans : ∀ r, r ∉ refsY.refsYL yCh →
        mget rs.2 r = mget stA.mapping r := by
      intro r hr
      have hT : r ∉ (yCh.take ls.1).map yref := by
        intro hmem
        obtain ⟨y₂, hy₂, rfl⟩ := List.mem_map.mp hmem
        exact hr (topRef_mem_refsYL (List.mem_of_mem_take hy₂))
      have hS : r ∉ (yCh.reverse.take rs.1).map yref := by
        intro hmem
        obtain ⟨y₂, hy₂, rfl⟩ := List.mem_map.mp hmem
        exact hr (topRef_mem_refsYL
          (List.mem_reverse.mp (List.mem_of_mem_take hy₂)))
      rw [hr5 r hS, hl4 r hT]
    -- membership helpers for the three segments
    have hmemT : ∀ y₂ ∈ yCh.take ls.1, yref y₂ ∈ refsY.refsYL (yCh.take ls.1) :=
      fun y₂ h => topRef_mem_refsYL h
    have hmemD : ∀ y₂ ∈ yCh.drop (yCh.length - rs.1),
        yref y₂ ∈ refsY.refsYL (yCh.drop (yCh.length - rs.1)) :=
      fun y₂ h => topRef_mem_refsYL h
    -- the middle loop postcondition
    have hkey : 3 * sizeNUL (midSlice pCh ls.1 rs.1) + 2 < n := by
      have h1 := sizeNUL_midSlice_le pCh ls.1 rs.1
      have h2 : sizeNUL pCh ≤ sizeP.sizePL (contentOf p) := by
        rw [hpCh]; exact sizeNUL_normalize_le (contentOf p)
      have h3 := sizePL_lt_sizeP p
      omega
    have hndmid : (refsY.refsYL (midSlice yCh ls.1 rs.1)).Nodup :=
      (refsYL_sublist (midSlice_sublist yCh ls.1 rs.1)).nodup hndc
    have hltmid : ∀ r ∈ refsY.refsYL (midSlice yCh ls.1 rs.1), r < st.nextRef :=
      fun r hr => hltc r
        ((refsYL_sublist (midSlice_sublist yCh ls.1 rs.1)).subset hr)
    have hwfmid : pWFUL (midSlice pCh ls.1 rs.1) :=
      pWFUL_sublist (midSlice_sublist pCh ls.1 rs.1)
        (by rw [hpCh]
            exact pWFUL_normalize (contentOf p).length (contentOf p)
              (le_refl _) (pWFL_contentOf hwf))
    obtain ⟨m1, m2, m3, m4, m5, m6⟩ :=
      (ihn _ hkey).2 (yref y) ls.1 (midSlice yCh ls.1 rs.1)
        (midSlice pCh ls.1 rs.1) { stA with mapping := rs.2 } res₀.1 res₀.2
        (le_refl _) hmid hndmid (by simpa [hAn] using hltmid) hwfmid
    have hstAn : ({ stA with mapping := rs.2 } : USt).nextRef = st.nextRef := hAn
    rw [hstAn] at m1 m3 m5
    -- transport of the prefix pairs to the final mapping
    have hpref1 : SyncedL rs.2 (yCh.take ls.1) (pCh.take ls.1) := by
      refine SyncedL_transport (fun y₂ hm2 => ?_) hl3
      refine hr5 _ (fun hmem => ?_)
      obtain ⟨y₃, hy₃, heq3⟩ := List.mem_map.mp hmem
      rw [hsufY] at hy₃
      exact dTD _ (hmemT y₂ hm2)
        (heq3 ▸ topRef_mem_refsYL (List.mem_reverse.mp hy₃))
    have hprefT : SyncedL res₀.2.mapping (yCh.take ls.1) (pCh.take ls.1) := by
      refine SyncedL_transport (fun y₂ hm2 => ?_) hpref1
      have hin : yref y₂ ∈ refsY.refsYL (yCh.take ls.1) := hmemT y₂ hm2
      refine m5 _ (fun hmem => dTM _ hin hmem) ?_
      refine hltc _ ?_
      rw [← hdec3]
      exact List.mem_append.mpr (Or.inl (List.mem_append.mpr (Or.inl hin)))
    -- the suffix pairs, un-reversed and transported
    have hsufT : SyncedL res₀.2.mapping (yCh.drop (yCh.length - rs.1))
        (pCh.drop (pCh.length - rs.1)) := by
      have h0 := SyncedL_reverse hr4
      rw [hsufY, hsufP, List.reverse_reverse, List.reverse_reverse] at h0
      refine SyncedL_transport (fun y₂ hm2 => ?_) h0
      have hin : yref y₂ ∈ refsY.refsYL (yCh.drop (yCh.length - rs.1)) :=
        hmemD y₂ hm2
      refine m5 _ (fun hmem => dMD _ hmem hin) ?_
      exact hltc _ (by rw [← hdec3]; exact List.mem_append.mpr (Or.inr hin))
    -- children of the result
    have hchildren : ychildren (setYChildren y na
        (yCh.take ls.1 ++ res₀.1 ++ yCh.drop (yCh.length - rs.1))) =
        yCh.take ls.1 ++ res₀.1 ++ yCh.drop (yCh.length - rs.1) :=
      ychildren_setYChildren y na _ hty
    have hrefs' : refsY (setYChildren y na
        (yCh.take ls.1 ++ res₀.1 ++ yCh.drop (yCh.length - rs.1))) =
        yref y :: (refsY.refsYL (yCh.take ls.1) ++ refsY.refsYL res₀.1 ++
          refsY.refsYL (yCh.drop (yCh.length - rs.1))) := by
      rw [refsY_setYChildren y na _ hty, refsYL_append, refsYL_append]
    obtain ⟨hs1, hs2, hs3, hs4⟩ := setYChildren_shape y na
      (yCh.take ls.1 ++ res₀.1 ++ yCh.drop (yCh.length - rs.1))
    refine ⟨hs1, hs2, hs3, hs4, le_trans (le_of_eq hAn.symm) (hAn ▸ m1), ?_, ?_, ?_, ?_, ?_, ?_⟩
    · -- identities of the result
      intro r hr
      rw [hrefs'] at hr
      rcases List.mem_cons.mp hr with rfl | hr
      · exact Or.inl (yref_mem_refsY y)
      rcases List.mem_append.mp hr with hr | hrD
      rcases List.mem_append.mp hr with hrT | hrR
      · exact Or.inl (by rw [hrdec]
                         exact List.mem_cons_of_mem _
                           ((refsYL_sublist (List.take_sublist _ _)).subset hrT))
      · rcases m3 r hrR with hold | hfresh
        · exact Or.inl (by rw [hrdec]
                           exact List.mem_cons_of_mem _
                             ((refsYL_sublist (midSlice_sublist yCh ls.1 rs.1)).subset hold))
        · exact Or.inr hfresh
      · exact Or.inl (by rw [hrdec]
                         exact List.mem_cons_of_mem _
                           ((refsYL_sublist (List.drop_sublist _ _)).subset hrD))
    · -- distinct identities in the result
      rw [hrefs']
      rw [List.nodup_cons]
      constructor
      · intro hmem
        rcases List.mem_append.mp hmem with hmem | hD
        rcases List.mem_append.mp hmem with hT | hR
        · exact hroot ((refsYL_sublist (List.take_sublist _ _)).subset hT)
        · rcases m3 _ hR with hold | hfresh
          · exact hroot ((refsYL_sublist (midSlice_sublist yCh ls.1 rs.1)).subset hold)
          · omega
        · exact hroot ((refsYL_sublist (List.drop_sublist _ _)).subset hD)
      rw [List.nodup_append, List.nodup_append]
      refine ⟨⟨dT, m4, ?_⟩, dD, ?_⟩
      · intro a haT haR
        rcases m3 a haR with hold | hfresh
        · exact dTM a haT hold
        · have := hltc a ((refsYL_sublist (List.take_sublist _ _)).subset haT)
          omega
      · intro a ha haD
        rcases List.mem_append.mp ha with haT | haR
        · exact dTD a haT haD
        · rcases m3 a haR with hold | hfresh
          · exact dMD a hold haD
          · have := hltc a ((refsYL_sublist (List.drop_sublist _ _)).subset haD)
            omega
    · -- frame outside the processed subtree
      intro r hrout hrlt
      have hrc : r ∉ refsY.refsYL yCh := by
        intro hmem
        exact hrout (by rw [hrdec]; exact List.mem_cons_of_mem _ hmem)
      have hrm : r ∉ refsY.refsYL (midSlice yCh ls.1 rs.1) := by
        intro hmem
        exact hrc ((refsYL_sublist (midSlice_sublist yCh ls.1 rs.1)).subset hmem)
      rw [m5 r hrm hrlt]
      show mget rs.2 r = mget st.mapping r
      rw [hframe_scans r hrc, hAm]
      refine mget_mset_ne _ _ _ _ (fun hh => ?_)
      exact hrout (hh ▸ yref_mem_refsY y)
    · -- the root stays identity-mapped
      have hrm : yref y ∉ refsY.refsYL (midSlice yCh ls.1 rs.1) := by
        intro hmem
        exact hroot ((refsYL_sublist (midSlice_sublist yCh ls.1 rs.1)).subset hmem)
      rw [m5 _ hrm hrootlt]
      show mget rs.2 (yref y) = some (LVal.lnode p)
      rw [hframe_scans _ hroot, hAm]
      exact mget_mset_self _ _ _
    · -- synchronized attributes
      intro hel
      rw [yattrsOf_setYChildren y na _ hel]
      exact hAsync hel
    · -- reconciled children
      rw [hchildren, ← hpdec]
      exact SyncedL_append (SyncedL_append hprefT m6) hsufT
  · intro fragRef idx ys ps st res st' hm hok hnd hlt hwf
    rcases ys with _ | ⟨leftY, yrest⟩ <;> rcases ps with _ | ⟨leftP, prest⟩
    · rw [middleLoop] at hok
      injection hok with hpair
      injection hpair with hres hst
      subst hres
      subst hst
      exact ⟨le_refl _, rfl, by intro r hr; simp [refsY.refsYL] at hr,
        by simp [refsY.refsYL], fun r _ _ => rfl, trivial⟩
    · rw [middleLoop] at hok
      injection hok with hpair
      injection hpair with hres hst
      subst hres
      subst hst
      obtain ⟨c1, c2, c3, c4, c5, c6⟩ := createTypeList_post (leftP :: prest) st
      refine ⟨c1, c2, ?_, c4, ?_, c6⟩
      · intro r hr
        exact Or.inr (c3 r hr)
      · intro r _ hr
        exact c5 r hr
    · rw [middleLoop] at hok
      injection hok with hpair
      injection hpair with hres hst
      subst hres
      subst hst
      exact ⟨le_refl _, rfl, by intro r hr; simp [refsY.refsYL] at hr,
        by simp [refsY.refsYL], fun r _ _ => rfl, trivial⟩
    · have hndL : (refsY leftY).Nodup := by
        simp only [refsY.refsYL] at hnd
        exact (List.nodup_append.mp hnd).1
      have hndrest : (refsY.refsYL yrest).Nodup := by
        simp only [refsY.refsYL] at hnd
        exact (List.nodup_append.mp hnd).2.1
      have hdisj : ∀ r ∈ refsY leftY, r ∉ refsY.refsYL yrest := by
        simp only [refsY.refsYL] at hnd
        exact fun r hr hm2 => (List.nodup_append.mp hnd).2.2 hr hm2
      have hltL : ∀ r ∈ refsY leftY, r < st.nextRef := fun r hr =>
        hlt r (by simp only [refsY.refsYL]
                  exact List.mem_append.mpr (Or.inl hr))
      have hltrest : ∀ r ∈ refsY.refsYL yrest, r < st.nextRef := fun r hr =>
        hlt r (by simp only [refsY.refsYL]
                  exact List.mem_append.mpr (Or.inr hr))
      have htail : 3 * sizeNUL prest + 2 < n := by
        have := sizeNU_pos leftP
        simp [sizeNUL] at hm
        omega
      have hcatch : (∀ (runs : List Run) (tref : Nat) (ts : List PNode),
          leftY = YNode.ytx runs tref → leftP = NUnit.group ts → False) →
          middleLoop fragRef idx (leftY :: yrest) (leftP :: prest) st =
            Except.ok (res, st') →
          st.nextRef ≤ st'.nextRef ∧
            res.length = (leftP :: prest).length ∧
            (∀ r ∈ refsY.refsYL res, r ∈ refsY.refsYL (leftY :: yrest) ∨
              (st.nextRef ≤ r ∧ r < st'.nextRef)) ∧
            (refsY.refsYL res).Nodup ∧
            (∀ r, r ∉ refsY.refsYL (leftY :: yrest) → r < st.nextRef →
              mget st'.mapping r = mget st.mapping r) ∧
            SyncedL st'.mapping res (leftP :: prest) := by
        intro hnotext hok2
        rw [middleLoop] at hok2
        split at hok2
        · exact Except.noConfusion hok2
        · rename_i choice hco
          split at hok2
          · rename_i h1
            split at hok2
            · exact Except.noConfusion hok2
            · rename_i r₁ hupd
              split at hok2
              · exact Except.noConfusion hok2
              · rename_i res₀ hmid
                injection hok2 with hpair
                injection hpair with hres hst
                subst hres
                subst hst
                have huL := choiceOrThrow_fst _ _ _ _ _ _ hco h1
                obtain ⟨hel, hmn⟩ := Bool.and_eq_true_iff.mp huL
                obtain ⟨pn, rfl⟩ : ∃ pn, leftP = NUnit.single pn := by
                  cases leftP with
                  | single pn => exact ⟨pn, rfl⟩
                  | group ts => simp [matchNodeName] at hmn
                have hsz : 3 * sizeP pn + 1 < n := by
                  simp [sizeNUL, sizeNU] at hm
                  omega
                obtain ⟨u1, u2, u3, u4, u5, u6, u7, u8, u9, u10, u11⟩ :=
                  (ihn _ hsz).1 leftY pn st r₁.1 r₁.2 (le_refl _) hupd
                    (isYText_of_isYEl hel) hndL hltL hwf.1
                obtain ⟨m1, m2, m3, m4, m5, m6⟩ :=
                  (ihn _ htail).2 fragRef (idx + 1) yrest prest r₁.2 res₀.1 res₀.2
                    (le_refl _) hmid hndrest
                    (fun r hr => lt_of_lt_of_le (hltrest r hr) u5) hwf.2
                have hrootL : yref r₁.1 = yref leftY := u1
                have hrootkeep : mget res₀.2.mapping (yref leftY) =
                    some (LVal.lnode pn) := by
                  rw [m5 _ (hdisj _ (yref_mem_refsY leftY))
                    (lt_of_lt_of_le (hltL _ (yref_mem_refsY leftY)) u5)]
                  exact u9
                refine ⟨le_trans u5 m1, by simp [m2], ?_, ?_, ?_, ?_⟩
                · intro r hr
                  simp only [refsY.refsYL] at hr
                  rcases List.mem_append.mp hr with hrh | hrt
                  · rcases u6 r hrh with hold | hfresh
                    · exact Or.inl (by simp only [refsY.refsYL]
                                       exact List.mem_append.mpr (Or.inl hold))
                    · exact Or.inr ⟨hfresh.1, lt_of_lt_of_le hfresh.2 m1⟩
                  · rcases m3 r hrt with hold | hfresh
                    · exact Or.inl (by simp only [refsY.refsYL]
                                       exact List.mem_append.mpr (Or.inr hold))
                    · exact Or.inr ⟨le_trans u5 hfresh.1, hfresh.2⟩
                · simp only [refsY.refsYL]
                  rw [List.nodup_append]
                  refine ⟨u7, m4, ?_⟩
                  intro a haH haT
                  rcases u6 a haH with hold | hfresh
                  · rcases m3 a haT with hold2 | hfresh2
                    · exact hdisj a hold hold2
                    · have := hltL a hold
                      omega
                  · rcases m3 a haT with hold2 | hfresh2
                    · have := hltrest a hold2
                      omega
                    · omega
                · intro r hrout hrlt
                  have hnh : r ∉ refsY leftY := fun hmem =>
                    hrout (by simp only [refsY.refsYL]
                              exact List.mem_append.mpr (Or.inl hmem))
                  have hnt : r ∉ refsY.refsYL yrest := fun hmem =>
                    hrout (by simp only [refsY.refsYL]
                              exact List.mem_append.mpr (Or.inr hmem))
                  rw [m5 r hnt (lt_of_lt_of_le hrlt u5), u8 r hnh hrlt]
                · refine ⟨?_, m6⟩
                  left
                  rw [hrootL, hrootkeep]
                  exact mappedIdentity_lvalOfUnit (NUnit.single pn)
          · rename_i h1f
            split at hok2
            · rename_i h2
              split at hok2
              · exact Except.noConfusion hok2
              · rename_i r₁ hupd
                split at hok2
                · exact Except.noConfusion hok2
                · rename_i res₀ hmid
                  injection hok2 with hpair
                  injection hpair with hres hst
                  subst hres
                  subst hst
                  have huR := choiceOrThrow_snd _ _ _ _ _ _ hco h2
                  obtain ⟨hel, hmn⟩ := Bool.and_eq_true_iff.mp huR
                  obtain ⟨pnR, hglP⟩ : ∃ pn,
                      (leftP :: prest).getLast (List.cons_ne_nil _ _) =
                        NUnit.single pn := by
                    generalize (leftP :: prest).getLast (List.cons_ne_nil _ _) = gp at hmn
                    cases gp with
                    | single pn => exact ⟨pn, rfl⟩
                    | group ts => simp [matchNodeName] at hmn
                  have hysplit : leftY :: yrest =
                      (leftY :: yrest).dropLast ++
                        [(leftY :: yrest).getLast (List.cons_ne_nil _ _)] :=
                    (List.dropLast_append_getLast _).symm
                  have hpsplit : leftP :: prest =
                      (leftP :: prest).dropLast ++
                        [(leftP :: prest).getLast (List.cons_ne_nil _ _)] :=
                    (List.dropLast_append_getLast _).symm
                  have hrdecYL : refsY.refsYL (leftY :: yrest) =
                      refsY.refsYL ((leftY :: yrest).dropLast) ++
                        refsY ((leftY :: yrest).getLast (List.cons_ne_nil _ _)) := by
                    conv_lhs => rw [hysplit]
                    rw [refsYL_append, refsYL_singleton]
                  have hndDL : (refsY.refsYL ((leftY :: yrest).dropLast)).Nodup := by
                    rw [hrdecYL] at hnd
                    exact (List.nodup_append.mp hnd).1
                  have hndG : (refsY ((leftY :: yrest).getLast
                      (List.cons_ne_nil _ _))).Nodup := by
                    rw [hrdecYL] at hnd
                    exact (List.nodup_append.mp hnd).2.1
                  have hdisjDG : ∀ r ∈ refsY.refsYL ((leftY :: yrest).dropLast),
                      r ∉ refsY ((leftY :: yrest).getLast (List.cons_ne_nil _ _)) := by
                    rw [hrdecYL] at hnd
                    exact fun r hr hm2 => (List.nodup_append.mp hnd).2.2 hr hm2
                  have hltDL : ∀ r ∈ refsY.refsYL ((leftY :: yrest).dropLast),
                      r < st.nextRef := fun r hr =>
                    hlt r (by rw [hrdecYL]; exact List.mem_append.mpr (Or.inl hr))
                  have hltG : ∀ r ∈ refsY ((leftY :: yrest).getLast
                      (List.cons_ne_nil _ _)), r < st.nextRef := fun r hr =>
                    hlt r (by rw [hrdecYL]; exact List.mem_append.mpr (Or.inr hr))
                  have hszR : 3 * sizeP (nodeOfUnit ((leftP :: prest).getLast
                      (List.cons_ne_nil _ _))) + 1 < n := by
                    have hsz := sizeP_nodeOfUnit_le
                      ((leftP :: prest).getLast (List.cons_ne_nil _ _))
                    have hmem := sizeNU_mem_le
                      (List.getLast_mem (l := leftP :: prest) (List.cons_ne_nil _ _))
                    omega
                  have hwfG : pWF (nodeOfUnit ((leftP :: prest).getLast
                      (List.cons_ne_nil _ _))) := by
                    rw [hglP]
                    have := (pWFUL_iff (leftP :: prest)).mp hwf _
                      (List.getLast_mem (List.cons_ne_nil _ _))
                    rw [hglP] at this
                    exact this
                  obtain ⟨u1, u2, u3, u4, u5, u6, u7, u8, u9, u10, u11⟩ :=
                    (ihn _ hszR).1 ((leftY :: yrest).getLast (List.cons_ne_nil _ _))
                      (nodeOfUnit ((leftP :: prest).getLast (List.cons_ne_nil _ _)))
                      st r₁.1 r₁.2 (le_refl _) hupd (isYText_of_isYEl hel) hndG hltG hwfG
                  have hdropsz : 3 * sizeNUL (leftP :: prest).dropLast + 2 < n := by
                    have hdl := sizeNUL_dropLast (leftP :: prest) (List.cons_ne_nil _ _)
                    have hpos := sizeNU_pos ((leftP :: prest).getLast (List.cons_ne_nil _ _))
                    omega
                  have hwfDL : pWFUL ((leftP :: prest).dropLast) :=
                    pWFUL_sublist (List.dropLast_sublist _) hwf
                  obtain ⟨m1, m2, m3, m4, m5, m6⟩ :=
                    (ihn _ hdropsz).2 fragRef idx ((leftY :: yrest).dropLast)
                      ((leftP :: prest).dropLast) r₁.2 res₀.1 res₀.2
                      (le_refl _) hmid hndDL
                      (fun r hr => lt_of_lt_of_le (hltDL r hr) u5) hwfDL
                  have hglref : yref ((leftY :: yrest).getLast (List.cons_ne_nil _ _)) ∈
                      refsY ((leftY :: yrest).getLast (List.cons_ne_nil _ _)) :=
                    yref_mem_refsY _
                  have hrootkeep : mget res₀.2.mapping
                      (yref ((leftY :: yrest).getLast (List.cons_ne_nil _ _))) =
                      some (LVal.lnode (nodeOfUnit ((leftP :: prest).getLast
                        (List.cons_ne_nil _ _)))) := by
                    rw [m5 _ (fun hmem => hdisjDG _ hmem hglref)
                      (lt_of_lt_of_le (hltG _ hglref) u5)]
                    exact u9
                  have hreslen : res₀.1.length = (leftP :: prest).dropLast.length := m2
                  refine ⟨le_trans u5 m1, ?_, ?_, ?_, ?_, ?_⟩
                  · rw [List.length_append, hreslen, List.length_dropLast]
                    simp
                  · intro r hr
                    rw [refsYL_append, refsYL_singleton] at hr
                    rcases List.mem_append.mp hr with hrt | hrh
                    · rcases m3 r hrt with hold | hfresh
                      · exact Or.inl (by rw [hrdecYL]
                                         exact List.mem_append.mpr (Or.inl hold))
                      · exact Or.inr ⟨le_trans u5 hfresh.1, hfresh.2⟩
                    · rcases u6 r hrh with hold | hfresh
                      · exact Or.inl (by rw [hrdecYL]
                                         exact List.mem_append.mpr (Or.inr hold))
                      · exact Or.inr ⟨hfresh.1, lt_of_lt_of_le hfresh.2 m1⟩
                  · rw [refsYL_append, refsYL_singleton, List.nodup_append]
                    refine ⟨m4, u7, ?_⟩
                    intro a haT haH
                    rcases m3 a haT with hold | hfresh
                    · rcases u6 a haH with hold2 | hfresh2
                      · exact hdisjDG a hold hold2
                      · have := hltDL a hold
                        omega
                    · rcases u6 a haH with hold2 | hfresh2
                      · have := hltG a hold2
                        omega
                      · omega
                  · intro r hrout hrlt
                    have hnh : r ∉ refsY ((leftY :: yrest).getLast
                        (List.cons_ne_nil _ _)) := fun hmem =>
                      hrout (by rw [hrdecYL]; exact List.mem_append.mpr (Or.inr hmem))
                    have hnt : r ∉ refsY.refsYL ((leftY :: yrest).dropLast) :=
                      fun hmem =>
                        hrout (by rw [hrdecYL]; exact List.mem_append.mpr (Or.inl hmem))
                    rw [m5 r hnt (lt_of_lt_of_le hrlt u5), u8 r hnh hrlt]
                  · conv_rhs => rw [hpsplit]
                    refine SyncedL_append m6 ?_
                    refine ⟨?_, trivial⟩
                    left
                    rw [u1, hrootkeep, hglP]
                    exact mappedIdentity_lvalOfUnit (NUnit.single pnR)
            · dsimp only at hok2
              split at hok2
              · exact Except.noConfusion hok2
              · rename_i res₀ hmid
                injection hok2 with hpair
                injection hpair with hres hst
                subst hres
                subst hst
                obtain ⟨t1, t2, t3, t4, t5, t6⟩ :=
                  createTypeFromTextOrElementNode_post leftP
                    { st with log := st.log ++ [YOp.delOp fragRef idx 1] }
                have hmid2 : middleLoop fragRef (idx + 1) yrest prest
                    (USt.mk (createTypeFromTextOrElementNode leftP
                        { st with log := st.log ++ [YOp.delOp fragRef idx 1] }).2.mapping
                      (createTypeFromTextOrElementNode leftP
                        { st with log := st.log ++ [YOp.delOp fragRef idx 1] }).2.nextRef
                      ((createTypeFromTextOrElementNode leftP
                        { st with log := st.log ++ [YOp.delOp fragRef idx 1] }).2.log ++
                        [YOp.insOp fragRef idx 1])) = Except.ok res₀ := hmid
                obtain ⟨m1, m2, m3, m4, m5, m6⟩ :=
                  (ihn _ htail).2 fragRef (idx + 1) yrest prest
                    (USt.mk (createTypeFromTextOrElementNode leftP
                        { st with log := st.log ++ [YOp.delOp fragRef idx 1] }).2.mapping
                      (createTypeFromTextOrElementNode leftP
                        { st with log := st.log ++ [YOp.delOp fragRef idx 1] }).2.nextRef
                      ((createTypeFromTextOrElementNode leftP
                        { st with log := st.log ++ [YOp.delOp fragRef idx 1] }).2.log ++
                        [YOp.insOp fragRef idx 1]))
                    res₀.1 res₀.2 (le_refl _) hmid2 hndrest
                    (fun r hr => lt_of_lt_of_le (hltrest r hr) (le_of_lt t1)) hwf.2
                dsimp only at m1 m3 m5
                have hrootkeep : mget res₀.2.mapping st.nextRef =
                    some (lvalOfUnit leftP) := by
                  rw [m5 st.nextRef (fun hmem => by have := hltrest _ hmem; omega) t1]
                  exact t6
                refine ⟨le_trans (le_of_lt t1) m1, by simp [m2], ?_, ?_, ?_, ?_⟩
                · intro r hr
                  simp only [refsY.refsYL] at hr
                  rcases List.mem_append.mp hr with hrh | hrt
                  · have := t3 r hrh
                    exact Or.inr ⟨this.1, lt_of_lt_of_le this.2 m1⟩
                  · rcases m3 r hrt with hold | hfresh
                    · exact Or.inl (by simp only [refsY.refsYL]
                                       exact List.mem_append.mpr (Or.inr hold))
                    · exact Or.inr ⟨le_trans (le_of_lt t1) hfresh.1, hfresh.2⟩
                · simp only [refsY.refsYL]
                  rw [List.nodup_append]
                  refine ⟨t4, m4, ?_⟩
                  intro a haH haT
                  have hfr := t3 a haH
                  dsimp only at hfr
                  rcases m3 a haT with hold | hfresh
                  · have := hltrest a hold
                    omega
                  · omega
                · intro r hrout hrlt
                  have hnt : r ∉ refsY.refsYL yrest := fun hmem =>
                    hrout (by simp only [refsY.refsYL]
                              exact List.mem_append.mpr (Or.inr hmem))
                  rw [m5 r hnt (lt_of_lt_of_le hrlt (le_of_lt t1))]
                  exact t5 r hrlt
                · refine ⟨?_, m6⟩
                  left
                  rw [t2, hrootkeep]
                  exact mappedIdentity_lvalOfUnit leftP
        · exact hnotext
      rcases leftY with ⟨nmL, aL, csL, rL⟩ | ⟨csL, rL⟩ | ⟨runs, tref⟩
      · exact hcatch (fun runs2 tref2 ts2 hY hP => YNode.noConfusion hY) hok
      · exact hcatch (fun runs2 tref2 ts2 hY hP => YNode.noConfusion hY) hok
      · rcases leftP with ⟨pn⟩ | ⟨ts⟩
        · exact hcatch (fun runs2 tref2 ts2 hY hP => NUnit.noConfusion hP) hok
        · -- the genuine text pair
          rw [middleLoop] at hok
          have htail2 : 3 * sizeNUL prest + 2 < n := by
            simp [sizeNUL, sizeNU] at hm
            omega
          have hndrest2 : (refsY.refsYL yrest).Nodup := by
            simp only [refsY.refsYL, refsY] at hnd
            simpa using (List.nodup_append.mp hnd).2.1
          have hltrest2 : ∀ r ∈ refsY.refsYL yrest, r < st.nextRef := fun r hr =>
            hlt r (by simp only [refsY.refsYL, refsY]
                      exact List.mem_append.mpr (Or.inr hr))
          have htreflt : tref < st.nextRef :=
            hlt tref (by simp [refsY.refsYL, refsY])
          have htrefnot : tref ∉ refsY.refsYL yrest := by
            simp only [refsY.refsYL, refsY] at hnd
            intro hmem
            exact (List.nodup_append.mp hnd).2.2 (List.mem_singleton.mpr rfl) hmem
          split at hok
          · exact Except.noConfusion hok
          · rename_i heytn
            have heyt : eytThrows runs ts = false := by
              revert heytn
              cases eytThrows runs ts <;> simp
            cases hEq : equalYTextPText runs ts with
            | true =>
              simp only [hEq, Bool.not_true, Bool.false_eq_true, if_false] at hok
              split at hok
              · exact Except.noConfusion hok
              · rename_i res₀ hmid
                injection hok with hpair
                injection hpair with hres hst
                subst hres
                subst hst
                obtain ⟨m1, m2, m3, m4, m5, m6⟩ :=
                  (ihn _ htail2).2 fragRef (idx + 1) yrest prest st res₀.1 res₀.2
                    (le_refl _) hmid hndrest2 hltrest2 hwf.2
                refine ⟨m1, by simp [m2], ?_, ?_, ?_, ?_⟩
                · intro r hr
                  simp only [refsY.refsYL, refsY] at hr
                  rcases List.mem_append.mp hr with hrh | hrt
                  · exact Or.inl (by simp only [refsY.refsYL, refsY]
                                     exact List.mem_append.mpr (Or.inl hrh))
                  · rcases m3 r hrt with hold | hfresh
                    · exact Or.inl (by simp only [refsY.refsYL, refsY]
                                       exact List.mem_append.mpr (Or.inr hold))
                    · exact Or.inr hfresh
                · simp only [refsY.refsYL, refsY]
                  rw [List.nodup_append]
                  refine ⟨List.nodup_singleton _, m4, ?_⟩
                  intro a haH haT
                  rcases List.mem_singleton.mp haH with rfl
                  rcases m3 a haT with hold | hfresh
                  · exact htrefnot hold
                  · omega
                · intro r hrout hrlt
                  have hnt : r ∉ refsY.refsYL yrest := fun hmem =>
                    hrout (by simp only [refsY.refsYL, refsY]
                              exact List.mem_append.mpr (Or.inr hmem))
                  exact m5 r hnt hrlt
                · refine ⟨?_, m6⟩
                  right
                  refine ⟨?_, ?_⟩
                  · simp only [eqThrows]
                    exact heyt
                  · simp only [equalYTypePNode]
                    exact hEq
            | false =>
              simp only [hEq, Bool.not_false, if_true, updateYText] at hok
              split at hok
              · exact Except.noConfusion hok
              · rename_i res₀ hmid
                injection hok with hpair
                injection hpair with hres hst
                subst hres
                subst hst
                obtain ⟨m1, m2, m3, m4, m5, m6⟩ :=
                  (ihn _ htail2).2 fragRef (idx + 1) yrest prest
                    (USt.mk (mset st.mapping tref (LVal.lgroup ts)) st.nextRef
                      (st.log ++ [YOp.textOp tref]))
                    res₀.1 res₀.2 (le_refl _) hmid hndrest2 hltrest2 hwf.2
                dsimp only at m1 m3 m5
                have hrootkeep : mget res₀.2.mapping tref =
                    some (LVal.lgroup ts) := by
                  rw [m5 tref htrefnot htreflt]
                  exact mget_mset_self _ _ _
                refine ⟨m1, by simp [m2], ?_, ?_, ?_, ?_⟩
                · intro r hr
                  simp only [refsY.refsYL, refsY] at hr
                  rcases List.mem_append.mp hr with hrh | hrt
                  · exact Or.inl (by simp only [refsY.refsYL, refsY]
                                     exact List.mem_append.mpr (Or.inl hrh))
                  · rcases m3 r hrt with hold | hfresh
                    · exact Or.inl (by simp only [refsY.refsYL, refsY]
                                       exact List.mem_append.mpr (Or.inr hold))
                    · exact Or.inr hfresh
                · simp only [refsY.refsYL, refsY]
                  rw [List.nodup_append]
                  refine ⟨List.nodup_singleton _, m4, ?_⟩
                  intro a haH haT
                  rcases List.mem_singleton.mp haH with rfl
                  rcases m3 a haT with hold | hfresh
                  · exact htrefnot hold
                  · omega
                · intro r hrout hrlt
                  have hnt : r ∉ refsY.refsYL yrest := fun hmem =>
                    hrout (by simp only [refsY.refsYL, refsY]
                              exact List.mem_append.mpr (Or.inr hmem))
                  rw [m5 r hnt hrlt]
                  refine mget_mset_ne _ _ _ _ (fun hh => ?_)
                  subst hh
                  exact hrout (by simp [refsY.refsYL, refsY])
                · refine ⟨?_, m6⟩
                  left
                  show mappedIdentity (mget res₀.2.mapping tref) (NUnit.group ts) = true
                  rw [hrootkeep]
                  simp [mappedIdentity, pnodeBeqL_refl]


/-- The run-1 postcondition at its natural measure. -/
theorem updateYFragment_post (y : YNode) (p : PNode) (st : USt) (y' : YNode)
    (st' : USt) (hok : updateYFragment y p st = Except.ok (y', st'))
    (hty : isYText y = false) (hnd : (refsY y).Nodup)
    (hlt : ∀ r ∈ refsY y, r < st.nextRef) (hwf : pWF p) :
    yref y' = yref y ∧
    ynameOf y' = ynameOf y ∧
    isYEl y' = isYEl y ∧
    isYText y' = isYText y ∧
    st.nextRef ≤ st'.nextRef ∧
    (∀ r ∈ refsY y', r ∈ refsY y ∨ (st.nextRef ≤ r ∧ r < st'.nextRef)) ∧
    (refsY y').Nodup ∧
    (∀ r, r ∉ refsY y → r < st.nextRef →
      mget st'.mapping r = mget st.mapping r) ∧
    mget st'.mapping (yref y) = some (LVal.lnode p) ∧
    (isYEl y = true → AttrsSynced (yattrsOf y') (attrsOf p)) ∧
    SyncedL st'.mapping (ychildren y') (normalizePNodeContent (contentOf p)) :=
  (updateYFragment_post_measure (3 * sizeP p + 1)).1 y p st y' st' (le_refl _)
    hok hty hnd hlt hwf

/-- The empty middle loop does nothing. -/
theorem middleLoop_nil (fr i : Nat) (stx : USt) :
    middleLoop fr i [] [] stx = Except.ok ([], stx) := by
  rw [middleLoop]

/-- C3: the reconciler is idempotent — after a completed run
`updateYFragment y p st = .ok (y', st')` on a non-text root with
distinct identities below the allocation counter and unique local
attribute keys, running `updateYFragment` again on the produced
replicated tree `y'`, the same local node and the resulting state
performs zero replicated mutations: the second run succeeds, returns
the very same tree, allocates nothing (`nextRef` unchanged) and emits
no operation (the op log, which records every insert, delete and
attribute write, is unchanged); only the local ProsemirrorMapping may
be refreshed. -/
theorem c3_second_run_is_noop (y : YNode) (p : PNode) (st : USt) (y' : YNode)
    (st' : USt) (hok : updateYFragment y p st = Except.ok (y', st'))
    (hty : isYText y = false) (hnd : (refsY y).Nodup)
    (hlt : ∀ r ∈ refsY y, r < st.nextRef) (hwf : pWF p) :
    ∃ M₂, updateYFragment y' p st' =
      Except.ok (y', USt.mk M₂ st'.nextRef st'.log) := by
  obtain ⟨u1, u2, u3, u4, u5, u6, u7, u8, u9, u10, u11⟩ :=
    updateYFragment_post y p st y' st' hok hty hnd hlt hwf
  have hname : isYEl y = true → ynameOf y = pName p := by
    intro hel
    by_contra hne
    rw [updateYFragment, if_pos (by simp [hel, hne])] at hok
    exact Except.noConfusion hok
  have hguard : (isYEl y' && (ynameOf y' != pName p)) = false := by
    rw [u3, u2]
    cases hel : isYEl y
    · simp
    · simp [hname hel]
  have htyd : isYText y' = false := by rw [u4]; exact hty
  have hrootv : mget st'.mapping (yref y') = some (LVal.lnode p) := by
    rw [u1]; exact u9
  have hMpt : ∀ r, mget (mset st'.mapping (yref y') (LVal.lnode p)) r =
      mget st'.mapping r :=
    mget_mset_pointwise _ _ _ hrootv
  have hsyncM : SyncedL (mset st'.mapping (yref y') (LVal.lnode p))
      (ychildren y') (normalizePNodeContent (contentOf p)) :=
    SyncedL_transport (fun y₂ _ => hMpt (yref y₂)) u11
  have hndc : (refsY.refsYL (ychildren y')).Nodup := by
    have := u7
    rw [refsY_decomp y' htyd] at this
    exact (List.nodup_cons.mp this).2
  have htops : ((ychildren y').map yref).Nodup :=
    tops_nodup_of_refsYL_nodup _ hndc
  have hls0 : lsThrows (mset st'.mapping (yref y') (LVal.lnode p))
      (ychildren y') (normalizePNodeContent (contentOf p)) = false :=
    lsThrows_synced _ _ _ hsyncM htops
  have hfull : (leftScan (mset st'.mapping (yref y') (LVal.lnode p))
      (ychildren y') (normalizePNodeContent (contentOf p))).1 =
      (ychildren y').length :=
    leftScan_full _ _ _ hsyncM htops
  have hlen : (ychildren y').length =
      (normalizePNodeContent (contentOf p)).length :=
    SyncedL_length u11
  have harx : (if isYEl y' = true then
      updateAttrs (yref y') (yattrsOf y') (attrsOf p)
        { st' with mapping := mset st'.mapping (yref y') (LVal.lnode p) }
    else (yattrsOf y',
      { st' with mapping := mset st'.mapping (yref y') (LVal.lnode p) })) =
      (yattrsOf y',
        { st' with mapping := mset st'.mapping (yref y') (LVal.lnode p) }) := by
    split
    · rename_i hel
      exact updateAttrs_noop _ _ _ _ (u10 (by rw [← u3]; exact hel))
    · rfl
  have hbud : min (normalizePNodeContent (contentOf p)).length
      (ychildren y').length - (ychildren y').length - 1 = 0 := by
    rw [hlen]
    simp
  have hmsY : midSlice (ychildren y') (ychildren y').length 0 = [] := by
    simp [midSlice]
  have hmsP : midSlice (normalizePNodeContent (contentOf p))
      ((ychildren y').length) 0 = [] := by
    rw [hlen]
    simp [midSlice]
  refine ⟨(leftScan (mset st'.mapping (yref y') (LVal.lnode p))
    (ychildren y') (normalizePNodeContent (contentOf p))).2, ?_⟩
  rw [updateYFragment]
  simp only [hguard, Bool.false_eq_true, if_false, harx, hls0, hfull, hbud,
    rsThrows_zero, rightScan_zero, hmsY, hmsP, middleLoop_nil, if_true,
    List.take_length, Nat.sub_zero, List.drop_length, List.append_nil,
    setYChildren_self]


/-- Witness for the C3 theorem at a concrete input: one completed run on
an empty fragment, then the second run returns the same tree with the
allocation counter and op log unchanged. -/
theorem c3_witness :
    ∃ M₂, updateYFragment (YNode.yfrag [] 0) (PNode.node "doc" [] [] 1)
        (USt.mk [(0, LVal.lnode (PNode.node "doc" [] [] 1))] 5 []) =
      Except.ok (YNode.yfrag [] 0, USt.mk M₂ 5 []) := by
  have hok : updateYFragment (YNode.yfrag [] 0) (PNode.node "doc" [] [] 1)
      (USt.mk [] 5 []) =
      Except.ok (YNode.yfrag [] 0,
        USt.mk [(0, LVal.lnode (PNode.node "doc" [] [] 1))] 5 []) := by
    have hnorm : normalizePNodeContent
        (contentOf (PNode.node "doc" [] [] 1)) = [] := by
      simp only [contentOf]
      rw [normalizePNodeContent]
    rw [updateYFragment]
    simp only [isYEl, Bool.false_and, Bool.false_eq_true, if_false, hnorm,
      ychildren, yattrsOf, mset, lsThrows, leftScan, rsThrows_zero,
      rightScan_zero, midSlice, middleLoop_nil, setYChildren,
      List.take_nil, List.drop_nil, List.append_nil, List.nil_append,
      Nat.min_self, Nat.sub_zero, Nat.zero_sub, List.length_nil, yref]
  exact c3_second_run_is_noop _ _ _ _ _ hok rfl (by decide) (by decide)
    (by simp [pWF, pWFL])


/-! ## Round-trip materialization (claim C2) -/

mutual

/-- prosemirror-model `Node.eq`: structural equality of local nodes —
same type name, attributes, marks, text and children — ignoring object
identity (`===` is only its fast path). -/
def pnodeEq : PNode → PNode → Bool
  | .node n a c _, .node n' a' c' _ => n == n' && jbeqF a a' && pnodeEqL c c'
  | .ptext s m _, .ptext s' m' _ => s == s' && pmarkBeqL m m'
  | _, _ => false

/-- `Fragment.eq`: `Node.eq` positionally over child lists. -/
def pnodeEqL : List PNode → List PNode → Bool
  | [], [] => true
  | x :: xs, y :: ys => pnodeEq x y && pnodeEqL xs ys
  | _, _ => false

end

/-- Flattening of a normalized child sequence back to the child list. -/
def flattenU : List NUnit → List PNode
  | [] => []
  | .single n :: rest => n :: flattenU rest
  | .group ts :: rest => ts ++ flattenU rest

/-- The delta run list `createTypeFromTextNodes` builds from a group of
consecutive local text nodes. -/
def runsOfTexts (ts : List PNode) : List Run :=
  ts.map fun n => (textOf n, marksToAttributes (marksOf n))

/-- Attribute-map hygiene for an exact round trip: no null-valued
attribute (dropped on projection) and no `ychange` key (reserved and
dropped on projection). -/
def attrsClean (a : Attrs) : Bool :=
  a.all fun kv => !(jbeq kv.2 JVal.jnull) && kv.1 != "ychange"

/-- Mark hygiene: no `ychange` mark (dropped by `marksToAttributes`). -/
def marksClean (ms : List PMark) : Bool :=
  ms.all fun m => m.name != "ychange"

mutual

/-- Round-trip hygiene of a local element node: clean attributes, and
every normalized child unit clean.  (Only element nodes are projected
through `createTypeFromElementNode`; a bare text node never reaches
it.) -/
def cleanP (node : PNode) : Prop :=
  match node with
  | .ptext _ _ _ => False
  | .node nm a cs rr =>
    attrsClean a = true ∧ cleanUL (normalizePNodeContent cs)
termination_by 3 * sizeP node
decreasing_by
  have h1 := sizeNUL_normalize_le cs
  simp [sizeP]
  omega

/-- `cleanP` over a normalized unit list. -/
def cleanUL (us : List NUnit) : Prop :=
  match us with
  | [] => True
  | u :: rest => cleanU u ∧ cleanUL rest
termination_by 3 * sizeNUL us + 2
decreasing_by
  all_goals (have hu := sizeNU_pos u; simp [sizeNUL]; omega)

/-- Round-trip hygiene of one normalized unit: a text group is all
text, carries clean marks and its run list is already in the normal
form `toDelta` reports (no empty run, no two adjacent runs with equal
formatting — those merge inside the text CRDT); a single node is a
clean element. -/
def cleanU (u : NUnit) : Prop :=
  match u with
  | .group ts =>
    ts.all isText = true ∧ (ts.all fun t => marksClean (marksOf t)) = true ∧
      normRuns (runsOfTexts ts) = runsOfTexts ts
  | .single n => cleanP n
termination_by 3 * sizeNU u + 1
decreasing_by
  simp [sizeNU]
  try omega

end

theorem flattenU_normalize_measure : ∀ (n : Nat) (l : List PNode),
    l.length ≤ n → flattenU (normalizePNodeContent l) = l := by
  intro n
  induction n with
  | zero =>
    intro l hl
    have : l = [] := List.length_eq_zero.mp (Nat.le_zero.mp hl)
    subst this
    rw [normalizePNodeContent, flattenU]
  | succ n ih =>
    intro l hl
    cases l with
    | nil => rw [normalizePNodeContent, flattenU]
    | cons x rest =>
      rw [normalizePNodeContent]
      by_cases hx : isText x
      · rw [if_pos hx, flattenU]
        have hdl : (rest.dropWhile isText).length ≤ n := by
          have := List.Sublist.length_le
            (List.dropWhile_sublist (l := rest) (p := isText))
          simp only [List.length_cons] at hl
          omega
        rw [ih _ hdl]
        simp [List.takeWhile_append_dropWhile]
      · rw [if_neg hx, flattenU]
        have hr : rest.length ≤ n := by
          simp only [List.length_cons] at hl
          omega
        rw [ih _ hr]

/-- Flattening the normalized child sequence recovers the child list. -/
theorem flattenU_normalize (l : List PNode) :
    flattenU (normalizePNodeContent l) = l :=
  flattenU_normalize_measure l.length l (le_refl _)

/-- Under the permissive schema the mark loop of
`createTextNodesFromYText` succeeds and echoes the formatting keys. -/
theorem marksOfTAttrs_any (ta : TAttrs) :
    marksOfTAttrs anySchema ta =
      some (ta.map fun q => PMark.mk q.1 q.2) := by
  induction ta with
  | nil => rfl
  | cons hd tl ih =>
    obtain ⟨k, a⟩ := hd
    have hm : anySchema.mark k a = some (PMark.mk k a) := rfl
    simp [marksOfTAttrs, hm, ih]

/-- Under the permissive schema the run loop of
`createTextNodesFromYText` succeeds and yields one text node per run. -/
theorem textNodesOfDelta_any (d : List Run) :
    textNodesOfDelta anySchema d =
      some (d.map fun rn =>
        PNode.ptext rn.1 (rn.2.map fun q => PMark.mk q.1 q.2) 0) := by
  induction d with
  | nil => rfl
  | cons hd tl ih =>
    obtain ⟨s, ta⟩ := hd
    have ht : ∀ (str : String) (ms : List PMark),
        anySchema.text str ms = some (PNode.ptext str ms 0) :=
      fun _ _ => rfl
    simp [textNodesOfDelta, marksOfTAttrs_any, ht, ih]

theorem pmark_map_mk (ms : List PMark) :
    (ms.map fun m => PMark.mk m.name m.attrs) = ms := by
  induction ms with
  | nil => rfl
  | cons m rest ih => simp [ih]

/-- The text nodes materialized from a clean group's runs are
structurally equal to the group. -/
theorem pnodeEqL_texts (ts : List PNode) (hall : ts.all isText = true)
    (hmk : (ts.all fun t => marksClean (marksOf t)) = true) :
    pnodeEqL ((runsOfTexts ts).map fun rn =>
      PNode.ptext rn.1 (rn.2.map fun q => PMark.mk q.1 q.2) 0) ts = true := by
  induction ts with
  | nil => rfl
  | cons t rest ih =>
    simp only [List.all_cons, Bool.and_eq_true] at hall hmk
    cases t with
    | node nm a c r => simp [isText] at hall
    | ptext s ms rt =>
      simp only [runsOfTexts, List.map_cons]
      rw [pnodeEqL]
      have hf : ms.filter (fun m => m.name != "ychange") = ms :=
        List.filter_eq_self.mpr fun m hm =>
          List.all_eq_true.mp hmk.1 m hm
      simp only [textOf, marksOf, pnodeEq, marksToAttributes, hf,
        List.map_map, Bool.and_eq_true, beq_self_eq_true, true_and]
      refine ⟨?_, ?_⟩
      · have : (ms.map fun m => PMark.mk m.name m.attrs) = ms :=
          pmark_map_mk ms
        calc pmarkBeqL (ms.map fun m => PMark.mk m.name m.attrs) ms
            = pmarkBeqL ms ms := by rw [this]
          _ = true := pmarkBeqL_refl ms
      · have := ih hall.2 hmk.2
        simpa [runsOfTexts] using this

/-- `Fragment.eq` respects positional concatenation. -/
theorem pnodeEqL_append : ∀ (a b c d : List PNode),
    pnodeEqL a b = true → pnodeEqL c d = true →
    pnodeEqL (a ++ c) (b ++ d) = true := by
  intro a
  induction a with
  | nil =>
    intro b c d h1 h2
    cases b with
    | nil => simpa
    | cons y ys => simp [pnodeEqL] at h1
  | cons x xs ih =>
    intro b c d h1 h2
    cases b with
    | nil => simp [pnodeEqL] at h1
    | cons y ys =>
      rw [pnodeEqL] at h1
      simp only [Bool.and_eq_true] at h1
      simp only [List.cons_append]
      rw [pnodeEqL]
      simp only [Bool.and_eq_true]
      exact ⟨h1.1, ih _ _ _ h1.2 h2⟩

/-- A clean attribute map passes the projection filter unchanged. -/
theorem attrsClean_filter (a : Attrs) (h : attrsClean a = true) :
    (a.filter fun kv => !(jbeq kv.2 JVal.jnull) && kv.1 != "ychange") = a :=
  List.filter_eq_self.mpr fun kv hkv => List.all_eq_true.mp h kv hkv


/-- Round trip of the projection: materializing (over a fresh mapping,
under the permissive schema) the replicated types that
`createTypeFromElementNode` / `createTypeList` build from clean local
nodes succeeds and returns nodes structurally equal to the originals. -/
theorem materialize_roundtrip_measure : ∀ (k : Nat),
    (∀ (node : PNode) (st : USt), 3 * sizeP node ≤ k → cleanP node →
      ∀ (mst : MSt),
      (∀ rr ∈ refsY (createTypeFromElementNode node st).1,
        mget mst.mapping rr = none) →
      ∃ nd mst₂,
        createNodeFromYElement (createTypeFromElementNode node st).1
          anySchema mst = (some nd, mst₂) ∧
        pnodeEq nd node = true ∧
        (∀ rr, rr ∉ refsY (createTypeFromElementNode node st).1 →
          mget mst₂.mapping rr = mget mst.mapping rr)) ∧
    (∀ (us : List NUnit) (st : USt), 3 * sizeNUL us + 2 ≤ k → cleanUL us →
      ∀ (mst : MSt),
      (∀ rr ∈ refsY.refsYL (createTypeList us st).1,
        mget mst.mapping rr = none) →
      ∃ ps mst₂,
        createChildrenList (createTypeList us st).1 anySchema mst =
          (ps, mst₂) ∧
        pnodeEqL ps (flattenU us) = true ∧
        (∀ rr, rr ∉ refsY.refsYL (createTypeList us st).1 →
          mget mst₂.mapping rr = mget mst.mapping rr)) := by
  intro k
  induction k using Nat.strong_induction_on with
  | _ k ih =>
  constructor
  · intro node st hsz hclean mst hmiss
    cases node with
    | ptext s2 ms2 rp => simp only [cleanP] at hclean
    | node nm a cs r =>
      simp only [cleanP] at hclean
      obtain ⟨hac, hcul⟩ := hclean
      rw [createTypeFromElementNode] at hmiss ⊢
      dsimp only at hmiss ⊢
      simp only [pName, attrsOf, contentOf] at hmiss ⊢
      rw [attrsClean_filter a hac] at hmiss ⊢
      have hm2 : 3 * sizeNUL (normalizePNodeContent cs) + 2 < k := by
        have h1 := sizeNUL_normalize_le cs
        have h2 : sizeP (PNode.node nm a cs r) = 1 + sizeP.sizePL cs := rfl
        omega
      obtain ⟨ps, mst₂, hmat, heqL, hfr⟩ :=
        (ih _ hm2).2 (normalizePNodeContent cs)
          { st with nextRef := st.nextRef + 1 } (le_refl _) hcul mst
          (fun rr hrr => hmiss rr (by
            simp only [refsY]
            exact List.mem_cons_of_mem _ hrr))
      simp only [createNodeFromYElement]
      rw [hmat]
      dsimp only
      have han : anySchema.node nm a ps = some (PNode.node nm a ps 0) := rfl
      rw [han]
      refine ⟨_, _, rfl, ?_, ?_⟩
      · rw [pnodeEq]
        rw [flattenU_normalize cs] at heqL
        simp [jbeqF_refl, heqL]
      · intro rr hrr
        simp only [refsY, List.mem_cons, not_or] at hrr
        dsimp only
        rw [mget_mset_ne _ _ _ _ hrr.1]
        exact hfr rr hrr.2
  · intro us st hsz hcul mst hmiss
    cases us with
    | nil =>
      simp only [createTypeList] at hmiss ⊢
      refine ⟨[], mst, ?_, rfl, fun rr _ => rfl⟩
      rw [createChildrenList]
    | cons u rest =>
      simp only [cleanUL] at hcul
      obtain ⟨hcu, hcrest⟩ := hcul
      have hnds := (createTypeList_post (u :: rest) st).2.2.2.1
      simp only [createTypeList] at hnds hmiss ⊢
      simp only [refsY.refsYL] at hnds hmiss ⊢
      cases u with
      | single nd =>
        simp only [cleanU] at hcu
        cases nd with
        | ptext s2 ms2 rp => simp only [cleanP] at hcu
        | node nm a cs r =>
          simp only [createTypeFromTextOrElementNode] at hnds hmiss ⊢
          have hm1 : 3 * sizeP (PNode.node nm a cs r) < k := by
            have h2 : sizeNUL (NUnit.single (PNode.node nm a cs r) :: rest) =
                sizeP (PNode.node nm a cs r) + sizeNUL rest := rfl
            omega
          obtain ⟨nd', mstA, hmat1, heq1, hfr1⟩ :=
            (ih _ hm1).1 (PNode.node nm a cs r) st (le_refl _) hcu mst
              (fun rr hrr => hmiss rr (List.mem_append_left _ hrr))
          obtain ⟨n2, a2, cs2, r2, hY⟩ :
              ∃ n2 a2 cs2 r2,
                (createTypeFromElementNode (PNode.node nm a cs r) st).1 =
                  YNode.yel n2 a2 cs2 r2 := by
            rw [createTypeFromElementNode]
            exact ⟨_, _, _, _, rfl⟩
          rw [hY] at hnds hmiss hmat1 hfr1 ⊢
          have hnone : mget mst.mapping r2 = none := by
            apply hmiss r2
            apply List.mem_append_left
            simp [refsY]
          simp only [createChildrenList]
          rw [createNodeIfNotExists]
          simp only [yref]
          rw [hnone]
          dsimp only
          rw [hmat1]
          dsimp only
          have hm2 : 3 * sizeNUL rest + 2 < k := by
            have h2 : sizeNUL (NUnit.single (PNode.node nm a cs r) :: rest) =
                sizeP (PNode.node nm a cs r) + sizeNUL rest := rfl
            have hp := sizeP_pos (PNode.node nm a cs r)
            omega
          rw [List.nodup_append] at hnds
          obtain ⟨ps2, mstB, hmat2, heq2, hfr2⟩ :=
            (ih _ hm2).2 rest
              ((createTypeFromElementNode (PNode.node nm a cs r) st).2)
              (le_refl _) hcrest mstA
              (fun rr hrr => by
                rw [hfr1 rr (fun hh => hnds.2.2 hh hrr)]
                exact hmiss rr (List.mem_append_right _ hrr))
          rw [hmat2]
          refine ⟨_, _, rfl, ?_, ?_⟩
          · rw [flattenU]
            dsimp only [Option.elim, List.singleton_append]
            rw [pnodeEqL]
            simp [heq1, heq2]
          · intro rr hrr
            simp only [List.mem_append, not_or] at hrr
            rw [hfr2 rr hrr.2, hfr1 rr hrr.1]
      | group ts =>
        simp only [cleanU] at hcu
        obtain ⟨hallt, hmks, hstab⟩ := hcu
        simp only [runsOfTexts] at hstab
        simp only [createTypeFromTextOrElementNode] at hnds hmiss ⊢
        rw [createTypeFromTextNodes] at hnds hmiss ⊢
        dsimp only at hnds hmiss ⊢
        rw [hstab] at hnds hmiss ⊢
        simp only [createChildrenList]
        rw [createTextNodesFromYText]
        rw [hstab]
        rw [textNodesOfDelta_any]
        dsimp only
        have hm2 : 3 * sizeNUL rest + 2 < k := by
          have h2 : sizeNUL (NUnit.group ts :: rest) = 1 + sizeNUL rest := rfl
          omega
        obtain ⟨ps2, mstB, hmat2, heq2, hfr2⟩ :=
          (ih _ hm2).2 rest
            { st with
              nextRef := st.nextRef + 1
              mapping := mset st.mapping st.nextRef (LVal.lgroup ts) }
            (le_refl _) hcrest mst
            (fun rr hrr => hmiss rr (List.mem_append_right _ hrr))
        rw [hmat2]
        refine ⟨_, _, rfl, ?_, ?_⟩
        · rw [flattenU]
          apply pnodeEqL_append
          · exact pnodeEqL_texts ts hallt hmks
          · exact heq2
        · intro rr hrr
          simp only [List.mem_append, not_or] at hrr
          exact hfr2 rr hrr.2


/-- C2 (amended): content fidelity of reconcile-then-materialize holds
for hygienic documents, not for every schema-valid one.  After
`updateYFragment` projects the local node `p` into a fresh replicated
fragment, materializing the fragment's children back to local nodes
(`createNodeFromYElement` / `createTextNodesFromYText` over each child,
fresh mapping, permissive schema) yields a child list structurally
equal (prosemirror-model `Node.eq`, identity-free) to `p`'s children —
provided the tree is round-trip clean: no null-valued attribute and no
`ychange` attribute or mark anywhere (both are dropped by the
projection), and every run of consecutive text children is already in
the normal form the text CRDT reports (no empty text node, no two
adjacent text nodes with equal formatting, which `toDelta` merges into
one). -/
theorem c2_amended (p : PNode) (r n : Nat) (y' : YNode) (st' : USt)
    (hrun : updateYFragment (YNode.yfrag [] r) p (USt.mk [] n []) =
      Except.ok (y', st'))
    (hclean : cleanUL (normalizePNodeContent (contentOf p))) :
    ∃ ps mst₂,
      createChildrenList (ychildren y') anySchema (MSt.mk [] []) =
        (ps, mst₂) ∧
      pnodeEqL ps (contentOf p) = true := by
  rw [updateYFragment] at hrun
  rw [if_neg (by simp [isYEl])] at hrun
  simp only [isYEl, Bool.false_eq_true, if_false, ychildren, yref,
    yattrsOf, mset, lsThrows, leftScan, List.length_nil, Nat.min_zero,
    Nat.sub_zero, Nat.zero_sub, List.reverse_nil, rsThrows_zero,
    rightScan_zero, midSlice, List.drop_zero, List.take_length,
    List.take_nil, List.drop_nil, List.append_nil, List.nil_append,
    setYChildren] at hrun
  cases hpc : normalizePNodeContent (contentOf p) with
  | nil =>
    rw [hpc, middleLoop_nil] at hrun
    simp only [Except.ok.injEq, Prod.mk.injEq] at hrun
    obtain ⟨hy, hst⟩ := hrun
    subst hy
    simp only [ychildren]
    have hc : contentOf p = [] := by
      rw [← flattenU_normalize (contentOf p), hpc]
      rfl
    refine ⟨[], MSt.mk [] [], ?_, ?_⟩
    · rw [createChildrenList]
    · rw [hc]
      rfl
  | cons u us =>
    rw [hpc] at hrun
    rw [middleLoop] at hrun
    dsimp only at hrun
    simp only [Except.ok.injEq, Prod.mk.injEq] at hrun
    obtain ⟨hy, hst⟩ := hrun
    subst hy
    simp only [ychildren]
    obtain ⟨ps, mst₂, hmat, heq, _⟩ :=
      (materialize_roundtrip_measure (3 * sizeNUL (u :: us) + 2)).2
        (u :: us) _ (le_refl _) (hpc ▸ hclean) (MSt.mk [] [])
        (fun rr _ => rfl)
    refine ⟨ps, mst₂, hmat, ?_⟩
    rw [← flattenU_normalize (contentOf p), hpc]
    exact heq


/-- Witness for the C2 theorem at a concrete input: a childless clean
document round-trips to a structurally equal (empty) child list. -/
theorem c2_amended_witness :
    ∃ ps mst₂,
      createChildrenList (ychildren (YNode.yfrag [] 0)) anySchema
        (MSt.mk [] []) = (ps, mst₂) ∧
      pnodeEqL ps (contentOf (PNode.node "doc" [] [] 1)) = true := by
  have hok : updateYFragment (YNode.yfrag [] 0) (PNode.node "doc" [] [] 1)
      (USt.mk [] 5 []) =
      Except.ok (YNode.yfrag [] 0,
        USt.mk [(0, LVal.lnode (PNode.node "doc" [] [] 1))] 5 []) := by
    have hnorm : normalizePNodeContent
        (contentOf (PNode.node "doc" [] [] 1)) = [] := by
      simp only [contentOf]
      rw [normalizePNodeContent]
    rw [updateYFragment]
    rw [if_neg (by decide)]
    simp only [isYEl, Bool.false_and, Bool.false_eq_true, if_false, hnorm,
      ychildren, yattrsOf, mset, lsThrows, leftScan, rsThrows_zero,
      rightScan_zero, midSlice, middleLoop_nil, setYChildren,
      List.take_nil, List.drop_nil, List.append_nil, List.nil_append,
      Nat.min_self, Nat.sub_zero, Nat.zero_sub, List.length_nil, yref]
  have hcl : cleanUL (normalizePNodeContent
      (contentOf (PNode.node "doc" [] [] 1))) := by
    have h1 : normalizePNodeContent
        (contentOf (PNode.node "doc" [] [] 1)) = [] := by
      simp only [contentOf]
      rw [normalizePNodeContent]
    rw [h1]
    simp only [cleanUL]
  exact c2_amended _ _ _ _ _ hok hcl

/-- C2, counterexample to the claimed round trip: a schema-valid local
document whose paragraph carries a non-null `ychange` attribute.  The
projection drops the `ychange` key (`createTypeFromElementNode` skips
it), so materializing the projected fragment back yields a paragraph
without it — not structurally equal to the original document. -/
theorem c2_counterexample :
    ∃ y' st',
      updateYFragment (YNode.yfrag [] 0)
        (PNode.node "doc" []
          [PNode.node "p" [("ychange", JVal.jprim "x")] [] 9] 1)
        (USt.mk [] 5 []) = Except.ok (y', st') ∧
      ∀ ps mst₂,
        createChildrenList (ychildren y') anySchema (MSt.mk [] []) =
          (ps, mst₂) →
        pnodeEqL ps
          (contentOf (PNode.node "doc" []
            [PNode.node "p" [("ychange", JVal.jprim "x")] [] 9] 1)) =
          false := by
  have hnorm0 : normalizePNodeContent ([] : List PNode) = [] := by
    rw [normalizePNodeContent]
  have hnorm : normalizePNodeContent
      (contentOf (PNode.node "doc" []
        [PNode.node "p" [("ychange", JVal.jprim "x")] [] 9] 1)) =
      [NUnit.single (PNode.node "p" [("ychange", JVal.jprim "x")] [] 9)] := by
    simp only [contentOf]
    rw [normalizePNodeContent]
    simp only [isText, Bool.false_eq_true, if_false, hnorm0]
  have hcel : createTypeFromElementNode
      (PNode.node "p" [("ychange", JVal.jprim "x")] [] 9)
      (USt.mk [(0, LVal.lnode (PNode.node "doc" []
        [PNode.node "p" [("ychange", JVal.jprim "x")] [] 9] 1))] 5 []) =
      (YNode.yel "p" [] [] 5,
        USt.mk [(0, LVal.lnode (PNode.node "doc" []
            [PNode.node "p" [("ychange", JVal.jprim "x")] [] 9] 1)),
          (5, LVal.lnode (PNode.node "p" [("ychange", JVal.jprim "x")] [] 9))]
          6 []) := by
    rw [createTypeFromElementNode]
    simp only [pName, attrsOf, contentOf, hnorm0, createTypeList, mset]
    simp [List.filter]
  have hmid : middleLoop 0 0 []
      [NUnit.single (PNode.node "p" [("ychange", JVal.jprim "x")] [] 9)]
      (USt.mk [(0, LVal.lnode (PNode.node "doc" []
        [PNode.node "p" [("ychange", JVal.jprim "x")] [] 9] 1))] 5 []) =
      Except.ok ([YNode.yel "p" [] [] 5],
        USt.mk [(0, LVal.lnode (PNode.node "doc" []
            [PNode.node "p" [("ychange", JVal.jprim "x")] [] 9] 1)),
          (5, LVal.lnode (PNode.node "p" [("ychange", JVal.jprim "x")] [] 9))]
          6 [YOp.insOp 0 0 1]) := by
    rw [middleLoop]
    simp only [createTypeList, createTypeFromTextOrElementNode, hcel,
      List.nil_append, List.length_cons, List.length_nil, Nat.zero_add]
  refine ⟨YNode.yfrag [YNode.yel "p" [] [] 5] 0,
    USt.mk [(0, LVal.lnode (PNode.node "doc" []
        [PNode.node "p" [("ychange", JVal.jprim "x")] [] 9] 1)),
      (5, LVal.lnode (PNode.node "p" [("ychange", JVal.jprim "x")] [] 9))]
      6 [YOp.insOp 0 0 1], ?_, ?_⟩
  · rw [updateYFragment]
    rw [if_neg (by decide)]
    simp only [isYEl, Bool.false_eq_true, if_false, hnorm, ychildren, yref,
      yattrsOf, mset, lsThrows, leftScan, List.length_nil, Nat.min_zero,
      Nat.sub_zero, Nat.zero_sub, List.reverse_nil, rsThrows_zero,
      rightScan_zero, midSlice, List.drop_zero, List.take_length,
      List.take_nil, List.drop_nil, List.append_nil, List.nil_append,
      setYChildren]
    rw [hmid]
  · intro ps mst₂ hmat
    have hm : createChildrenList
        (ychildren (YNode.yfrag [YNode.yel "p" [] [] 5] 0)) anySchema
        (MSt.mk [] []) =
        ([PNode.node "p" [] [] 0],
          MSt.mk [(5, LVal.lnode (PNode.node "p" [] [] 0))] []) := by
      simp only [ychildren]
      rw [createChildrenList]
      rw [createNodeIfNotExists]
      simp only [yref, mget]
      simp only [createNodeFromYElement]
      rw [createChildrenList]
      have han : anySchema.node "p" [] [] = some (PNode.node "p" [] [] 0) :=
        rfl
      rw [han]
      rw [createChildrenList]
      simp [mset]
    have hcmb := hm.symm.trans hmat
    simp only [Prod.mk.injEq] at hcmb
    obtain ⟨hps, _⟩ := hcmb
    subst hps
    simp only [contentOf]
    rw [pnodeEqL]
    rw [pnodeEq]
    simp [jbeqF]

end YPM